import Mathlib

/-!
# BadgerDB storage core: buffer manager (clock replacement) and B+Tree index

A shallow embedding of `buffer.cpp` (class `BufMgr`) and of the scan / insert
routines of `btree.cpp` (class `BTreeIndex`), followed by the theorems that
settle the specification's claims about them.

Conventions of the embedding

* A C++ method that mutates the object and may throw becomes a function from
  the state to a pair `(result, state)`: the state component is the object as
  the method left it, also when it threw (C++ does not roll back).
* `File &file` is a handle; the pages stored behind the handles live in
  `Disk`, which also keeps the chronological log of the calls made on the
  file collaborator.
* `Page *&page` (a pointer into `bufPool`) is returned as the frame index.
* `FrameId`, `PageId` and the identity of a `File` handle (`File::operator==`)
  are natural numbers.
-/

namespace badgerdb

/-! ## Collaborators that `buffer.cpp` uses -/

/-- Modelled from the spec: the class `Page` is not part of the sources. A page
carries its own page number (`page_number()`) and opaque contents. -/
structure Page where
  pageNo : Nat
  data : Nat
deriving DecidableEq, Repr, Inhabited

/-- One call made on the file collaborator. -/
inductive FileOp where
  | read (file : Nat) (pageNo : Nat)
  | write (file : Nat) (page : Page)
  | alloc (file : Nat) (pageNo : Nat)
  | delete (file : Nat) (pageNo : Nat)
deriving DecidableEq, Repr

/-- Modelled from the spec: the file collaborator of section 6 (`readPage`,
`writePage`, `allocatePage`, `deletePage`); the class `File` is not part of the
sources. `pages` are the pages currently allocated in each file, `log` the
calls made so far, oldest first. -/
structure Disk where
  pages : List (Nat × Page)
  log : List FileOp
deriving DecidableEq, Repr

/-- The stored page `(file, pageNo)`, if allocated. -/
def Disk.find (d : Disk) (file : Nat) (pageNo : Nat) : Option Page :=
  (d.pages.find? (fun e => e.1 = file ∧ e.2.pageNo = pageNo)).map Prod.snd

/-- Modelled from the spec: `file.readPage(pageNo)`; reading a page that is not
allocated fails (`none`). The call is logged either way. -/
def Disk.readPage (d : Disk) (file : Nat) (pageNo : Nat) : Option Page × Disk :=
  (d.find file pageNo, { d with log := d.log ++ [FileOp.read file pageNo] })

/-- Modelled from the spec: `file.writePage(page)`; stores `page` under its own
page number. -/
def Disk.writePage (d : Disk) (file : Nat) (page : Page) : Disk :=
  { pages := (file, page) ::
      d.pages.filter (fun e => ¬ (e.1 = file ∧ e.2.pageNo = page.pageNo)),
    log := d.log ++ [FileOp.write file page] }

/-- A page number not allocated in `file`: one more than the largest one. -/
def Disk.freshPageNo (d : Disk) (file : Nat) : Nat :=
  ((d.pages.filter (fun e => e.1 = file)).map (fun e => e.2.pageNo)).foldr max 0 + 1

/-- Modelled from the spec: `file.allocatePage()`; returns a new empty page
whose number was not allocated in the file. -/
def Disk.allocatePage (d : Disk) (file : Nat) : Page × Disk :=
  let p : Page := { pageNo := d.freshPageNo file, data := 0 }
  (p, { pages := (file, p) :: d.pages,
        log := d.log ++ [FileOp.alloc file p.pageNo] })

/-- Modelled from the spec: `file.deletePage(pageNo)`. -/
def Disk.deletePage (d : Disk) (file : Nat) (pageNo : Nat) : Disk :=
  { pages := d.pages.filter (fun e => ¬ (e.1 = file ∧ e.2.pageNo = pageNo)),
    log := d.log ++ [FileOp.delete file pageNo] }

/-- Frame descriptor (`BufDesc`); the field list is the one `buffer.cpp`
accesses. `file = none` is the unassigned file reference; `pinCnt` is the
specification's `uint`. -/
structure BufDesc where
  file : Option Nat
  pageNo : Nat
  frameNo : Nat
  pinCnt : Nat
  dirty : Bool
  valid : Bool
  refbit : Bool
deriving DecidableEq, Repr

/-- The descriptor of an unused frame. -/
def BufDesc.unused (frameNo : Nat) : BufDesc :=
  { file := none, pageNo := 0, frameNo := frameNo, pinCnt := 0,
    dirty := false, valid := false, refbit := false }

instance : Inhabited BufDesc := ⟨BufDesc.unused 0⟩

/-- Modelled from the spec: `BufDesc::clear()` ("clear the descriptor to
unused"); `buffer.h` is not part of the sources. The frame number stays. -/
def BufDesc.clear (d : BufDesc) : BufDesc :=
  BufDesc.unused d.frameNo

/-- Modelled from the spec: `BufDesc::Set(file, pageNo)` ("initialize descriptor
(valid=true, refbit=true, pinCnt=1, dirty=false)"); `buffer.h` is not part of
the sources. -/
def BufDesc.Set (d : BufDesc) (file : Nat) (pageNo : Nat) : BufDesc :=
  { d with file := some file, pageNo := pageNo, pinCnt := 1,
           dirty := false, valid := true, refbit := true }

/-- Modelled from the spec: the Page Locator (`BufHashTbl`), a map from
(file identity, page number) to frame id with unique keys; `bufHashTbl.h` is
not part of the sources. -/
abbrev BufHashTbl := List ((Nat × Nat) × Nat)

/-- Modelled from the spec: `hashTable.lookup`; `none` is the "hash not found"
signal. -/
def BufHashTbl.lookup : BufHashTbl → Nat → Nat → Option Nat
  | [], _, _ => none
  | (k, f) :: rest, file, pageNo =>
      if k = (file, pageNo) then some f else BufHashTbl.lookup rest file pageNo

/-- Modelled from the spec: `hashTable.remove`; the entry of the key is
dropped. -/
def BufHashTbl.remove (h : BufHashTbl) (file : Nat) (pageNo : Nat) : BufHashTbl :=
  h.filter (fun e => e.1 ≠ (file, pageNo))

/-- Modelled from the spec: `hashTable.insert`; keys stay unique. -/
def BufHashTbl.insert (h : BufHashTbl) (file : Nat) (pageNo : Nat)
    (frameNo : Nat) : BufHashTbl :=
  ((file, pageNo), frameNo) :: BufHashTbl.remove h file pageNo

/-- The exceptions the modelled methods throw. `InvalidPageException` is the
failure of the file collaborator's `readPage`. `ArrayIndexOutOfBounds` is not a
C++ exception: it marks an array access outside the array's bounds (undefined
behaviour in C++), which the embedding reports instead of guessing a value;
`UninitializedRead` likewise marks the use of a local variable that was never
assigned. -/
inductive Exn where
  | BufferExceededException
  | PageNotPinnedException
  | PagePinnedException
  | BadBufferException
  | InvalidPageException
  | BadScanrangeException
  | BadOpcodesException
  | ScanNotInitializedException
  | IndexScanCompletedException
  | ArrayIndexOutOfBounds
  | UninitializedRead
deriving DecidableEq, Repr

/-- Outcome of a method: normal return with a value, or a thrown exception. -/
inductive Outcome (α : Type) where
  | ok (a : α)
  | throw (e : Exn)
deriving DecidableEq, Repr

/-! ## `BufMgr` -/

/-- The buffer manager object together with the files behind its handles. -/
structure BufMgr where
  numBufs : Nat
  clockHand : Nat
  hashTable : BufHashTbl
  bufDescTable : List BufDesc
  bufPool : List Page
  disk : Disk
deriving DecidableEq, Repr

/-- Read access `bufDescTable[i]`. -/
def BufMgr.desc (s : BufMgr) (i : Nat) : BufDesc :=
  s.bufDescTable.getD i default

/-- Read access `bufPool[i]`. -/
def BufMgr.page (s : BufMgr) (i : Nat) : Page :=
  s.bufPool.getD i default

/-- Write access `bufDescTable[i] = d`. -/
def BufMgr.setDesc (s : BufMgr) (i : Nat) (d : BufDesc) : BufMgr :=
  { s with bufDescTable := s.bufDescTable.set i d }

/-- Constructor `BufMgr::BufMgr(bufs)`, on a given disk. -/
def BufMgr.new (bufs : Nat) (disk : Disk) : BufMgr :=
  { numBufs := bufs
    clockHand := bufs - 1
    hashTable := []
    bufDescTable := (List.range bufs).map BufDesc.unused
    bufPool := List.replicate bufs default
    disk := disk }

/-- Method `BufMgr::advanceClock`. -/
def advanceClock (s : BufMgr) : BufMgr :=
  if s.clockHand + 1 ≥ s.numBufs then { s with clockHand := 0 }
  else { s with clockHand := s.clockHand + 1 }

/-- The `while (!allocated)` loop of `BufMgr::allocBuf`, with its locals
`pinned` and `numPinned`. The first argument bounds the number of iterations;
`none` means the bound was reached before the loop ended. A valid descriptor
whose file reference is unassigned (`none`) has no file to write to and no
locator key to remove. -/
def allocBufLoop : Nat → BufMgr → List Bool → Nat → Option (Outcome Nat × BufMgr)
  | 0, _, _, _ => none
  | fuel + 1, s, pinned, numPinned =>
    if numPinned ≥ s.numBufs then
      some (Outcome.throw Exn.BufferExceededException, s)
    else
      let d := s.desc s.clockHand
      if d.valid then
        if d.refbit then
          allocBufLoop fuel
            (advanceClock (s.setDesc s.clockHand { d with refbit := false }))
            pinned numPinned
        else if d.pinCnt > 0 then
          if !(pinned.getD s.clockHand false) then
            allocBufLoop fuel (advanceClock s) (pinned.set s.clockHand true) (numPinned + 1)
          else
            allocBufLoop fuel (advanceClock s) pinned numPinned
        else
          let s1 : BufMgr :=
            if d.dirty then
              match d.file with
              | some fl => { s with disk := s.disk.writePage fl (s.page s.clockHand) }
              | none => s
            else s
          let s2 : BufMgr :=
            match d.file with
            | some fl => { s1 with hashTable := s1.hashTable.remove fl d.pageNo }
            | none => s1
          some (Outcome.ok (s2.desc s2.clockHand).frameNo, s2)
      else
        some (Outcome.ok d.frameNo, s)

/-- Number of loop iterations granted to `allocBuf`: three laps of the clock
hand and the final test; `allocBuf_terminates` shows that the loop always ends
within this bound. -/
def allocBufFuel (s : BufMgr) : Nat := 3 * s.numBufs + 1

/-- Method `BufMgr::allocBuf`. -/
def allocBuf (s : BufMgr) : Option (Outcome Nat × BufMgr) :=
  allocBufLoop (allocBufFuel s) (advanceClock s) (List.replicate s.numBufs false) 0

/-- The frames the loop of `allocBuf` inspects, in order: the loop of
`allocBufLoop` again, recording the hand position each time a descriptor is
read (an iteration that throws at the `numPinned` test reads none). It ends
exactly when `allocBufLoop` does (`allocBufInspected_isSome`). -/
def allocBufInspected : Nat → BufMgr → List Bool → Nat → Option (List Nat)
  | 0, _, _, _ => none
  | fuel + 1, s, pinned, numPinned =>
    if numPinned ≥ s.numBufs then some []
    else
      let d := s.desc s.clockHand
      if d.valid then
        if d.refbit then
          (allocBufInspected fuel
            (advanceClock (s.setDesc s.clockHand { d with refbit := false }))
            pinned numPinned).map (fun tr => s.clockHand :: tr)
        else if d.pinCnt > 0 then
          if !(pinned.getD s.clockHand false) then
            (allocBufInspected fuel (advanceClock s) (pinned.set s.clockHand true)
              (numPinned + 1)).map (fun tr => s.clockHand :: tr)
          else
            (allocBufInspected fuel (advanceClock s) pinned numPinned).map
              (fun tr => s.clockHand :: tr)
        else some [s.clockHand]
      else some [s.clockHand]

/-- The frames one call of `allocBuf` inspects, in order. -/
def allocBufFrames (s : BufMgr) : Option (List Nat) :=
  allocBufInspected (allocBufFuel s) (advanceClock s) (List.replicate s.numBufs false) 0

/-- Method `BufMgr::readPage`; the result is the frame the returned page
pointer refers to. -/
def readPage (s : BufMgr) (file : Nat) (pageNo : Nat) :
    Option (Outcome Nat × BufMgr) :=
  match s.hashTable.lookup file pageNo with
  | some f =>
    let d := s.desc f
    some (Outcome.ok f, s.setDesc f { d with refbit := true, pinCnt := d.pinCnt + 1 })
  | none =>
    match s.disk.readPage file pageNo with
    | (none, disk1) => some (Outcome.throw Exn.InvalidPageException, { s with disk := disk1 })
    | (some p, disk1) =>
      match allocBuf { s with disk := disk1 } with
      | none => none
      | some (Outcome.throw e, s1) => some (Outcome.throw e, s1)
      | some (Outcome.ok f, s1) =>
        let s2 : BufMgr := { s1 with bufPool := s1.bufPool.set f p }
        let s3 : BufMgr := { s2 with hashTable := s2.hashTable.insert file pageNo f }
        some (Outcome.ok f, s3.setDesc f ((s3.desc f).Set file pageNo))

/-- Method `BufMgr::unPinPage`. -/
def unPinPage (s : BufMgr) (file : Nat) (pageNo : Nat) (dirty : Bool) :
    Outcome Unit × BufMgr :=
  match s.hashTable.lookup file pageNo with
  | none => (Outcome.ok (), s)
  | some fid =>
    let d := s.desc fid
    if d.pinCnt > 0 then
      let s1 := s.setDesc fid { d with pinCnt := d.pinCnt - 1 }
      if dirty then
        (Outcome.ok (), s1.setDesc fid { s1.desc fid with dirty := true })
      else
        (Outcome.ok (), s1)
    else
      (Outcome.throw Exn.PageNotPinnedException, s)

/-- Method `BufMgr::allocPage`; the result is the new page number and the
frame the returned page pointer refers to. -/
def allocPage (s : BufMgr) (file : Nat) :
    Option (Outcome (Nat × Nat) × BufMgr) :=
  match allocBuf s with
  | none => none
  | some (Outcome.throw e, s1) => some (Outcome.throw e, s1)
  | some (Outcome.ok fid, s1) =>
    let (p, disk1) := s1.disk.allocatePage file
    let s2 : BufMgr := { s1 with disk := disk1, bufPool := s1.bufPool.set fid p }
    let pageNo := (s2.page fid).pageNo
    let s3 : BufMgr := { s2 with hashTable := s2.hashTable.insert file pageNo fid }
    some (Outcome.ok (pageNo, fid), s3.setDesc fid ((s3.desc fid).Set file pageNo))

/-- The `for (FrameId i = 0; i < numBufs; i++)` loop of `BufMgr::flushFile`:
`flushFileLoop file k i s` runs the `k` iterations `i, i+1, ...`. -/
def flushFileLoop (file : Nat) : Nat → Nat → BufMgr → Outcome Unit × BufMgr
  | 0, _, s => (Outcome.ok (), s)
  | k + 1, i, s =>
    if (s.desc i).file = some file then
      if !(s.desc i).valid then
        (Outcome.throw Exn.BadBufferException, s)
      else if (s.desc i).pinCnt > 0 then
        (Outcome.throw Exn.PagePinnedException, s)
      else
        let s1 : BufMgr :=
          if (s.desc i).dirty then
            BufMgr.setDesc { s with disk := s.disk.writePage file (s.page i) } i
              { s.desc i with dirty := false }
          else s
        let s2 : BufMgr := { s1 with hashTable := s1.hashTable.remove file (s1.desc i).pageNo }
        flushFileLoop file k (i + 1) (s2.setDesc i (s2.desc i).clear)
    else
      flushFileLoop file k (i + 1) s

/-- Method `BufMgr::flushFile`. -/
def flushFile (s : BufMgr) (file : Nat) : Outcome Unit × BufMgr :=
  flushFileLoop file s.numBufs 0 s

/-- Method `BufMgr::disposePage`. -/
def disposePage (s : BufMgr) (file : Nat) (pageNo : Nat) : Outcome Unit × BufMgr :=
  let s1 : BufMgr :=
    match s.hashTable.lookup file pageNo with
    | some fid =>
      let s0 := s.setDesc fid (s.desc fid).clear
      { s0 with hashTable := s0.hashTable.remove file pageNo }
    | none => s
  (Outcome.ok (), { s1 with disk := s1.disk.deletePage file pageNo })

/-- A call on the public interface of the buffer manager. -/
inductive Call where
  | readPage (file : Nat) (pageNo : Nat)
  | unPinPage (file : Nat) (pageNo : Nat) (dirty : Bool)
  | allocPage (file : Nat)
  | flushFile (file : Nat)
  | disposePage (file : Nat) (pageNo : Nat)
deriving DecidableEq, Repr

/-- The state a call leaves behind, whether it returned or threw. -/
def Call.run : Call → BufMgr → Option BufMgr
  | Call.readPage file pageNo, s => (badgerdb.readPage s file pageNo).map Prod.snd
  | Call.unPinPage file pageNo dirty, s => some (badgerdb.unPinPage s file pageNo dirty).2
  | Call.allocPage file, s => (badgerdb.allocPage s file).map Prod.snd
  | Call.flushFile file, s => some (badgerdb.flushFile s file).2
  | Call.disposePage file pageNo, s => some (badgerdb.disposePage s file pageNo).2

/-- States reachable from a fresh buffer manager by calls on its interface. -/
inductive Reachable : BufMgr → Prop where
  | fresh (bufs : Nat) (disk : Disk) : Reachable (BufMgr.new bufs disk)
  | step (c : Call) (s s1 : BufMgr) : Reachable s → c.run s = some s1 → Reachable s1

/-- Runs a list of calls, oldest first. -/
def runCalls : List Call → BufMgr → Option BufMgr
  | [], s => some s
  | c :: cs, s =>
    match c.run s with
    | some s1 => runCalls cs s1
    | none => none

/-! ## `BTreeIndex` (`btree.cpp`)

`btree.h` is not part of the sources; the node layouts are those of section 3
of the specification, and the overlay of a node struct on the bytes of a page
(`reinterpret_cast`) is a pair of decoding functions that every definition
takes as a parameter. -/

/-- Scan operators (`Operator`). -/
inductive Operator where
  | LT
  | LTE
  | GTE
  | GT
deriving DecidableEq, Repr

/-- Modelled from the spec: the record identifier (`RecordId`), an opaque
locator of a tuple. -/
structure RecordId where
  page_number : Nat
  slot_number : Nat
deriving DecidableEq, Repr

/-- Modelled from the spec: non-leaf node `{level, keyArray, pageNoArray}`;
`keyArray` has `nodeOccupancy` slots and `pageNoArray` one more, unused slots
being 0. -/
structure NonLeafNodeInt where
  level : Int
  keyArray : List Int
  pageNoArray : List Nat
deriving DecidableEq, Repr

/-- Modelled from the spec: leaf node `{keyArray, ridArray, rightSibPageNo}`. -/
structure LeafNodeInt where
  keyArray : List Int
  ridArray : List RecordId
  rightSibPageNo : Nat
deriving DecidableEq, Repr

/-- The pair `RIDKeyPair<int>`. -/
structure RIDKeyPair where
  rid : RecordId
  key : Int
deriving DecidableEq, Repr

/-- The pair `PageKeyPair<int>`. -/
structure PageKeyPair where
  pageNo : Nat
  key : Int
deriving DecidableEq, Repr

/-- The node structs read off a page (`reinterpret_cast<NonLeafNodeInt*>(p)`,
`reinterpret_cast<LeafNodeInt*>(p)`). -/
structure NodeCodec where
  asNonLeaf : Page → NonLeafNodeInt
  asLeaf : Page → LeafNodeInt

/-- A `const void *` argument that points to an `int`: the address and the
value stored there. -/
structure IntPtr where
  addr : Nat
  val : Int
deriving DecidableEq, Repr

/-- The members of `BTreeIndex` that `btree.cpp` uses; `currentPageData` is the
frame the pointer refers to. -/
structure BTreeIndex where
  bufMgr : BufMgr
  file : Nat
  rootPageNum : Nat
  initialRootPageNum : Nat
  nodeOccupancy : Nat
  leafOccupancy : Nat
  scanExecuting : Bool
  nextEntry : Int
  currentPageNum : Nat
  currentPageData : Nat
  lowValInt : Int
  highValInt : Int
  lowOp : Operator
  highOp : Operator
deriving DecidableEq, Repr

/-- Method `BTreeIndex::getNonLeafNodeFromPage`: pins the page and returns a
copy of the node on it. -/
def getNonLeafNodeFromPage (codec : NodeCodec) (idx : BTreeIndex) (pageId : Nat) :
    Option (Outcome NonLeafNodeInt × BTreeIndex) :=
  match readPage idx.bufMgr idx.file pageId with
  | none => none
  | some (Outcome.throw e, b) => some (Outcome.throw e, { idx with bufMgr := b })
  | some (Outcome.ok p, b) =>
    some (Outcome.ok (codec.asNonLeaf (b.page p)), { idx with bufMgr := b })

/-- Method `BTreeIndex::getRootNode`. -/
def getRootNode (codec : NodeCodec) (idx : BTreeIndex) :
    Option (Outcome NonLeafNodeInt × BTreeIndex) :=
  getNonLeafNodeFromPage codec idx idx.rootPageNum

/-- The `for` loop of `BTreeIndex::findLeastPageId` from `keyIndex` on, with
`k` iterations left, and the `return` after it. -/
def findLeastPageIdLoop (node : NonLeafNodeInt) (lowValParam : Int) : Nat → Nat → Nat
  | 0, keyIndex => node.pageNoArray.getD keyIndex 0
  | k + 1, keyIndex =>
    if lowValParam < node.keyArray.getD keyIndex 0 then node.pageNoArray.getD keyIndex 0
    else findLeastPageIdLoop node lowValParam k (keyIndex + 1)

/-- Method `BTreeIndex::findLeastPageId`; `keyArrLength` is the size of
`keyArray`, which is `nodeOccupancy`. The operator argument is not used. -/
def findLeastPageId (keyArrLength : Nat) (node : NonLeafNodeInt) (lowValParam : Int)
    (_greaterThan : Operator) : Nat :=
  findLeastPageIdLoop node lowValParam keyArrLength 0

/-- The `while (1)` loop of `BTreeIndex::startScan`. The loop body contains no
`break` and no `return`: the loop can only be left by an exception, so the
result is the exception and the state it left. The first argument bounds the
number of iterations; `none` means the loop was still running. -/
def startScanLoop (codec : NodeCodec) (lowOpParm : Operator) :
    Nat → BTreeIndex → NonLeafNodeInt → Nat → Option (Exn × BTreeIndex)
  | 0, _, _, _ => none
  | fuel + 1, idx, nextNode, traversalPageId =>
    let pageId := findLeastPageId idx.nodeOccupancy nextNode idx.lowValInt lowOpParm
    if nextNode.level ≠ 0 then
      match readPage idx.bufMgr idx.file pageId with
      | none => none
      | some (Outcome.throw e, b) => some (e, { idx with bufMgr := b })
      | some (Outcome.ok p, b) =>
        if traversalPageId ≠ idx.rootPageNum then
          match unPinPage b idx.file traversalPageId false with
          | (Outcome.throw e, b2) => some (e, { idx with bufMgr := b2 })
          | (Outcome.ok _, b2) =>
            startScanLoop codec lowOpParm fuel
              { idx with bufMgr := b2, currentPageNum := pageId, currentPageData := p }
              nextNode traversalPageId
        else
          startScanLoop codec lowOpParm fuel
            { idx with bufMgr := b, currentPageNum := pageId, currentPageData := p }
            nextNode traversalPageId
    else
      let r : Outcome Unit × BufMgr :=
        if traversalPageId ≠ idx.rootPageNum then
          unPinPage idx.bufMgr idx.file traversalPageId false
        else (Outcome.ok (), idx.bufMgr)
      match r with
      | (Outcome.throw e, b) => some (e, { idx with bufMgr := b })
      | (Outcome.ok _, b) =>
        match getNonLeafNodeFromPage codec { idx with bufMgr := b } pageId with
        | none => none
        | some (Outcome.throw e, idx1) => some (e, idx1)
        | some (Outcome.ok node, idx1) => startScanLoop codec lowOpParm fuel idx1 node pageId

/-- Method `BTreeIndex::startScan`. The range test compares the two pointer
arguments, as the source does. The statements after the `while (1)` loop
(lines 353-374) cannot be reached and are not part of the result. -/
def startScan (codec : NodeCodec) (fuel : Nat) (idx : BTreeIndex) (lowValParm : IntPtr)
    (lowOpParm : Operator) (highValParm : IntPtr) (highOpParm : Operator) :
    Option (Outcome Unit × BTreeIndex) :=
  if lowValParm.addr > highValParm.addr then
    some (Outcome.throw Exn.BadScanrangeException, idx)
  else if lowOpParm ≠ Operator.GT ∧ lowOpParm ≠ Operator.GTE then
    some (Outcome.throw Exn.BadOpcodesException, idx)
  else if highOpParm ≠ Operator.LT ∧ highOpParm ≠ Operator.LTE then
    some (Outcome.throw Exn.BadOpcodesException, idx)
  else
    let idx1 : BTreeIndex :=
      { idx with scanExecuting := true, lowValInt := lowValParm.val,
                 highValInt := highValParm.val, lowOp := lowOpParm, highOp := highOpParm }
    match getRootNode codec idx1 with
    | none => none
    | some (Outcome.throw e, idx2) => some (Outcome.throw e, idx2)
    | some (Outcome.ok nextNode, idx2) =>
      match startScanLoop codec lowOpParm fuel idx2 nextNode idx2.rootPageNum with
      | none => none
      | some (e, idx3) => some (Outcome.throw e, idx3)

/-- First `while` loop of `BTreeIndex::NextNonLeafNode`, entered with
`keyIndex = k`: skips the empty child slots. `none` stands for the exit with
`keyIndex = -1`. -/
def skipEmptySlots (node : NonLeafNodeInt) : Nat → Outcome (Option Nat)
  | 0 =>
    match node.pageNoArray[0]? with
    | none => Outcome.throw Exn.ArrayIndexOutOfBounds
    | some p => if p = 0 then Outcome.ok none else Outcome.ok (some 0)
  | k + 1 =>
    match node.pageNoArray[k + 1]? with
    | none => Outcome.throw Exn.ArrayIndexOutOfBounds
    | some p => if p = 0 then skipEmptySlots node k else Outcome.ok (some (k + 1))

/-- Second `while` loop of `BTreeIndex::NextNonLeafNode`, entered with
`keyIndex = k ≥ 0`: moves down while the key at `keyIndex` is at least `key`. -/
def skipGreaterKeys (node : NonLeafNodeInt) (key : Int) : Nat → Outcome Nat
  | 0 => Outcome.ok 0
  | k + 1 =>
    match node.keyArray[k + 1]? with
    | none => Outcome.throw Exn.ArrayIndexOutOfBounds
    | some x => if x ≥ key then skipGreaterKeys node key k else Outcome.ok (k + 1)

/-- Method `BTreeIndex::NextNonLeafNode`: the page number written to
`node_next_number`. Reading `pageNoArray[-1]` or `keyArray[nodeOccupancy]` is
an access outside the array. -/
def NextNonLeafNode (nodeOccupancy : Nat) (node : NonLeafNodeInt) (key : Int) : Outcome Nat :=
  match skipEmptySlots node nodeOccupancy with
  | Outcome.throw e => Outcome.throw e
  | Outcome.ok none => Outcome.throw Exn.ArrayIndexOutOfBounds
  | Outcome.ok (some k) =>
    match skipGreaterKeys node key k with
    | Outcome.throw e => Outcome.throw e
    | Outcome.ok keyIndex =>
      match node.pageNoArray[keyIndex]? with
      | none => Outcome.throw Exn.ArrayIndexOutOfBounds
      | some p => Outcome.ok p

/-- The branch `else { ... }` of `BTreeIndex::search` taken when the recursive
call left a non-null `child_data` (lines 201-211). It calls
`insert_into_nonleaf`, which names an undeclared `Node_leaf`, and `splitter()`
without its arguments, so its effect is a parameter of the embedding: it
receives the index, the frame and page number of the current node and the
pending pair. -/
abbrev ChildBranch :=
  BTreeIndex → Nat → Nat → PageKeyPair → Option (Outcome (Option PageKeyPair) × BTreeIndex)

/-- Method `BTreeIndex::search`; `Page_currently` is given as its frame, and
the result carries the final value of the reference parameter `child_data`.
The first argument bounds the recursion depth. When `is_leaf` holds the body
is skipped: the method has no code for a leaf. -/
def search (codec : NodeCodec) (childBranch : ChildBranch) :
    Nat → BTreeIndex → Nat → Nat → Bool → RIDKeyPair → Option PageKeyPair →
    Option (Outcome (Option PageKeyPair) × BTreeIndex)
  | 0, _, _, _, _, _, _ => none
  | fuel + 1, idx, Page_currently, Page_number_currently, is_leaf, current_data_to_enter,
      child_data =>
    if is_leaf then some (Outcome.ok child_data, idx)
    else
      let Node_currently := codec.asNonLeaf (idx.bufMgr.page Page_currently)
      match NextNonLeafNode idx.nodeOccupancy Node_currently current_data_to_enter.key with
      | Outcome.throw e => some (Outcome.throw e, idx)
      | Outcome.ok node_next_number =>
        match readPage idx.bufMgr idx.file node_next_number with
        | none => none
        | some (Outcome.throw e, b) => some (Outcome.throw e, { idx with bufMgr := b })
        | some (Outcome.ok page_next, b) =>
          match search codec childBranch fuel { idx with bufMgr := b } page_next
              node_next_number (decide (Node_currently.level = 1)) current_data_to_enter
              child_data with
          | none => none
          | some (Outcome.throw e, idx1) => some (Outcome.throw e, idx1)
          | some (Outcome.ok none, idx1) =>
            match unPinPage idx1.bufMgr idx1.file Page_number_currently false with
            | (Outcome.throw e, b2) => some (Outcome.throw e, { idx1 with bufMgr := b2 })
            | (Outcome.ok _, b2) => some (Outcome.ok none, { idx1 with bufMgr := b2 })
          | some (Outcome.ok (some cd), idx1) =>
            childBranch idx1 Page_currently Page_number_currently cd

/-- Method `BTreeIndex::insertEntry`. -/
def insertEntry (codec : NodeCodec) (childBranch : ChildBranch) (fuel : Nat)
    (idx : BTreeIndex) (key : Int) (rid : RecordId) : Option (Outcome Unit × BTreeIndex) :=
  match readPage idx.bufMgr idx.file idx.rootPageNum with
  | none => none
  | some (Outcome.throw e, b) => some (Outcome.throw e, { idx with bufMgr := b })
  | some (Outcome.ok rootPage, b) =>
    match search codec childBranch fuel { idx with bufMgr := b } rootPage idx.rootPageNum
        (decide (idx.initialRootPageNum = idx.rootPageNum)) { rid := rid, key := key }
        none with
    | none => none
    | some (Outcome.throw e, idx1) => some (Outcome.throw e, idx1)
    | some (Outcome.ok _, idx1) => some (Outcome.ok (), idx1)

/-- The local `comparison` of `scanNext` (lines 428-432): it is assigned only
when `highOp` is `LT` or `LTE`. -/
def highBoundHolds (highOp : Operator) (key highValInt : Int) : Outcome Bool :=
  match highOp with
  | Operator.LT => Outcome.ok (decide (key < highValInt))
  | Operator.LTE => Outcome.ok (decide (key ≤ highValInt))
  | _ => Outcome.throw Exn.UninitializedRead

/-- Method `BTreeIndex::scanNext`; the result is the value written to `outRid`.
The first argument bounds the depth of the recursive call made after moving to
the right sibling; it is not consulted before that call. -/
def scanNext (codec : NodeCodec) : Nat → BTreeIndex → Option (Outcome RecordId × BTreeIndex)
  | fuel, idx =>
    if idx.nextEntry < 0 then some (Outcome.throw Exn.IndexScanCompletedException, idx)
    else if !idx.scanExecuting then some (Outcome.throw Exn.ScanNotInitializedException, idx)
    else
      let leaf := codec.asLeaf (idx.bufMgr.page idx.currentPageData)
      let leafRidLength : Int := idx.leafOccupancy
      if idx.nextEntry ≥ leafRidLength then
        if leaf.rightSibPageNo = 0 then
          some (Outcome.throw Exn.IndexScanCompletedException, idx)
        else
          match unPinPage idx.bufMgr idx.file idx.currentPageNum false with
          | (Outcome.throw e, b) => some (Outcome.throw e, { idx with bufMgr := b })
          | (Outcome.ok _, b) =>
            let nextPage := leaf.rightSibPageNo
            match readPage b idx.file nextPage with
            | none => none
            | some (Outcome.throw e, b2) =>
              some (Outcome.throw e, { idx with bufMgr := b2, currentPageNum := nextPage })
            | some (Outcome.ok p, b2) =>
              match fuel with
              | 0 => none
              | fuel1 + 1 =>
                scanNext codec fuel1
                  { idx with bufMgr := b2, currentPageNum := nextPage, currentPageData := p,
                             nextEntry := 0 }
      else
        match leaf.keyArray[idx.nextEntry.toNat]? with
        | none => some (Outcome.throw Exn.ArrayIndexOutOfBounds, idx)
        | some key =>
          match highBoundHolds idx.highOp key idx.highValInt with
          | Outcome.throw e => some (Outcome.throw e, idx)
          | Outcome.ok true =>
            match leaf.ridArray[idx.nextEntry.toNat]? with
            | none => some (Outcome.throw Exn.ArrayIndexOutOfBounds, idx)
            | some rid => some (Outcome.ok rid, { idx with nextEntry := idx.nextEntry + 1 })
          | Outcome.ok false => some (Outcome.throw Exn.IndexScanCompletedException, idx)

/-- Method `BTreeIndex::endScan`. -/
def endScan (idx : BTreeIndex) : Outcome Unit × BTreeIndex :=
  if !idx.scanExecuting then (Outcome.throw Exn.ScanNotInitializedException, idx)
  else
    match unPinPage idx.bufMgr idx.file idx.currentPageNum false with
    | (Outcome.throw e, b) => (Outcome.throw e, { idx with bufMgr := b })
    | (Outcome.ok _, b) => (Outcome.ok (), { idx with bufMgr := b, scanExecuting := false })

/-- The key the constructor computes for a record (line 106):
`attrByteOffset + *reinterpret_cast<const int*>(record)`. The record is given
by `intAt`, the `int` stored at each byte offset of it; `intAt 0` is the one
the cast reads. The addition is that of `int`, taken without overflow. -/
def constructorKey (intAt : Nat → Int) (attrByteOffset : Nat) : Int :=
  (attrByteOffset : Int) + intAt 0

/-- The `(key, rid)` arguments of the `insertEntry` calls of the constructor's
loop over the base relation (lines 98-109), in scan order, for the records the
file scan returns with their record ids. -/
def constructorEntries (records : List (RecordId × (Nat → Int))) (attrByteOffset : Nat) :
    List (Int × RecordId) :=
  records.map (fun r => (constructorKey r.2 attrByteOffset, r.1))

/-! ## Predicates used in the statements -/

/-- The descriptor with its reference bit cleared. -/
def BufDesc.clearRef (d : BufDesc) : BufDesc := { d with refbit := false }

/-- The state `t` differs from `s` at most in the clock hand and in reference
bits that were cleared. -/
def RefCleared (s t : BufMgr) : Prop :=
  t.numBufs = s.numBufs ∧ t.hashTable = s.hashTable ∧ t.bufPool = s.bufPool ∧
  t.disk = s.disk ∧ t.bufDescTable.length = s.bufDescTable.length ∧
  ∀ i, t.desc i = s.desc i ∨ t.desc i = (s.desc i).clearRef

/-- Invariant of the locals of `allocBuf`: `numPinned` counts the marks in
`pinned`, and only valid frames with a positive pin count are marked. -/
def MarkInv (s : BufMgr) (pinned : List Bool) (numPinned : Nat) : Prop :=
  pinned.length = s.numBufs ∧ numPinned = pinned.count true ∧
  ∀ i, pinned.getD i false = true → (s.desc i).valid = true ∧ 0 < (s.desc i).pinCnt

/-- The state after the frame under the clock hand was written back (if dirty)
and dropped from the locator: the effect of `allocBuf` choosing a valid frame. -/
def evicted (s : BufMgr) : BufMgr :=
  let d := s.desc s.clockHand
  match d.file with
  | some fl =>
    { s with
      disk := if d.dirty then s.disk.writePage fl (s.page s.clockHand) else s.disk
      hashTable := s.hashTable.remove fl d.pageNo }
  | none => s

/-- What `allocBuf` may do to a state `s`: either it throws
`BufferExceededException`, every frame being valid and pinned, and only
reference bits were cleared; or it stops at a hand position `u.clockHand`
(after clearing reference bits, which gives `u`) whose frame is invalid, or is
valid with clear reference bit and pin count 0 and is then evicted. -/
def AllocPost (s : BufMgr) (r : Outcome Nat) (t : BufMgr) : Prop :=
  (r = Outcome.throw Exn.BufferExceededException ∧ RefCleared s t ∧
    ∀ i, i < s.numBufs → (s.desc i).valid = true ∧ 0 < (s.desc i).pinCnt) ∨
  (∃ u, RefCleared s u ∧ u.clockHand < s.numBufs ∧
    r = Outcome.ok (u.desc u.clockHand).frameNo ∧
    (((u.desc u.clockHand).valid = false ∧ t = u) ∨
     ((u.desc u.clockHand).valid = true ∧ (u.desc u.clockHand).refbit = false ∧
      (u.desc u.clockHand).pinCnt = 0 ∧ t = evicted u)))

/-- The effect of one iteration of the `flushFile` loop on a frame `i` that
belongs to the file and passed the two checks: write-back if dirty, removal of
the locator entry, `clear()` of the descriptor. -/
def flushStep (file : Nat) (i : Nat) (s : BufMgr) : BufMgr :=
  let s1 : BufMgr :=
    if (s.desc i).dirty then
      BufMgr.setDesc { s with disk := s.disk.writePage file (s.page i) } i
        { s.desc i with dirty := false }
    else s
  let s2 : BufMgr := { s1 with hashTable := s1.hashTable.remove file (s1.desc i).pageNo }
  s2.setDesc i (s2.desc i).clear

/-- The `writePage` calls `flushFile` makes for the frames `i, ..., i + k - 1`
of state `s`: one for each dirty frame of the file, in frame order. -/
def flushWrites (s : BufMgr) (file : Nat) (i k : Nat) : List FileOp :=
  ((List.range' i k).filter
    (fun j => decide ((s.desc j).file = some file) && (s.desc j).dirty)).map
    (fun j => FileOp.write file (s.page j))

/-- The disk holds a page `(file, pageNo)`. -/
def Disk.has (d : Disk) (file : Nat) (pageNo : Nat) : Prop :=
  ∃ e, e ∈ d.pages ∧ e.1 = file ∧ e.2.pageNo = pageNo

/-- The state `t` is `s` after `flushFile` handled the frames
`i, ..., i + k - 1`: every frame of the file in that range is cleared and its
locator entry removed, its page written if it was dirty; nothing else
changed. -/
def FlushedRange (file i k : Nat) (s t : BufMgr) : Prop :=
  t.numBufs = s.numBufs ∧ t.clockHand = s.clockHand ∧ t.bufPool = s.bufPool ∧
  t.bufDescTable.length = s.bufDescTable.length ∧
  (∀ j, i ≤ j → j < i + k → (s.desc j).file = some file → t.desc j = (s.desc j).clear) ∧
  (∀ j, ¬ (i ≤ j ∧ j < i + k ∧ (s.desc j).file = some file) → t.desc j = s.desc j) ∧
  t.disk.log = s.disk.log ++ flushWrites s file i k ∧
  (∀ p, (∃ j, i ≤ j ∧ j < i + k ∧ (s.desc j).file = some file ∧ (s.desc j).pageNo = p) →
    t.hashTable.lookup file p = none) ∧
  (∀ f p, ¬ (f = file ∧
      ∃ j, i ≤ j ∧ j < i + k ∧ (s.desc j).file = some file ∧ (s.desc j).pageNo = p) →
    t.hashTable.lookup f p = s.hashTable.lookup f p) ∧
  (∀ f p, s.disk.has f p → t.disk.has f p)

/-- The consistency of a buffer pool: table sizes, frame numbers as the
constructor set them, the locator holding exactly the valid frames under their
(file, page number), invalid frames carrying no file, and every resident page
being allocated in its file. -/
def PoolInv (s : BufMgr) : Prop :=
  s.bufDescTable.length = s.numBufs ∧ s.bufPool.length = s.numBufs ∧
  (∀ i, i < s.numBufs → (s.desc i).frameNo = i) ∧
  (∀ file p f, s.hashTable.lookup file p = some f ↔
    f < s.numBufs ∧ (s.desc f).valid = true ∧ (s.desc f).file = some file ∧
      (s.desc f).pageNo = p) ∧
  (∀ i, (s.desc i).valid = false → (s.desc i).file = none) ∧
  (∀ i file, (s.desc i).valid = true → (s.desc i).file = some file →
    s.disk.has file (s.desc i).pageNo)

/-- The tail of `readPage` and `allocPage` once `allocBuf` supplied frame `f`:
the page is put in the frame, the locator entry inserted and the descriptor
`Set`. -/
def installPage (s1 : BufMgr) (f file pageNo : Nat) (pg : Page) : BufMgr :=
  let s2 : BufMgr := { s1 with bufPool := s1.bufPool.set f pg }
  let s3 : BufMgr := { s2 with hashTable := s2.hashTable.insert file pageNo f }
  s3.setDesc f ((s3.desc f).Set file pageNo)

/-- A call that only reads a page or unpins one without marking it dirty. -/
def Call.readOnly : Call → Prop
  | Call.readPage _ _ => True
  | Call.unPinPage _ _ dirty => dirty = false
  | _ => False

/-! ## Concrete states used to instantiate the theorems -/

/-- A disk with one file (handle 7) of four pages. -/
def exDisk : Disk :=
  { pages := [(7, ⟨1, 11⟩), (7, ⟨2, 22⟩), (7, ⟨3, 33⟩), (7, ⟨4, 44⟩)], log := [] }

/-- A pool of three frames holding pages 1, 2, 3 of file 7: frame 0 pinned,
frame 1 unpinned and dirty, frame 2 pinned; the hand is on frame 0. -/
def exPool : BufMgr :=
  { numBufs := 3
    clockHand := 0
    hashTable := [((7, 3), 2), ((7, 2), 1), ((7, 1), 0)]
    bufDescTable :=
      [ { file := some 7, pageNo := 1, frameNo := 0, pinCnt := 1, dirty := false,
          valid := true, refbit := true },
        { file := some 7, pageNo := 2, frameNo := 1, pinCnt := 0, dirty := true,
          valid := true, refbit := true },
        { file := some 7, pageNo := 3, frameNo := 2, pinCnt := 2, dirty := false,
          valid := true, refbit := false } ]
    bufPool := [⟨1, 11⟩, ⟨2, 25⟩, ⟨3, 33⟩]
    disk := exDisk }

/-- A pool of two frames holding pages 1 and 2 of file 7: frame 0 unpinned and
dirty, frame 1 pinned. It is the state after `readPage(7, 1)`,
`readPage(7, 2)`, `unPinPage(7, 1, true)` on a fresh pool of two frames. -/
def exFlush : BufMgr :=
  { numBufs := 2
    clockHand := 1
    hashTable := [((7, 2), 1), ((7, 1), 0)]
    bufDescTable :=
      [ { file := some 7, pageNo := 1, frameNo := 0, pinCnt := 0, dirty := true,
          valid := true, refbit := true },
        { file := some 7, pageNo := 2, frameNo := 1, pinCnt := 1, dirty := false,
          valid := true, refbit := true } ]
    bufPool := [⟨1, 11⟩, ⟨2, 22⟩]
    disk := { pages := exDisk.pages,
              log := [FileOp.read 7 1, FileOp.read 7 2] } }

/-- The state `exFlush` after `unPinPage(7, 2, false)`: both frames hold pages
of file 7, none is pinned, frame 0 is dirty. -/
def exUnpinned : BufMgr := (unPinPage exFlush 7 2 false).2

/-- The node overlay used in the examples: every page reads as an empty node
at level 1 with capacity 4. -/
def exCodec : NodeCodec :=
  { asNonLeaf := fun _ => { level := 1, keyArray := [0, 0, 0, 0], pageNoArray := [0, 0, 0, 0, 0] }
    asLeaf := fun _ => { keyArray := [0, 0, 0, 0], ridArray := [], rightSibPageNo := 0 } }

/-- A freshly created index on file 9: the constructor allocated the empty
root (page 1, frame 0 of a pool of three frames), which stays pinned. The
sources never assign `initialRootPageNum`; it is taken equal to `rootPageNum`
here. -/
def exIndex : BTreeIndex :=
  { bufMgr :=
      { numBufs := 3
        clockHand := 0
        hashTable := [((9, 1), 0)]
        bufDescTable :=
          [ { file := some 9, pageNo := 1, frameNo := 0, pinCnt := 1, dirty := false,
              valid := true, refbit := true },
            BufDesc.unused 1, BufDesc.unused 2 ]
        bufPool := [⟨1, 0⟩, default, default]
        disk := { pages := [(9, ⟨1, 0⟩)], log := [FileOp.alloc 9 1] } }
    file := 9
    rootPageNum := 1
    initialRootPageNum := 1
    nodeOccupancy := 4
    leafOccupancy := 4
    scanExecuting := false
    nextEntry := 0
    currentPageNum := 0
    currentPageData := 0
    lowValInt := 0
    highValInt := 0
    lowOp := Operator.GT
    highOp := Operator.LT }

/-- A pool of two frames with page `(fA, pA)` in frame 0 and page `(fB, pB)` in
frame 1, both with their reference bit set, as two `readPage` calls on a fresh
pool leave them; the pin counts and dirty flags are given. -/
def twoFrames (disk : Disk) (fA pA fB pB : Nat) (pgA pgB : Page) (pinA pinB : Nat)
    (dirtyA dirtyB : Bool) : BufMgr :=
  { numBufs := 2
    clockHand := 1
    hashTable := [((fB, pB), 1), ((fA, pA), 0)]
    bufDescTable :=
      [ { file := some fA, pageNo := pA, frameNo := 0, pinCnt := pinA, dirty := dirtyA,
          valid := true, refbit := true },
        { file := some fB, pageNo := pB, frameNo := 1, pinCnt := pinB, dirty := dirtyB,
          valid := true, refbit := true } ]
    bufPool := [pgA, pgB]
    disk := disk }

/-- A record whose first `int` is 7 and whose `int` at byte offset 4 is 42. -/
def exRecord : Nat → Int := fun o => if o = 0 then 7 else if o = 4 then 42 else 0

/-- The state `exFlush` after `allocBuf`: both reference bits cleared in the
first lap, then frame 0 (unpinned, dirty) written back to file 7 and dropped
from the locator; the hand rests on frame 0. -/
def exEvicted : BufMgr :=
  { numBufs := 2
    clockHand := 0
    hashTable := [((7, 2), 1)]
    bufDescTable :=
      [ { file := some 7, pageNo := 1, frameNo := 0, pinCnt := 0, dirty := true,
          valid := true, refbit := false },
        { file := some 7, pageNo := 2, frameNo := 1, pinCnt := 1, dirty := false,
          valid := true, refbit := false } ]
    bufPool := [⟨1, 11⟩, ⟨2, 22⟩]
    disk := { pages := exDisk.pages,
              log := [FileOp.read 7 1, FileOp.read 7 2, FileOp.write 7 ⟨1, 11⟩] } }

/-- The number of occupied children of a non-leaf node: the occupied slots are
the leading ones of `pageNoArray`, page id 0 marking an empty slot. -/
def occupiedChildren (node : NonLeafNodeInt) : Nat :=
  (node.pageNoArray.takeWhile (fun p => decide (p ≠ 0))).length

/-- The non-leaf nodes of capacity `N` that have at least one occupied child,
ascending occupied keys (one fewer than occupied children) and zero-valued
unused trailing slots. -/
def NodeShape (N : Nat) (node : NonLeafNodeInt) : Prop :=
  node.keyArray.length = N ∧ node.pageNoArray.length = N + 1 ∧
  1 ≤ occupiedChildren node ∧
  (node.keyArray.take (occupiedChildren node - 1)).Pairwise (fun a b => a < b) ∧
  (∀ k ∈ node.keyArray.drop (occupiedChildren node - 1), k = 0) ∧
  (∀ p ∈ node.pageNoArray.drop (occupiedChildren node), p = 0)

instance (N : Nat) (node : NonLeafNodeInt) : Decidable (NodeShape N node) := by
  unfold NodeShape; infer_instance

/-- Child selection as the specification words it: the index of the first
occupied key strictly greater than the search key, or that of the last
occupied child when no key is greater. -/
def specChildIndex (node : NonLeafNodeInt) (key : Int) : Nat :=
  ((node.keyArray.take (occupiedChildren node - 1)).findIdx? (fun k => decide (key < k))).getD
    (occupiedChildren node - 1)

/-- The page id of the child the specification selects. -/
def specChild (node : NonLeafNodeInt) (key : Int) : Nat :=
  node.pageNoArray.getD (specChildIndex node key) 0

/-- A non-leaf node of capacity 4 with the keys 10, 20 and the children 2, 3, 4:
child 2 covers the keys below 10, child 3 those from 10 below 20, child 4 the rest. -/
def exNode : NonLeafNodeInt :=
  { level := 1, keyArray := [10, 20, 0, 0], pageNoArray := [2, 3, 4, 0, 0] }

/-- A full non-leaf node of capacity 4: keys 10, 20, 30, 40 and children 2 to 6. -/
def exFullNode : NonLeafNodeInt :=
  { level := 1, keyArray := [10, 20, 30, 40], pageNoArray := [2, 3, 4, 5, 6] }

/-- The pin count of page `(file, pageNo)`: that of the frame the locator
gives for it, and 0 when the page is not resident. -/
def pinOf (s : BufMgr) (file pageNo : Nat) : Nat :=
  match s.hashTable.lookup file pageNo with
  | some f => (s.desc f).pinCnt
  | none => 0

/-- The index file of the tree used in the examples: pages 1 to 4 of file 9. -/
def exTreeDisk : Disk :=
  { pages := [(9, ⟨1, 0⟩), (9, ⟨2, 0⟩), (9, ⟨3, 0⟩), (9, ⟨4, 0⟩)], log := [] }

/-- The root of the tree used in the examples (page 1): keys -4 and 10 over the
leaves on pages 2, 3 and 4; capacity 4. -/
def exRoot : NonLeafNodeInt :=
  { level := 1, keyArray := [-4, 10, 0, 0], pageNoArray := [2, 3, 4, 0, 0] }

/-- The node overlay of the tree used in the examples: the root `exRoot` and
three leaves of capacity 4 that hold two entries each, the other slots being
unused (key 0, record id (0, 0)). Page 2 holds the keys -7, -5, page 3 the keys
-4, -2 and page 4 the keys 10, 12; each leaf names the next as right sibling. -/
def exTreeCodec : NodeCodec :=
  { asNonLeaf := fun _ => exRoot
    asLeaf := fun p =>
      if p.pageNo = 2 then
        { keyArray := [-7, -5, 0, 0], ridArray := [⟨1, 1⟩, ⟨1, 2⟩, ⟨0, 0⟩, ⟨0, 0⟩],
          rightSibPageNo := 3 }
      else if p.pageNo = 3 then
        { keyArray := [-4, -2, 0, 0], ridArray := [⟨1, 3⟩, ⟨1, 4⟩, ⟨0, 0⟩, ⟨0, 0⟩],
          rightSibPageNo := 4 }
      else
        { keyArray := [10, 12, 0, 0], ridArray := [⟨1, 5⟩, ⟨1, 6⟩, ⟨0, 0⟩, ⟨0, 0⟩],
          rightSibPageNo := 0 } }

/-- A pool of three frames after `readPage(9, 1)` and `readPage(9, 2)` on a
fresh pool over `exTreeDisk`: the root in frame 0 and the first leaf in frame 1,
each pinned once. -/
def exTreePool : BufMgr :=
  { numBufs := 3
    clockHand := 1
    hashTable := [((9, 2), 1), ((9, 1), 0)]
    bufDescTable :=
      [ { file := some 9, pageNo := 1, frameNo := 0, pinCnt := 1, dirty := false,
          valid := true, refbit := true },
        { file := some 9, pageNo := 2, frameNo := 1, pinCnt := 1, dirty := false,
          valid := true, refbit := true },
        BufDesc.unused 2 ]
    bufPool := [⟨1, 0⟩, ⟨2, 0⟩, default]
    disk := { pages := exTreeDisk.pages, log := [FileOp.read 9 1, FileOp.read 9 2] } }

/-- An index over the tree of the examples with a scan in progress: range
`(-10, 20]`, current leaf page 2 (frame 1), and `nextEntry = 2`, the number of
entries of that leaf. -/
def exScan : BTreeIndex :=
  { bufMgr := exTreePool
    file := 9
    rootPageNum := 1
    initialRootPageNum := 0
    nodeOccupancy := 4
    leafOccupancy := 4
    scanExecuting := true
    nextEntry := 2
    currentPageNum := 2
    currentPageData := 1
    lowValInt := -10
    highValInt := 20
    lowOp := Operator.GT
    highOp := Operator.LTE }

/-- An index over the tree of the examples with no scan in progress: only the
root (page 1, frame 0) is resident, pinned once, as `readPage(9, 1)` leaves a
fresh pool of three frames over `exTreeDisk`. The root is not the initial
root. -/
def exTree : BTreeIndex :=
  { bufMgr :=
      { numBufs := 3
        clockHand := 0
        hashTable := [((9, 1), 0)]
        bufDescTable :=
          [ { file := some 9, pageNo := 1, frameNo := 0, pinCnt := 1, dirty := false,
              valid := true, refbit := true },
            BufDesc.unused 1, BufDesc.unused 2 ]
        bufPool := [⟨1, 0⟩, default, default]
        disk := { pages := exTreeDisk.pages, log := [FileOp.read 9 1] } }
    file := 9
    rootPageNum := 1
    initialRootPageNum := 0
    nodeOccupancy := 4
    leafOccupancy := 4
    scanExecuting := false
    nextEntry := 0
    currentPageNum := 0
    currentPageData := 0
    lowValInt := 0
    highValInt := 0
    lowOp := Operator.GT
    highOp := Operator.LT }

/-- A node overlay under which every non-leaf page reads as the full node
`exFullNode`. -/
def exFullCodec : NodeCodec :=
  { asNonLeaf := fun _ => exFullNode
    asLeaf := fun _ => { keyArray := [0, 0, 0, 0], ridArray := [], rightSibPageNo := 0 } }

/-! ## Basic facts about the frame table -/

theorem desc_setDesc (s : BufMgr) (i j : Nat) (d : BufDesc) :
    (s.setDesc i d).desc j = if i = j ∧ i < s.bufDescTable.length then d else s.desc j := by
  unfold BufMgr.desc BufMgr.setDesc
  simp only [List.getD_eq_getElem?_getD, List.getElem?_set]
  by_cases h : i = j
  · subst h
    by_cases h2 : i < s.bufDescTable.length
    · simp [h2]
    · simp [h2, List.getElem?_eq_none (Nat.le_of_not_lt h2)]
  · simp [h]

theorem desc_valid_lt (s : BufMgr) (i : Nat) (h : (s.desc i).valid = true) :
    i < s.bufDescTable.length := by
  by_contra hc
  unfold BufMgr.desc at h
  rw [List.getD_eq_getElem?_getD, List.getElem?_eq_none (Nat.le_of_not_lt hc)] at h
  simp [default, BufDesc.unused] at h

theorem desc_advanceClock (s : BufMgr) (i : Nat) : (advanceClock s).desc i = s.desc i := by
  unfold advanceClock BufMgr.desc; split <;> rfl

theorem numBufs_advanceClock (s : BufMgr) : (advanceClock s).numBufs = s.numBufs := by
  unfold advanceClock; split <;> rfl

theorem clockHand_advanceClock_lt (s : BufMgr) (h : 0 < s.numBufs) :
    (advanceClock s).clockHand < s.numBufs := by
  unfold advanceClock; split
  · exact h
  · rename_i hc
    show s.clockHand + 1 < s.numBufs
    omega

theorem clockHand_advanceClock (s : BufMgr) :
    (advanceClock s).clockHand = if s.clockHand + 1 ≥ s.numBufs then 0 else s.clockHand + 1 := by
  unfold advanceClock; split <;> rfl

theorem RefCleared.refl (s : BufMgr) : RefCleared s s :=
  ⟨rfl, rfl, rfl, rfl, rfl, fun _ => Or.inl rfl⟩

theorem RefCleared.trans {s t u : BufMgr} (h1 : RefCleared s t) (h2 : RefCleared t u) :
    RefCleared s u := by
  obtain ⟨a1, a2, a3, a4, a5, a6⟩ := h1
  obtain ⟨b1, b2, b3, b4, b5, b6⟩ := h2
  refine ⟨b1.trans a1, b2.trans a2, b3.trans a3, b4.trans a4, b5.trans a5, fun i => ?_⟩
  rcases a6 i with h | h <;> rcases b6 i with k | k <;> rw [k, h] <;>
    simp [BufDesc.clearRef]

theorem RefCleared.advance {s t : BufMgr} (h : RefCleared s t) : RefCleared s (advanceClock t) := by
  obtain ⟨a1, a2, a3, a4, a5, a6⟩ := h
  unfold advanceClock
  split <;> exact ⟨a1, a2, a3, a4, a5, a6⟩

theorem RefCleared.clear (s : BufMgr) (i : Nat) :
    RefCleared s (s.setDesc i (s.desc i).clearRef) := by
  refine ⟨rfl, rfl, rfl, rfl, by simp [BufMgr.setDesc], fun j => ?_⟩
  rw [desc_setDesc]
  split
  · rename_i h; rw [h.1]; exact Or.inr rfl
  · exact Or.inl rfl

@[simp] theorem setDesc_numBufs (s : BufMgr) (i : Nat) (d : BufDesc) :
    (s.setDesc i d).numBufs = s.numBufs := rfl

@[simp] theorem setDesc_clockHand (s : BufMgr) (i : Nat) (d : BufDesc) :
    (s.setDesc i d).clockHand = s.clockHand := rfl

@[simp] theorem setDesc_hashTable (s : BufMgr) (i : Nat) (d : BufDesc) :
    (s.setDesc i d).hashTable = s.hashTable := rfl

@[simp] theorem setDesc_bufPool (s : BufMgr) (i : Nat) (d : BufDesc) :
    (s.setDesc i d).bufPool = s.bufPool := rfl

@[simp] theorem setDesc_disk (s : BufMgr) (i : Nat) (d : BufDesc) :
    (s.setDesc i d).disk = s.disk := rfl

@[simp] theorem setDesc_length (s : BufMgr) (i : Nat) (d : BufDesc) :
    (s.setDesc i d).bufDescTable.length = s.bufDescTable.length := by
  simp [BufMgr.setDesc]

theorem desc_setDesc_self (s : BufMgr) (i : Nat) (d : BufDesc)
    (h : i < s.bufDescTable.length) : (s.setDesc i d).desc i = d := by
  rw [desc_setDesc]; simp [h]

theorem desc_setDesc_ne (s : BufMgr) (i j : Nat) (d : BufDesc) (h : i ≠ j) :
    (s.setDesc i d).desc j = s.desc j := by
  rw [desc_setDesc]; simp [h]

theorem setDesc_setDesc (s : BufMgr) (i : Nat) (d e : BufDesc) :
    (s.setDesc i d).setDesc i e = s.setDesc i e := by
  simp [BufMgr.setDesc]

theorem desc_pinCnt_pos_lt (s : BufMgr) (i : Nat) (h : 0 < (s.desc i).pinCnt) :
    i < s.bufDescTable.length := by
  by_contra hc
  unfold BufMgr.desc at h
  rw [List.getD_eq_getElem?_getD, List.getElem?_eq_none (Nat.le_of_not_lt hc)] at h
  simp [default, BufDesc.unused] at h

theorem desc_of_length_le (s : BufMgr) (i : Nat) (h : s.bufDescTable.length ≤ i) :
    s.desc i = default := by
  unfold BufMgr.desc
  rw [List.getD_eq_getElem?_getD, List.getElem?_eq_none h]
  rfl

/-! ## The clock loop of `allocBuf` -/

theorem allocBufLoop_throw (fuel : Nat) (s : BufMgr) (pinned : List Bool) (np : Nat)
    (h : s.numBufs ≤ np) :
    allocBufLoop (fuel + 1) s pinned np = some (Outcome.throw Exn.BufferExceededException, s) := by
  simp [allocBufLoop, h]

theorem allocBufLoop_refbit (fuel : Nat) (s : BufMgr) (pinned : List Bool) (np : Nat)
    (h : np < s.numBufs) (hv : (s.desc s.clockHand).valid = true)
    (hr : (s.desc s.clockHand).refbit = true) :
    allocBufLoop (fuel + 1) s pinned np =
      allocBufLoop fuel (advanceClock (s.setDesc s.clockHand (s.desc s.clockHand).clearRef))
        pinned np := by
  simp [allocBufLoop, Nat.not_le.mpr h, hv, hr, BufDesc.clearRef]

theorem allocBufLoop_pinned_new (fuel : Nat) (s : BufMgr) (pinned : List Bool) (np : Nat)
    (h : np < s.numBufs) (hv : (s.desc s.clockHand).valid = true)
    (hr : (s.desc s.clockHand).refbit = false) (hp : 0 < (s.desc s.clockHand).pinCnt)
    (hm : pinned.getD s.clockHand false = false) :
    allocBufLoop (fuel + 1) s pinned np =
      allocBufLoop fuel (advanceClock s) (pinned.set s.clockHand true) (np + 1) := by
  rw [List.getD_eq_getElem?_getD] at hm
  simp [allocBufLoop, Nat.not_le.mpr h, hv, hr, hp, hm]

theorem allocBufLoop_pinned_old (fuel : Nat) (s : BufMgr) (pinned : List Bool) (np : Nat)
    (h : np < s.numBufs) (hv : (s.desc s.clockHand).valid = true)
    (hr : (s.desc s.clockHand).refbit = false) (hp : 0 < (s.desc s.clockHand).pinCnt)
    (hm : pinned.getD s.clockHand false = true) :
    allocBufLoop (fuel + 1) s pinned np = allocBufLoop fuel (advanceClock s) pinned np := by
  rw [List.getD_eq_getElem?_getD] at hm
  simp [allocBufLoop, Nat.not_le.mpr h, hv, hr, hp, hm]

theorem allocBufLoop_invalid (fuel : Nat) (s : BufMgr) (pinned : List Bool) (np : Nat)
    (h : np < s.numBufs) (hv : (s.desc s.clockHand).valid = false) :
    allocBufLoop (fuel + 1) s pinned np =
      some (Outcome.ok (s.desc s.clockHand).frameNo, s) := by
  simp [allocBufLoop, Nat.not_le.mpr h, hv]

theorem allocBufLoop_evict (fuel : Nat) (s : BufMgr) (pinned : List Bool) (np : Nat)
    (h : np < s.numBufs) (hv : (s.desc s.clockHand).valid = true)
    (hr : (s.desc s.clockHand).refbit = false) (hp : (s.desc s.clockHand).pinCnt = 0) :
    allocBufLoop (fuel + 1) s pinned np =
      some (Outcome.ok (s.desc s.clockHand).frameNo, evicted s) := by
  simp only [allocBufLoop, Nat.not_le.mpr h, hv, hr, hp, evicted]
  cases hf : (s.desc s.clockHand).file <;> cases hd : (s.desc s.clockHand).dirty <;>
    simp [BufMgr.desc]

theorem getD_set_true (l : List Bool) (i j : Nat) :
    (l.set i true).getD j false = true ↔ (i = j ∧ i < l.length) ∨ l.getD j false = true := by
  simp only [List.getD_eq_getElem?_getD, List.getElem?_set]
  by_cases h : i = j
  · subst h
    by_cases h2 : i < l.length
    · simp [h2]
    · simp [h2, List.getElem?_eq_none (Nat.le_of_not_lt h2)]
  · simp [h]

theorem count_set_true (l : List Bool) (i : Nat) (hi : i < l.length)
    (h : l.getD i false = false) : (l.set i true).count true = l.count true + 1 := by
  rw [List.count_set true true l i hi]
  rw [List.getD_eq_getElem?_getD, List.getElem?_eq_getElem hi] at h
  simp at h
  simp [h]

theorem MarkInv.mark {s : BufMgr} {pinned : List Bool} {np : Nat} (h : MarkInv s pinned np)
    (hc : s.clockHand < s.numBufs) (hv : (s.desc s.clockHand).valid = true)
    (hp : 0 < (s.desc s.clockHand).pinCnt) (hm : pinned.getD s.clockHand false = false) :
    MarkInv (advanceClock s) (pinned.set s.clockHand true) (np + 1) := by
  obtain ⟨h1, h2, h3⟩ := h
  refine ⟨by simp [h1, numBufs_advanceClock], ?_, fun i hi => ?_⟩
  · rw [count_set_true pinned _ (h1 ▸ hc) hm, h2]
  · rw [desc_advanceClock]
    rcases (getD_set_true pinned _ i).1 hi with ⟨rfl, _⟩ | h'
    · exact ⟨hv, hp⟩
    · exact h3 i h'

theorem MarkInv.of_refCleared {s t : BufMgr} {pinned : List Bool} {np : Nat}
    (h : MarkInv s pinned np) (hr : RefCleared s t) : MarkInv t pinned np := by
  obtain ⟨h1, h2, h3⟩ := h
  refine ⟨by rw [h1, hr.1], h2, fun i hi => ?_⟩
  rcases hr.2.2.2.2.2 i with k | k <;> rw [k]
  · exact h3 i hi
  · exact h3 i hi

theorem MarkInv.all_marked {s : BufMgr} {pinned : List Bool} {np : Nat}
    (h : MarkInv s pinned np) (hall : ∀ i, i < s.numBufs → pinned.getD i false = true) :
    s.numBufs ≤ np := by
  obtain ⟨h1, h2, _⟩ := h
  have : pinned.count true = pinned.length := by
    rw [List.count_eq_length]
    intro b hb
    obtain ⟨n, hn, rfl⟩ := List.mem_iff_getElem.1 hb
    have := hall n (h1 ▸ hn)
    rw [List.getD_eq_getElem?_getD, List.getElem?_eq_getElem hn] at this
    simpa using this.symm
  omega

theorem MarkInv.marked_of_le {s : BufMgr} {pinned : List Bool} {np : Nat}
    (h : MarkInv s pinned np) (hle : s.numBufs ≤ np) (i : Nat) (hi : i < s.numBufs) :
    pinned.getD i false = true := by
  obtain ⟨h1, h2, _⟩ := h
  have hc : pinned.count true = pinned.length :=
    Nat.le_antisymm (List.count_le_length _ _) (by omega)
  rw [List.count_eq_length] at hc
  have hi2 : i < pinned.length := h1 ▸ hi
  rw [List.getD_eq_getElem?_getD, List.getElem?_eq_getElem hi2]
  simpa using (hc _ (List.getElem_mem hi2)).symm

theorem RefCleared.refbit_false {s t : BufMgr} (h : RefCleared s t) (i : Nat)
    (hr : (s.desc i).refbit = false) : (t.desc i).refbit = false := by
  rcases h.2.2.2.2.2 i with k | k <;> rw [k]
  · exact hr
  · rfl

theorem clockHand_setDesc (s : BufMgr) (i : Nat) (d : BufDesc) :
    (advanceClock (s.setDesc i d)).clockHand = (advanceClock s).clockHand := by
  simp [clockHand_advanceClock, BufMgr.setDesc]

/-- One iteration of the loop either ends it or continues in a state that differs by a
cleared reference bit or a new mark. -/
theorem allocBufLoop_step (s : BufMgr) (pinned : List Bool) (np : Nat)
    (hc : s.clockHand < s.numBufs) (hI : MarkInv s pinned np) :
    (∃ r, ∀ fuel, allocBufLoop (fuel + 1) s pinned np = some r) ∨
    (∃ t pinned1 np1, MarkInv t pinned1 np1 ∧ t.clockHand = (advanceClock s).clockHand ∧
      RefCleared s t ∧
      (∀ i, pinned.getD i false = true → pinned1.getD i false = true) ∧
      (t.desc s.clockHand).refbit = false ∧
      ((s.desc s.clockHand).refbit = false → pinned1.getD s.clockHand false = true) ∧
      ∀ fuel, allocBufLoop (fuel + 1) s pinned np = allocBufLoop fuel t pinned1 np1) := by
  by_cases hn : s.numBufs ≤ np
  · exact Or.inl ⟨_, fun fuel => allocBufLoop_throw fuel s pinned np hn⟩
  have hn : np < s.numBufs := Nat.lt_of_not_le hn
  cases hv : (s.desc s.clockHand).valid
  · exact Or.inl ⟨_, fun fuel => allocBufLoop_invalid fuel s pinned np hn hv⟩
  cases hr : (s.desc s.clockHand).refbit
  · rcases Nat.eq_zero_or_pos (s.desc s.clockHand).pinCnt with hp | hp
    · exact Or.inl ⟨_, fun fuel => allocBufLoop_evict fuel s pinned np hn hv hr hp⟩
    · cases hm : pinned.getD s.clockHand false
      · refine Or.inr ⟨advanceClock s, pinned.set s.clockHand true, np + 1,
          hI.mark hc hv hp hm, rfl, (RefCleared.refl s).advance, ?_, ?_, ?_, ?_⟩
        · intro i hi
          exact (getD_set_true pinned _ i).2 (Or.inr hi)
        · rw [desc_advanceClock]; exact hr
        · intro _
          exact (getD_set_true pinned _ _).2 (Or.inl ⟨rfl, hI.1 ▸ hc⟩)
        · intro fuel
          exact allocBufLoop_pinned_new fuel s pinned np hn hv hr hp hm
      · refine Or.inr ⟨advanceClock s, pinned, np,
          hI.of_refCleared (RefCleared.refl s).advance, rfl, (RefCleared.refl s).advance,
          fun i hi => hi, ?_, fun _ => hm, ?_⟩
        · rw [desc_advanceClock]; exact hr
        · intro fuel
          exact allocBufLoop_pinned_old fuel s pinned np hn hv hr hp hm
  · have hlt := desc_valid_lt s _ hv
    refine Or.inr ⟨advanceClock (s.setDesc s.clockHand (s.desc s.clockHand).clearRef), pinned, np,
      hI.of_refCleared (RefCleared.clear s _).advance, clockHand_setDesc _ _ _,
      (RefCleared.clear s _).advance, fun i hi => hi, ?_, ?_, ?_⟩
    · rw [desc_advanceClock, desc_setDesc]
      simp [hlt, BufDesc.clearRef]
    · intro h; cases h
    · intro fuel
      exact allocBufLoop_refbit fuel s pinned np hn hv hr

/-- From a hand position `k + 1` frames before the end of the table, the loop either ends
within `k + 1` iterations or reaches hand position 0 having visited every frame from the
starting position on: their reference bits are clear, and those whose bit was already clear
are marked pinned. -/
theorem allocBufLoop_segment (k : Nat) : ∀ (s : BufMgr) (pinned : List Bool) (np : Nat),
    s.clockHand + (k + 1) = s.numBufs → MarkInv s pinned np →
    (∃ r, ∀ fuel, k + 1 ≤ fuel → allocBufLoop fuel s pinned np = some r) ∨
    (∃ t pinned1 np1, MarkInv t pinned1 np1 ∧ t.clockHand = 0 ∧ RefCleared s t ∧
      (∀ i, pinned.getD i false = true → pinned1.getD i false = true) ∧
      (∀ i, s.clockHand ≤ i → i < s.numBufs →
        (t.desc i).refbit = false ∧
        ((s.desc i).refbit = false → pinned1.getD i false = true)) ∧
      ∀ fuel, allocBufLoop (fuel + (k + 1)) s pinned np = allocBufLoop fuel t pinned1 np1) := by
  induction k with
  | zero =>
    intro s pinned np hk hI
    rcases allocBufLoop_step s pinned np (by omega) hI with ⟨r, hr⟩ | ⟨t, p1, n1, a, b, c, d, e, f, g⟩
    · left
      refine ⟨r, fun fuel hf => ?_⟩
      obtain ⟨m, rfl⟩ : ∃ m, fuel = m + 1 := ⟨fuel - 1, by omega⟩
      exact hr m
    · right
      refine ⟨t, p1, n1, a, ?_, c, d, ?_, g⟩
      · rw [b, clockHand_advanceClock, if_pos (by omega)]
      · intro i h1 h2
        have : i = s.clockHand := by omega
        subst this
        exact ⟨e, f⟩
  | succ k ih =>
    intro s pinned np hk hI
    rcases allocBufLoop_step s pinned np (by omega) hI with ⟨r, hr⟩ | ⟨t, p1, n1, a, b, c, d, e, f, g⟩
    · left
      refine ⟨r, fun fuel hf => ?_⟩
      obtain ⟨m, rfl⟩ : ∃ m, fuel = m + 1 := ⟨fuel - 1, by omega⟩
      exact hr m
    · have hb : t.clockHand = s.clockHand + 1 := by
        rw [b, clockHand_advanceClock, if_neg (by omega)]
      rcases ih t p1 n1 (by rw [hb, c.1]; omega) a with
        ⟨r, hr⟩ | ⟨u, p2, n2, a2, b2, c2, d2, e2, g2⟩
      · left
        refine ⟨r, fun fuel hf => ?_⟩
        obtain ⟨m, rfl⟩ : ∃ m, fuel = m + 1 := ⟨fuel - 1, by omega⟩
        rw [g m]
        exact hr m (by omega)
      · right
        refine ⟨u, p2, n2, a2, b2, c.trans c2, fun i hi => d2 i (d i hi), ?_, ?_⟩
        · intro i h1 h2
          rcases Nat.eq_or_lt_of_le h1 with h | h
          · subst h
            exact ⟨c2.refbit_false _ e, fun h => d2 _ (f h)⟩
          · obtain ⟨x, y⟩ := e2 i (by omega) (by rw [c.1]; exact h2)
            exact ⟨x, fun h => y (c.refbit_false i h)⟩
        · intro fuel
          rw [← g2 fuel, ← g (fuel + (k + 1))]
          rfl

/-- The loop of `allocBuf` ends within three laps: the rest of the current lap, one lap
after which every reference bit is clear, and one lap after which every frame still in the
way is marked pinned. -/
theorem allocBufLoop_terminates (s : BufMgr) (pinned : List Bool) (np : Nat)
    (hc : s.clockHand < s.numBufs) (hI : MarkInv s pinned np) :
    ∃ r, ∀ fuel, 3 * s.numBufs + 1 ≤ fuel → allocBufLoop fuel s pinned np = some r := by
  obtain ⟨k, hk⟩ : ∃ k, s.clockHand + (k + 1) = s.numBufs :=
    ⟨s.numBufs - s.clockHand - 1, by omega⟩
  obtain ⟨n, hn⟩ : ∃ n, n + 1 = s.numBufs := ⟨s.numBufs - 1, by omega⟩
  rcases allocBufLoop_segment k s pinned np hk hI with
    ⟨r, hr⟩ | ⟨t1, p1, n1, a1, b1, c1, _, _, g1⟩
  · exact ⟨r, fun fuel hf => hr fuel (by omega)⟩
  rcases allocBufLoop_segment n t1 p1 n1 (by rw [b1, c1.1]; omega) a1 with
    ⟨r, hr⟩ | ⟨t2, p2, n2, a2, b2, c2, _, e2, g2⟩
  · refine ⟨r, fun fuel hf => ?_⟩
    obtain ⟨m, rfl⟩ : ∃ m, fuel = m + (k + 1) := ⟨fuel - (k + 1), by omega⟩
    rw [g1 m]
    exact hr m (by omega)
  rcases allocBufLoop_segment n t2 p2 n2 (by rw [b2, c2.1, c1.1]; omega) a2 with
    ⟨r, hr⟩ | ⟨t3, p3, n3, a3, _, c3, _, e3, g3⟩
  · refine ⟨r, fun fuel hf => ?_⟩
    obtain ⟨m, rfl⟩ : ∃ m, fuel = m + (n + 1) + (k + 1) := ⟨fuel - (n + 1) - (k + 1), by omega⟩
    rw [g1, g2]
    exact hr m (by omega)
  · have hall : ∀ i, i < t3.numBufs → p3.getD i false = true := by
      intro i hi
      rw [c3.1] at hi
      have h2 := (e2 i (by omega) (by rw [c2.1] at hi; exact hi)).1
      exact (e3 i (by omega) hi).2 h2
    have hle := a3.all_marked hall
    refine ⟨(Outcome.throw Exn.BufferExceededException, t3), fun fuel hf => ?_⟩
    obtain ⟨m, rfl⟩ : ∃ m, fuel = m + 1 + (n + 1) + (n + 1) + (k + 1) :=
      ⟨fuel - 1 - (n + 1) - (n + 1) - (k + 1), by omega⟩
    rw [g1, g2, g3]
    exact allocBufLoop_throw m t3 p3 n3 hle

theorem MarkInv.init (s : BufMgr) : MarkInv s (List.replicate s.numBufs false) 0 := by
  refine ⟨by simp, by simp [List.count_replicate], fun i hi => ?_⟩
  rw [List.getD_eq_getElem?_getD, List.getElem?_replicate] at hi
  split at hi <;> simp at hi

/-- The iteration bound of `allocBuf` is never reached. -/
theorem allocBuf_terminates (s : BufMgr) : ∃ r, allocBuf s = some r := by
  unfold allocBuf allocBufFuel
  rcases Nat.eq_zero_or_pos s.numBufs with h0 | h0
  · exact ⟨_, allocBufLoop_throw _ _ _ _ (by rw [numBufs_advanceClock]; omega)⟩
  · obtain ⟨r, hr⟩ := allocBufLoop_terminates (advanceClock s) (List.replicate s.numBufs false) 0
      (by rw [numBufs_advanceClock]; exact clockHand_advanceClock_lt s h0)
      (by have := MarkInv.init (advanceClock s); rwa [numBufs_advanceClock] at this)
    exact ⟨r, hr _ (by rw [numBufs_advanceClock])⟩

theorem RefCleared.valid_eq {s t : BufMgr} (h : RefCleared s t) (i : Nat) :
    (t.desc i).valid = (s.desc i).valid := by
  rcases h.2.2.2.2.2 i with k | k <;> simp [k, BufDesc.clearRef]

theorem RefCleared.pinCnt_eq {s t : BufMgr} (h : RefCleared s t) (i : Nat) :
    (t.desc i).pinCnt = (s.desc i).pinCnt := by
  rcases h.2.2.2.2.2 i with k | k <;> simp [k, BufDesc.clearRef]

theorem RefCleared.frameNo_eq {s t : BufMgr} (h : RefCleared s t) (i : Nat) :
    (t.desc i).frameNo = (s.desc i).frameNo := by
  rcases h.2.2.2.2.2 i with k | k <;> simp [k, BufDesc.clearRef]

theorem RefCleared.file_eq {s t : BufMgr} (h : RefCleared s t) (i : Nat) :
    (t.desc i).file = (s.desc i).file := by
  rcases h.2.2.2.2.2 i with k | k <;> simp [k, BufDesc.clearRef]

theorem RefCleared.pageNo_eq {s t : BufMgr} (h : RefCleared s t) (i : Nat) :
    (t.desc i).pageNo = (s.desc i).pageNo := by
  rcases h.2.2.2.2.2 i with k | k <;> simp [k, BufDesc.clearRef]

theorem RefCleared.dirty_eq {s t : BufMgr} (h : RefCleared s t) (i : Nat) :
    (t.desc i).dirty = (s.desc i).dirty := by
  rcases h.2.2.2.2.2 i with k | k <;> simp [k, BufDesc.clearRef]

theorem AllocPost.weaken {s s1 t : BufMgr} {r : Outcome Nat} (h : RefCleared s s1)
    (hp : AllocPost s1 r t) : AllocPost s r t := by
  rcases hp with ⟨a, b, c⟩ | ⟨u, a, b, c, d⟩
  · left
    refine ⟨a, h.trans b, fun i hi => ?_⟩
    have := c i (by rw [h.1]; exact hi)
    rwa [h.valid_eq, h.pinCnt_eq] at this
  · right
    exact ⟨u, h.trans a, by rw [← h.1]; exact b, c, d⟩

theorem allocBufLoop_effect (fuel : Nat) : ∀ (s : BufMgr) (pinned : List Bool) (np : Nat)
    (r : Outcome Nat) (t : BufMgr), allocBufLoop fuel s pinned np = some (r, t) →
    s.clockHand < s.numBufs → MarkInv s pinned np → AllocPost s r t := by
  induction fuel with
  | zero => intro s pinned np r t h; simp [allocBufLoop] at h
  | succ fuel ih =>
    intro s pinned np r t h hc hI
    have hadv : (advanceClock s).clockHand < (advanceClock s).numBufs := by
      rw [numBufs_advanceClock]; exact clockHand_advanceClock_lt s (by omega)
    by_cases hn : s.numBufs ≤ np
    · rw [allocBufLoop_throw fuel s pinned np hn] at h
      simp only [Option.some.injEq, Prod.mk.injEq] at h
      obtain ⟨rfl, rfl⟩ := h
      exact Or.inl ⟨rfl, RefCleared.refl s, fun i hi => hI.2.2 i (hI.marked_of_le hn i hi)⟩
    have hn : np < s.numBufs := Nat.lt_of_not_le hn
    cases hv : (s.desc s.clockHand).valid
    · rw [allocBufLoop_invalid fuel s pinned np hn hv] at h
      simp only [Option.some.injEq, Prod.mk.injEq] at h
      obtain ⟨rfl, rfl⟩ := h
      exact Or.inr ⟨s, RefCleared.refl s, hc, rfl, Or.inl ⟨hv, rfl⟩⟩
    cases hr : (s.desc s.clockHand).refbit
    · rcases Nat.eq_zero_or_pos (s.desc s.clockHand).pinCnt with hp | hp
      · rw [allocBufLoop_evict fuel s pinned np hn hv hr hp] at h
        simp only [Option.some.injEq, Prod.mk.injEq] at h
        obtain ⟨rfl, rfl⟩ := h
        exact Or.inr ⟨s, RefCleared.refl s, hc, rfl, Or.inr ⟨hv, hr, hp, rfl⟩⟩
      · cases hm : pinned.getD s.clockHand false
        · rw [allocBufLoop_pinned_new fuel s pinned np hn hv hr hp hm] at h
          exact AllocPost.weaken (RefCleared.refl s).advance
            (ih _ _ _ _ _ h hadv (hI.mark hc hv hp hm))
        · rw [allocBufLoop_pinned_old fuel s pinned np hn hv hr hp hm] at h
          exact AllocPost.weaken (RefCleared.refl s).advance
            (ih _ _ _ _ _ h hadv (hI.of_refCleared (RefCleared.refl s).advance))
    · rw [allocBufLoop_refbit fuel s pinned np hn hv hr] at h
      have hrc := (RefCleared.clear s s.clockHand).advance
      refine AllocPost.weaken hrc (ih _ _ _ _ _ h ?_ (hI.of_refCleared hrc))
      rw [hrc.1, clockHand_setDesc]
      exact clockHand_advanceClock_lt s (by omega)

/-- Every run of `allocBuf` has the effect described by `AllocPost`. -/
theorem allocBuf_effect (s t : BufMgr) (r : Outcome Nat) (h : allocBuf s = some (r, t)) :
    AllocPost s r t := by
  unfold allocBuf allocBufFuel at h
  rcases Nat.eq_zero_or_pos s.numBufs with h0 | h0
  · rw [allocBufLoop_throw _ _ _ _ (by rw [numBufs_advanceClock]; omega)] at h
    simp only [Option.some.injEq, Prod.mk.injEq] at h
    obtain ⟨rfl, rfl⟩ := h
    exact Or.inl ⟨rfl, (RefCleared.refl s).advance, fun i hi => by omega⟩
  · refine AllocPost.weaken (RefCleared.refl s).advance
      (allocBufLoop_effect _ _ _ _ _ _ h ?_ ?_)
    · rw [numBufs_advanceClock]; exact clockHand_advanceClock_lt s h0
    · have := MarkInv.init (advanceClock s); rwa [numBufs_advanceClock] at this

/-! ## C1: `allocBuf` ends, and fails exactly when every frame is pinned -/

/-- C1: for every pool state `allocBuf` ends with a result. The result is
`BufferExceededException` if and only if every frame is valid with `pinCnt > 0`. Any other
result is the frame number of a frame `i < numBufs` that was invalid or had `pinCnt = 0`; with
the frame numbers as the constructor set them (`frameNo = i`) the returned frame itself was
invalid or had `pinCnt = 0`, so a valid frame with `pinCnt > 0` is never returned. -/
theorem allocBuf_exhausted_iff_all_pinned (s : BufMgr) :
    ∃ r t, allocBuf s = some (r, t) ∧
      (r = Outcome.throw Exn.BufferExceededException ↔
        ∀ i, i < s.numBufs → (s.desc i).valid = true ∧ 0 < (s.desc i).pinCnt) ∧
      (r ≠ Outcome.throw Exn.BufferExceededException →
        ∃ i, i < s.numBufs ∧ r = Outcome.ok (s.desc i).frameNo ∧
          ((s.desc i).valid = false ∨ (s.desc i).pinCnt = 0)) ∧
      ((∀ i, i < s.numBufs → (s.desc i).frameNo = i) →
        ∀ f, r = Outcome.ok f →
          f < s.numBufs ∧ ((s.desc f).valid = false ∨ (s.desc f).pinCnt = 0)) := by
  obtain ⟨⟨r, t⟩, hrt⟩ := allocBuf_terminates s
  refine ⟨r, t, hrt, ?_⟩
  rcases allocBuf_effect s t r hrt with ⟨a, _, c⟩ | ⟨u, a, b, c, d⟩
  · refine ⟨⟨fun _ => c, fun _ => a⟩, fun h => absurd a h, fun _ f hf => ?_⟩
    rw [a] at hf; cases hf
  · have hbad : (s.desc u.clockHand).valid = false ∨ (s.desc u.clockHand).pinCnt = 0 := by
      rcases d with ⟨d1, _⟩ | ⟨_, _, d3, _⟩
      · left; rw [← a.valid_eq]; exact d1
      · right; rw [← a.pinCnt_eq]; exact d3
    refine ⟨⟨fun h => ?_, fun h => ?_⟩,
      fun _ => ⟨u.clockHand, b, by rw [c, a.frameNo_eq], hbad⟩, fun hfn f hf => ?_⟩
    · rw [c] at h; cases h
    · obtain ⟨h1, h2⟩ := h _ b
      rcases hbad with k | k
      · rw [k] at h1; cases h1
      · omega
    · rw [c, a.frameNo_eq, hfn _ b] at hf
      have := Outcome.ok.inj hf
      subst this
      exact ⟨b, hbad⟩

theorem allocBuf_exhausted_iff_all_pinned_witness :
    ∃ r t, allocBuf exPool = some (r, t) ∧
      (r = Outcome.throw Exn.BufferExceededException ↔
        ∀ i, i < exPool.numBufs → (exPool.desc i).valid = true ∧ 0 < (exPool.desc i).pinCnt) ∧
      (r ≠ Outcome.throw Exn.BufferExceededException →
        ∃ i, i < exPool.numBufs ∧ r = Outcome.ok (exPool.desc i).frameNo ∧
          ((exPool.desc i).valid = false ∨ (exPool.desc i).pinCnt = 0)) ∧
      ((∀ i, i < exPool.numBufs → (exPool.desc i).frameNo = i) →
        ∀ f, r = Outcome.ok f →
          f < exPool.numBufs ∧ ((exPool.desc f).valid = false ∨ (exPool.desc f).pinCnt = 0)) :=
  allocBuf_exhausted_iff_all_pinned exPool

/-! ## C2, C3, C8: `unPinPage` and the cache-hit path of `readPage` -/

/-- C2: `unPinPage` throws `PageNotPinnedException` if and only if the page is resident in a
frame whose `pinCnt` is 0; in that case the state is left exactly as it was, and so it is when
the page is not resident (a normal return). A normal return on a resident page found a
positive pin count and lowered it by exactly one, so no call sequence takes a pin count
below zero. -/
theorem unPinPage_not_pinned_iff (s : BufMgr) (file pageNo : Nat) (dirty : Bool) :
    ((unPinPage s file pageNo dirty).1 = Outcome.throw Exn.PageNotPinnedException ↔
      ∃ f, s.hashTable.lookup file pageNo = some f ∧ (s.desc f).pinCnt = 0) ∧
    ((∃ f, s.hashTable.lookup file pageNo = some f ∧ (s.desc f).pinCnt = 0) →
      (unPinPage s file pageNo dirty).2 = s) ∧
    (s.hashTable.lookup file pageNo = none →
      unPinPage s file pageNo dirty = (Outcome.ok (), s)) ∧
    (∀ f, s.hashTable.lookup file pageNo = some f →
      (unPinPage s file pageNo dirty).1 = Outcome.ok () →
      0 < (s.desc f).pinCnt ∧
      ((unPinPage s file pageNo dirty).2.desc f).pinCnt + 1 = (s.desc f).pinCnt) := by
  cases hl : s.hashTable.lookup file pageNo with
  | none => simp [unPinPage, hl]
  | some fid =>
    rcases Nat.eq_zero_or_pos (s.desc fid).pinCnt with hp | hp
    · simp [unPinPage, hl, hp]
    · have hlt := desc_pinCnt_pos_lt s fid hp
      have hne : (s.desc fid).pinCnt ≠ 0 := by omega
      cases dirty <;>
        simp [unPinPage, hl, hp, hne, desc_setDesc_self, hlt] <;> omega

/-- C3: if the locator maps `(file, pageNo)` to frame `f`, `readPage` returns `f`, makes no
call on the file (disk and call log unchanged), sets `f`'s refbit, raises `f`'s `pinCnt` by
exactly one, and leaves the rest of descriptor `f`, the clock hand, the locator, the frame
contents and every other descriptor unchanged; a second `readPage` of the same page
returns the same frame `f`. -/
theorem readPage_hit (s : BufMgr) (file pageNo f : Nat)
    (h : s.hashTable.lookup file pageNo = some f) (hf : f < s.bufDescTable.length) :
    ∃ t, readPage s file pageNo = some (Outcome.ok f, t) ∧
      t.disk = s.disk ∧
      t.desc f = { s.desc f with refbit := true, pinCnt := (s.desc f).pinCnt + 1 } ∧
      t.clockHand = s.clockHand ∧ t.hashTable = s.hashTable ∧ t.bufPool = s.bufPool ∧
      t.numBufs = s.numBufs ∧ t.bufDescTable.length = s.bufDescTable.length ∧
      (∀ j, j ≠ f → t.desc j = s.desc j) ∧
      ∃ t2, readPage t file pageNo = some (Outcome.ok f, t2) := by
  refine ⟨s.setDesc f { s.desc f with refbit := true, pinCnt := (s.desc f).pinCnt + 1 }, ?_,
    rfl, desc_setDesc_self s f _ hf, rfl, rfl, rfl, rfl, setDesc_length _ _ _,
    fun j hj => desc_setDesc_ne s f j _ (Ne.symm hj), ?_⟩
  · simp [readPage, h]
  · simp [readPage, h]

theorem readPage_hit_witness :
    ∃ t, readPage exPool 7 2 = some (Outcome.ok 1, t) ∧
      t.disk = exPool.disk ∧
      t.desc 1 = { exPool.desc 1 with refbit := true, pinCnt := (exPool.desc 1).pinCnt + 1 } ∧
      t.clockHand = exPool.clockHand ∧ t.hashTable = exPool.hashTable ∧
      t.bufPool = exPool.bufPool ∧
      t.numBufs = exPool.numBufs ∧ t.bufDescTable.length = exPool.bufDescTable.length ∧
      (∀ j, j ≠ 1 → t.desc j = exPool.desc j) ∧
      ∃ t2, readPage t 7 2 = some (Outcome.ok 1, t2) :=
  readPage_hit exPool 7 2 1 (by decide) (by decide)

/-- C8: if `(file, pageNo)` is resident in frame `f` with `pinCnt > 0`, `unPinPage` returns
normally, lowers `f`'s `pinCnt` by exactly one and sets `f`'s dirty flag to
`old dirty || isDirty`; refbit, valid, file and pageNo of `f`, the locator, the clock hand,
the frame contents, the disk and every other descriptor are unchanged. -/
theorem unPinPage_pinned (s : BufMgr) (file pageNo f : Nat) (isDirty : Bool)
    (h : s.hashTable.lookup file pageNo = some f) (hp : 0 < (s.desc f).pinCnt) :
    ∃ t, unPinPage s file pageNo isDirty = (Outcome.ok (), t) ∧
      t.desc f = { s.desc f with pinCnt := (s.desc f).pinCnt - 1,
                                 dirty := (s.desc f).dirty || isDirty } ∧
      (t.desc f).pinCnt + 1 = (s.desc f).pinCnt ∧
      ((s.desc f).dirty = true → (t.desc f).dirty = true) ∧
      t.hashTable = s.hashTable ∧ t.clockHand = s.clockHand ∧ t.bufPool = s.bufPool ∧
      t.disk = s.disk ∧ t.numBufs = s.numBufs ∧
      t.bufDescTable.length = s.bufDescTable.length ∧
      (∀ j, j ≠ f → t.desc j = s.desc j) := by
  have hlt := desc_pinCnt_pos_lt s f hp
  have hne : (s.desc f).pinCnt ≠ 0 := by omega
  refine ⟨(unPinPage s file pageNo isDirty).2, ?_, ?_⟩
  · cases isDirty <;> simp [unPinPage, h, hp]
  · cases isDirty <;>
      simp [unPinPage, h, hp, hne, desc_setDesc_self, desc_setDesc_ne, hlt] <;>
      refine ⟨by omega, fun j hj => ?_⟩ <;>
      simp [desc_setDesc_ne _ _ _ _ (Ne.symm hj)]

theorem unPinPage_pinned_witness :
    ∃ t, unPinPage exPool 7 3 false = (Outcome.ok (), t) ∧
      t.desc 2 = { exPool.desc 2 with pinCnt := (exPool.desc 2).pinCnt - 1,
                                      dirty := (exPool.desc 2).dirty || false } ∧
      (t.desc 2).pinCnt + 1 = (exPool.desc 2).pinCnt ∧
      ((exPool.desc 2).dirty = true → (t.desc 2).dirty = true) ∧
      t.hashTable = exPool.hashTable ∧ t.clockHand = exPool.clockHand ∧
      t.bufPool = exPool.bufPool ∧
      t.disk = exPool.disk ∧ t.numBufs = exPool.numBufs ∧
      t.bufDescTable.length = exPool.bufDescTable.length ∧
      (∀ j, j ≠ 2 → t.desc j = exPool.desc j) :=
  unPinPage_pinned exPool 7 3 2 false (by decide) (by decide)

/-! ## The page locator -/

theorem lookup_remove (h : BufHashTbl) (f p f1 p1 : Nat) :
    (BufHashTbl.remove h f p).lookup f1 p1 =
      if (f1, p1) = (f, p) then none else h.lookup f1 p1 := by
  induction h with
  | nil => simp [BufHashTbl.remove, BufHashTbl.lookup]
  | cons e rest ih =>
    obtain ⟨k, v⟩ := e
    unfold BufHashTbl.remove at ih ⊢
    by_cases hk : k = (f, p)
    · subst hk
      simp only [List.filter, ne_eq, not_true_eq_false, decide_False, BufHashTbl.lookup]
      rw [ih]
      by_cases h1 : (f1, p1) = (f, p)
      · simp [h1]
      · simp [h1, Ne.symm h1]
    · simp only [List.filter, ne_eq, hk, not_false_eq_true, decide_True, BufHashTbl.lookup]
      rw [ih]
      by_cases h1 : (f1, p1) = (f, p)
      · rw [if_pos h1, if_pos h1, if_neg]
        rw [h1]; exact hk
      · simp only [h1, if_false]

theorem lookup_insert (h : BufHashTbl) (f p fr f1 p1 : Nat) :
    (BufHashTbl.insert h f p fr).lookup f1 p1 =
      if (f1, p1) = (f, p) then some fr else h.lookup f1 p1 := by
  unfold BufHashTbl.insert
  simp only [BufHashTbl.lookup]
  by_cases h1 : (f1, p1) = (f, p)
  · simp [h1]
  · rw [lookup_remove, if_neg h1, if_neg h1, if_neg (Ne.symm h1)]

/-! ## The loop of `flushFile` -/

theorem flushFileLoop_skip (file k i : Nat) (s : BufMgr)
    (h : (s.desc i).file ≠ some file) :
    flushFileLoop file (k + 1) i s = flushFileLoop file k (i + 1) s := by
  simp [flushFileLoop, h]

theorem flushFileLoop_badBuffer (file k i : Nat) (s : BufMgr)
    (h : (s.desc i).file = some file) (hv : (s.desc i).valid = false) :
    flushFileLoop file (k + 1) i s = (Outcome.throw Exn.BadBufferException, s) := by
  simp [flushFileLoop, h, hv]

theorem flushFileLoop_pinned (file k i : Nat) (s : BufMgr)
    (h : (s.desc i).file = some file) (hv : (s.desc i).valid = true)
    (hp : 0 < (s.desc i).pinCnt) :
    flushFileLoop file (k + 1) i s = (Outcome.throw Exn.PagePinnedException, s) := by
  simp [flushFileLoop, h, hv, hp]

theorem flushFileLoop_flush (file k i : Nat) (s : BufMgr)
    (h : (s.desc i).file = some file) (hv : (s.desc i).valid = true)
    (hp : (s.desc i).pinCnt = 0) :
    flushFileLoop file (k + 1) i s = flushFileLoop file k (i + 1) (flushStep file i s) := by
  simp [flushFileLoop, h, hv, hp, flushStep]

theorem flushStep_fields (file i : Nat) (s : BufMgr) (hi : i < s.bufDescTable.length) :
    (flushStep file i s).numBufs = s.numBufs ∧
    (flushStep file i s).clockHand = s.clockHand ∧
    (flushStep file i s).bufPool = s.bufPool ∧
    (flushStep file i s).bufDescTable.length = s.bufDescTable.length ∧
    (flushStep file i s).hashTable = s.hashTable.remove file (s.desc i).pageNo ∧
    (flushStep file i s).disk =
      (if (s.desc i).dirty then s.disk.writePage file (s.page i) else s.disk) ∧
    (flushStep file i s).desc i = (s.desc i).clear ∧
    ∀ j, j ≠ i → (flushStep file i s).desc j = s.desc j := by
  unfold flushStep
  cases hd : (s.desc i).dirty
  · simp only [Bool.false_eq_true, if_false]
    refine ⟨rfl, rfl, rfl, by simp, rfl, rfl, ?_, fun j hj => ?_⟩
    · exact desc_setDesc_self _ i _ hi
    · exact desc_setDesc_ne _ i j _ (Ne.symm hj)
  · simp only [if_true]
    refine ⟨rfl, rfl, rfl, by simp, ?_, rfl, ?_, fun j hj => ?_⟩
    · show BufHashTbl.remove s.hashTable file
        ((BufMgr.setDesc _ i { s.desc i with dirty := false }).desc i).pageNo = _
      rw [desc_setDesc]; simp [hi]
    · rw [desc_setDesc_self _ i _ (by simpa using hi)]
      show BufDesc.clear ((BufMgr.setDesc _ i { s.desc i with dirty := false }).desc i) = _
      rw [desc_setDesc]; simp [hi, BufDesc.clear]
    · rw [desc_setDesc_ne _ i j _ (Ne.symm hj)]
      show (BufMgr.setDesc _ i { s.desc i with dirty := false }).desc j = _
      rw [desc_setDesc_ne _ i j _ (Ne.symm hj)]
      rfl

theorem has_writePage (d : Disk) (fl : Nat) (pg : Page) (f p : Nat) (h : d.has f p) :
    (d.writePage fl pg).has f p := by
  obtain ⟨e, he, h1, h2⟩ := h
  unfold Disk.has Disk.writePage
  by_cases hk : e.1 = fl ∧ e.2.pageNo = pg.pageNo
  · exact ⟨(fl, pg), by simp, by rw [← h1, hk.1], by rw [← h2, hk.2]⟩
  · refine ⟨e, ?_, h1, h2⟩
    simp only [List.mem_cons, List.mem_filter, decide_eq_true_eq]
    exact Or.inr ⟨he, hk⟩

theorem flushWrites_congr (s t : BufMgr) (file i k : Nat)
    (hd : ∀ j, i ≤ j → t.desc j = s.desc j) (hp : t.bufPool = s.bufPool) :
    flushWrites t file i k = flushWrites s file i k := by
  unfold flushWrites
  have h1 : (fun j => FileOp.write file (t.page j)) = fun j => FileOp.write file (s.page j) := by
    funext j; simp [BufMgr.page, hp]
  rw [h1]
  congr 1
  apply List.filter_congr
  intro j hj
  rw [hd j (List.mem_range'_1.1 hj).1]

theorem flushWrites_succ (s : BufMgr) (file i k : Nat) :
    flushWrites s file i (k + 1) =
      (if (s.desc i).file = some file ∧ (s.desc i).dirty = true
        then [FileOp.write file (s.page i)] else []) ++ flushWrites s file (i + 1) k := by
  unfold flushWrites
  rw [List.range'_succ, List.filter_cons]
  by_cases h : (s.desc i).file = some file ∧ (s.desc i).dirty = true
  · simp [h.1, h.2]
  · rw [if_neg h]
    rw [if_neg]
    · simp
    · simpa using h

theorem FlushedRange.zero (file i : Nat) (s : BufMgr) : FlushedRange file i 0 s s := by
  refine ⟨rfl, rfl, rfl, rfl, fun j h1 h2 => by omega, fun j _ => rfl, by simp [flushWrites],
    fun p h => ?_, fun f p _ => rfl, fun f p h => h⟩
  obtain ⟨j, h1, h2, _⟩ := h
  omega

theorem FlushedRange.skip {file i k : Nat} {s t : BufMgr}
    (hn : (s.desc i).file ≠ some file) (h : FlushedRange file (i + 1) k s t) :
    FlushedRange file i (k + 1) s t := by
  obtain ⟨a1, a2, a3, a4, a5, a6, a7, a8, a9, a10⟩ := h
  refine ⟨a1, a2, a3, a4, fun j h1 h2 h3 => ?_, fun j hj => ?_, ?_, fun p hp => ?_,
    fun f p hp => ?_, a10⟩
  · have : j ≠ i := fun e => hn (e ▸ h3)
    exact a5 j (by omega) (by omega) h3
  · apply a6
    rintro ⟨h1, h2, h3⟩
    exact hj ⟨by omega, by omega, h3⟩
  · rw [a7, flushWrites_succ, if_neg (fun h => hn h.1), List.nil_append]
  · obtain ⟨j, h1, h2, h3, h4⟩ := hp
    have : j ≠ i := fun e => hn (e ▸ h3)
    exact a8 p ⟨j, by omega, by omega, h3, h4⟩
  · apply a9
    rintro ⟨h0, j, h1, h2, h3, h4⟩
    exact hp ⟨h0, j, by omega, by omega, h3, h4⟩

theorem FlushedRange.step {file i k : Nat} {s t : BufMgr}
    (hf : (s.desc i).file = some file) (hi : i < s.bufDescTable.length)
    (h : FlushedRange file (i + 1) k (flushStep file i s) t) :
    FlushedRange file i (k + 1) s t := by
  obtain ⟨a1, a2, a3, a4, a5, a6, a7, a8, a9, a10⟩ := h
  obtain ⟨b1, b2, b3, b4, b5, b6, b7, b8⟩ := flushStep_fields file i s hi
  refine ⟨a1.trans b1, a2.trans b2, a3.trans b3, a4.trans b4, fun j h1 h2 h3 => ?_,
    fun j hj => ?_, ?_, fun p hp => ?_, fun f p hp => ?_, fun f p hp => a10 f p ?_⟩
  · rcases Nat.eq_or_lt_of_le h1 with e | e
    · subst e
      rw [a6 i (fun h => by omega), b7]
    · have hne : j ≠ i := by omega
      rw [a5 j (by omega) (by omega) (by rw [b8 j hne]; exact h3), b8 j hne]
  · have hne : j ≠ i := fun e => hj ⟨by omega, by omega, e ▸ hf⟩
    rw [a6 j, b8 j hne]
    rintro ⟨h1, h2, h3⟩
    rw [b8 j hne] at h3
    exact hj ⟨by omega, by omega, h3⟩
  · rw [a7, b6, flushWrites_succ,
      flushWrites_congr s (flushStep file i s) file (i + 1) k
        (fun j hj => b8 j (by omega)) b3]
    cases hd : (s.desc i).dirty
    · simp [Disk.writePage]
    · simp [hf, Disk.writePage]
  · by_cases hex : ∃ j, i + 1 ≤ j ∧ j < i + 1 + k ∧
        ((flushStep file i s).desc j).file = some file ∧ ((flushStep file i s).desc j).pageNo = p
    · exact a8 p hex
    · rw [a9 file p (fun h => hex h.2), b5, lookup_remove]
      obtain ⟨j, h1, h2, h3, h4⟩ := hp
      rcases Nat.eq_or_lt_of_le h1 with e | e
      · subst e; simp [h4]
      · exfalso
        have hne : j ≠ i := by omega
        exact hex ⟨j, by omega, by omega, by rw [b8 j hne]; exact h3, by rw [b8 j hne]; exact h4⟩
  · rw [a9 f p, b5, lookup_remove, if_neg]
    · rintro e
      simp only [Prod.mk.injEq] at e
      exact hp ⟨e.1, i, le_refl _, by omega, hf, e.2.symm⟩
    · rintro ⟨h0, j, h1, h2, h3, h4⟩
      have hne : j ≠ i := by omega
      rw [b8 j hne] at h3 h4
      exact hp ⟨h0, j, by omega, by omega, h3, h4⟩
  · rw [b6]
    split
    · exact has_writePage _ _ _ _ _ hp
    · exact hp

/-- When no frame of the file in the range is invalid or pinned, the loop of `flushFile`
returns normally and has flushed every frame of the file in the range. -/
theorem flushFileLoop_ok (file k : Nat) : ∀ (i : Nat) (s : BufMgr),
    (∀ j, i ≤ j → j < i + k → (s.desc j).file = some file →
      (s.desc j).valid = true ∧ (s.desc j).pinCnt = 0) →
    ∃ t, flushFileLoop file k i s = (Outcome.ok (), t) ∧ FlushedRange file i k s t := by
  induction k with
  | zero => intro i s _; exact ⟨s, rfl, FlushedRange.zero file i s⟩
  | succ k ih =>
    intro i s h
    by_cases hf : (s.desc i).file = some file
    · obtain ⟨hv, hp⟩ := h i (le_refl _) (by omega) hf
      have hi := desc_valid_lt s i hv
      obtain ⟨_, _, _, _, _, _, _, b8⟩ := flushStep_fields file i s hi
      obtain ⟨t, ht, hr⟩ := ih (i + 1) (flushStep file i s) (fun j h1 h2 h3 => by
        rw [b8 j (by omega)] at h3 ⊢
        exact h j (by omega) (by omega) h3)
      exact ⟨t, by rw [flushFileLoop_flush file k i s hf hv hp, ht], hr.step hf hi⟩
    · obtain ⟨t, ht, hr⟩ := ih (i + 1) s (fun j h1 h2 h3 => h j (by omega) (by omega) h3)
      exact ⟨t, by rw [flushFileLoop_skip file k i s hf, ht], hr.skip hf⟩

/-! ## C4: `flushFile` on a file with a pinned frame -/

theorem flushFileLoop_prefix (file a : Nat) : ∀ (b i : Nat) (s t : BufMgr),
    flushFileLoop file a i s = (Outcome.ok (), t) →
    flushFileLoop file (a + b) i s = flushFileLoop file b (i + a) t := by
  induction a with
  | zero =>
    intro b i s t h
    simp only [flushFileLoop, Prod.mk.injEq, true_and] at h
    subst h
    simp
  | succ a ih =>
    intro b i s t h
    have e : a + 1 + b = (a + b) + 1 := by omega
    rw [e]
    by_cases hf : (s.desc i).file = some file
    · cases hv : (s.desc i).valid
      · rw [flushFileLoop_badBuffer file a i s hf hv] at h; cases h
      · rcases Nat.eq_zero_or_pos (s.desc i).pinCnt with hp | hp
        · rw [flushFileLoop_flush file a i s hf hv hp] at h
          rw [flushFileLoop_flush file (a + b) i s hf hv hp, ih b (i + 1) _ t h]
          congr 1; omega
        · rw [flushFileLoop_pinned file a i s hf hv hp] at h; cases h
    · rw [flushFileLoop_skip file a i s hf] at h
      rw [flushFileLoop_skip file (a + b) i s hf, ih b (i + 1) s t h]
      congr 1; omega

/-- C4 (amended): if frame `m` is the first frame of `file` with `pinCnt > 0` (the frames of
the file before it being valid), `flushFile` throws `PagePinnedException` when it reaches
frame `m`; by then it has flushed the frames of the file before `m`: the calls it made on the
file are exactly one `writePage` for each dirty frame of the file before `m`, and frame `m`
and all later frames are untouched. -/
theorem flushFile_first_pinned (s : BufMgr) (file m : Nat) (hm : m < s.numBufs)
    (hf : (s.desc m).file = some file) (hv : (s.desc m).valid = true)
    (hp : 0 < (s.desc m).pinCnt)
    (hbefore : ∀ j, j < m → (s.desc j).file = some file →
      (s.desc j).valid = true ∧ (s.desc j).pinCnt = 0) :
    ∃ t, flushFile s file = (Outcome.throw Exn.PagePinnedException, t) ∧
      t.disk.log = s.disk.log ++ flushWrites s file 0 m ∧
      (∀ j, m ≤ j → t.desc j = s.desc j) ∧
      FlushedRange file 0 m s t := by
  obtain ⟨t, ht, hr⟩ := flushFileLoop_ok file m 0 s (fun j _ h2 h3 => hbefore j (by omega) h3)
  obtain ⟨b, hb⟩ : ∃ b, s.numBufs = m + (b + 1) := ⟨s.numBufs - m - 1, by omega⟩
  have hd : t.desc m = s.desc m := hr.2.2.2.2.2.1 m (fun h => by omega)
  refine ⟨t, ?_, hr.2.2.2.2.2.2.1, fun j hj => hr.2.2.2.2.2.1 j (fun h => by omega), hr⟩
  unfold flushFile
  rw [hb, flushFileLoop_prefix file m (b + 1) 0 s t ht, Nat.zero_add]
  exact flushFileLoop_pinned file b m t (hd ▸ hf) (hd ▸ hv) (hd ▸ hp)

theorem flushFile_first_pinned_witness :
    ∃ t, flushFile exFlush 7 = (Outcome.throw Exn.PagePinnedException, t) ∧
      t.disk.log = exFlush.disk.log ++ flushWrites exFlush 7 0 1 ∧
      (∀ j, 1 ≤ j → t.desc j = exFlush.desc j) ∧
      FlushedRange 7 0 1 exFlush t :=
  flushFile_first_pinned exFlush 7 1 (by decide) (by decide) (by decide) (by decide)
    (by decide)

/-- C4 (as stated) fails: in `exFlush` frame 1 holds a page of file 7 with `pinCnt > 0`;
`flushFile(7)` throws `PagePinnedException`, but only after it has written the dirty
page of frame 0 to file 7. -/
theorem flushFile_pinned_counterexample :
    ((exFlush.desc 1).file = some 7 ∧ (exFlush.desc 1).valid = true ∧
      0 < (exFlush.desc 1).pinCnt) ∧
    (flushFile exFlush 7).1 = Outcome.throw Exn.PagePinnedException ∧
    (flushFile exFlush 7).2.disk.log = exFlush.disk.log ++ [FileOp.write 7 ⟨1, 11⟩] := by
  decide

/-! ## The pool invariant -/

theorem PoolInv.refCleared {s t : BufMgr} (h : PoolInv s) (hr : RefCleared s t) : PoolInv t := by
  obtain ⟨a1, a2, a3, a4, a5, a6⟩ := h
  have ⟨b1, b2, b3, b4, b5, _⟩ := hr
  refine ⟨by rw [b5, b1, a1], by rw [b3, b1, a2], fun i hi => ?_, fun file p f => ?_,
    fun i hi => ?_, fun i file hv hf => ?_⟩
  · rw [hr.frameNo_eq]; exact a3 i (b1 ▸ hi)
  · rw [b2, b1, hr.valid_eq, hr.file_eq, hr.pageNo_eq]; exact a4 file p f
  · rw [hr.file_eq]; rw [hr.valid_eq] at hi; exact a5 i hi
  · rw [hr.valid_eq] at hv; rw [hr.file_eq] at hf
    rw [b4, hr.pageNo_eq]; exact a6 i file hv hf

theorem PoolInv.lt_of_valid {s : BufMgr} (h : PoolInv s) (i : Nat)
    (hv : (s.desc i).valid = true) : i < s.numBufs :=
  h.1 ▸ desc_valid_lt s i hv

theorem PoolInv.unique {s : BufMgr} (h : PoolInv s) (f g file : Nat)
    (hf : (s.desc f).valid = true) (hg : (s.desc g).valid = true)
    (hff : (s.desc f).file = some file) (hgf : (s.desc g).file = some file)
    (hpage : (s.desc f).pageNo = (s.desc g).pageNo) :
    f = g := by
  have h1 := (h.2.2.2.1 file (s.desc f).pageNo f).2 ⟨h.lt_of_valid f hf, hf, hff, rfl⟩
  have h2 := (h.2.2.2.1 file (s.desc f).pageNo g).2 ⟨h.lt_of_valid g hg, hg, hgf, hpage.symm⟩
  rw [h1] at h2
  exact Option.some.inj h2

/-- Changing only the pin count, dirty flag and reference bit of a descriptor keeps the
invariant. -/
theorem PoolInv.setDesc_same {s : BufMgr} (h : PoolInv s) (i : Nat) (d : BufDesc)
    (hv : d.valid = (s.desc i).valid) (hf : d.file = (s.desc i).file)
    (hp : d.pageNo = (s.desc i).pageNo) (hn : d.frameNo = (s.desc i).frameNo) :
    PoolInv (s.setDesc i d) := by
  obtain ⟨a1, a2, a3, a4, a5, a6⟩ := h
  have key : ∀ j, ((s.setDesc i d).desc j).valid = (s.desc j).valid ∧
      ((s.setDesc i d).desc j).file = (s.desc j).file ∧
      ((s.setDesc i d).desc j).pageNo = (s.desc j).pageNo ∧
      ((s.setDesc i d).desc j).frameNo = (s.desc j).frameNo := by
    intro j
    rw [desc_setDesc]
    split
    · rename_i hc; rw [← hc.1]; exact ⟨hv, hf, hp, hn⟩
    · exact ⟨rfl, rfl, rfl, rfl⟩
  refine ⟨by simpa using a1, a2, fun j hj => ?_, fun file p f => ?_, fun j hj => ?_,
    fun j file hv hf => ?_⟩
  · rw [(key j).2.2.2]; exact a3 j hj
  · rw [(key f).1, (key f).2.1, (key f).2.2.1]; exact a4 file p f
  · rw [(key j).2.1]; rw [(key j).1] at hj; exact a5 j hj
  · rw [(key j).1] at hv; rw [(key j).2.1] at hf; rw [(key j).2.2.1]
    exact a6 j file hv hf

/-- Clearing a valid frame together with the removal of its locator entry keeps the
invariant. -/
theorem PoolInv.release {s t : BufMgr} (h : PoolInv s) (i fl : Nat)
    (hv : (s.desc i).valid = true) (hf : (s.desc i).file = some fl)
    (hn : t.numBufs = s.numBufs) (hl : t.bufDescTable.length = s.bufDescTable.length)
    (hpl : t.bufPool.length = s.bufPool.length)
    (hd : t.desc i = (s.desc i).clear) (ho : ∀ j, j ≠ i → t.desc j = s.desc j)
    (hlk : ∀ f1 p1, t.hashTable.lookup f1 p1 =
      if (f1, p1) = (fl, (s.desc i).pageNo) then none else s.hashTable.lookup f1 p1)
    (hdisk : ∀ f1 p1, s.disk.has f1 p1 → t.disk.has f1 p1) : PoolInv t := by
  have hi := h.lt_of_valid i hv
  obtain ⟨a1, a2, a3, a4, a5, a6⟩ := h
  refine ⟨by rw [hl, hn, a1], by rw [hpl, hn, a2], fun j hj => ?_, fun file p f => ?_,
    fun j hj => ?_, fun j file hv1 hf1 => ?_⟩
  · by_cases e : j = i
    · subst e; rw [hd]; exact a3 j (hn ▸ hj)
    · rw [ho j e]; exact a3 j (hn ▸ hj)
  · rw [hlk, hn]
    by_cases e : f = i
    · subst e
      rw [hd]
      simp only [BufDesc.clear, BufDesc.unused, Bool.false_eq_true, false_and, and_false, iff_false]
      split
      · simp
      · rename_i hne
        intro hc
        obtain ⟨_, _, h3, h4⟩ := (a4 file p f).1 hc
        rw [hf] at h3
        exact hne (by rw [← h4, Option.some.inj h3])
    · rw [ho f e]
      split
      · rename_i hk
        simp only [Prod.mk.injEq] at hk
        refine ⟨fun hc => (by cases hc), ?_⟩
        rintro ⟨h1, h2, h3, h4⟩
        exfalso
        have := (a4 fl (s.desc i).pageNo f).2 ⟨h1, h2, hk.1 ▸ h3, hk.2 ▸ h4⟩
        rw [(a4 fl (s.desc i).pageNo i).2 ⟨hi, hv, hf, rfl⟩] at this
        exact e (Option.some.inj this).symm
      · exact a4 file p f
  · by_cases e : j = i
    · subst e; rw [hd]; rfl
    · rw [ho j e] at hj ⊢; exact a5 j hj
  · have e : j ≠ i := by
      rintro rfl
      rw [hd] at hv1
      simp [BufDesc.clear, BufDesc.unused] at hv1
    rw [ho j e] at hv1 hf1 ⊢
    exact hdisk _ _ (a6 j file hv1 hf1)

/-- Installing a page that is not resident in frame `h`, whose previous occupant (if any)
is dropped from the locator, keeps the invariant. -/
theorem PoolInv.install {u t : BufMgr} (hI : PoolInv u) (h file p : Nat)
    (hh : h < u.numBufs) (hmiss : u.hashTable.lookup file p = none)
    (hn : t.numBufs = u.numBufs) (hl : t.bufDescTable.length = u.bufDescTable.length)
    (hpl : t.bufPool.length = u.bufPool.length)
    (hd : t.desc h = (u.desc h).Set file p) (ho : ∀ j, j ≠ h → t.desc j = u.desc j)
    (hlk : ∀ f1 p1, t.hashTable.lookup f1 p1 =
      if (f1, p1) = (file, p) then some h
      else if (u.desc h).file = some f1 ∧ (u.desc h).pageNo = p1 then none
      else u.hashTable.lookup f1 p1)
    (hdisk : ∀ f1 p1, u.disk.has f1 p1 → t.disk.has f1 p1) (hnew : t.disk.has file p) :
    PoolInv t := by
  obtain ⟨a1, a2, a3, a4, a5, a6⟩ := hI
  refine ⟨by rw [hl, hn, a1], by rw [hpl, hn, a2], fun j hj => ?_, fun f1 p1 f => ?_,
    fun j hj => ?_, fun j f1 hv1 hf1 => ?_⟩
  · by_cases e : j = h
    · subst e; rw [hd]; exact a3 j (hn ▸ hj)
    · rw [ho j e]; exact a3 j (hn ▸ hj)
  · rw [hlk, hn]
    by_cases hk : (f1, p1) = (file, p)
    · rw [if_pos hk]
      simp only [Prod.mk.injEq] at hk
      obtain ⟨rfl, rfl⟩ := hk
      constructor
      · intro e
        have e := Option.some.inj e
        subst e
        rw [hd]
        exact ⟨hh, rfl, rfl, rfl⟩
      · rintro ⟨h1, h2, h3, h4⟩
        by_cases e : f = h
        · rw [e]
        · rw [ho f e] at h2 h3 h4
          have := (a4 f1 p1 f).2 ⟨h1, h2, h3, h4⟩
          rw [hmiss] at this
          cases this
    · rw [if_neg hk]
      by_cases e : f = h
      · subst e
        rw [hd]
        have : ¬ (f < u.numBufs ∧ ((u.desc f).Set file p).valid = true ∧
            ((u.desc f).Set file p).file = some f1 ∧ ((u.desc f).Set file p).pageNo = p1) := by
          rintro ⟨_, _, h3, h4⟩
          simp only [BufDesc.Set, Option.some.injEq] at h3 h4
          exact hk (by rw [h3, h4])
        simp only [this, iff_false]
        split
        · simp
        · rename_i hne
          intro hc
          obtain ⟨_, _, h3, h4⟩ := (a4 f1 p1 f).1 hc
          exact hne ⟨h3, h4⟩
      · rw [ho f e]
        split
        · rename_i hk2
          refine ⟨fun hc => (by cases hc), ?_⟩
          rintro ⟨h1, h2, h3, h4⟩
          exfalso
          have hv : (u.desc h).valid = true := by
            by_contra hc
            have := a5 h (by simpa using hc)
            rw [this] at hk2
            exact absurd hk2.1 (by simp)
          have e1 := (a4 f1 p1 f).2 ⟨h1, h2, h3, h4⟩
          rw [(a4 f1 p1 h).2 ⟨hh, hv, hk2.1, hk2.2⟩] at e1
          exact e (Option.some.inj e1).symm
        · exact a4 f1 p1 f
  · have e : j ≠ h := by
      rintro rfl
      rw [hd] at hj
      simp [BufDesc.Set] at hj
    rw [ho j e] at hj ⊢; exact a5 j hj
  · by_cases e : j = h
    · subst e
      rw [hd] at hf1 ⊢
      simp only [BufDesc.Set, Option.some.injEq] at hf1 ⊢
      rw [← hf1]; exact hnew
    · rw [ho j e] at hv1 hf1 ⊢
      exact hdisk _ _ (a6 j f1 hv1 hf1)

/-! ## The file collaborator -/

theorem has_deletePage (d : Disk) (file pn f p : Nat) (h : d.has f p)
    (hne : ¬ (f = file ∧ p = pn)) : (d.deletePage file pn).has f p := by
  obtain ⟨e, he, h1, h2⟩ := h
  refine ⟨e, ?_, h1, h2⟩
  simp only [Disk.deletePage, List.mem_filter, decide_eq_true_eq]
  exact ⟨he, by rw [h1, h2]; exact hne⟩

theorem has_of_find (d : Disk) (f p : Nat) (pg : Page) (h : d.find f p = some pg) :
    d.has f p := by
  unfold Disk.find at h
  cases hf : d.pages.find? (fun e => e.1 = f ∧ e.2.pageNo = p) with
  | none => rw [hf] at h; cases h
  | some e =>
    have h1 := List.find?_some hf
    have h2 := List.mem_of_find?_eq_some hf
    simp only [decide_eq_true_eq] at h1
    exact ⟨e, h2, h1.1, h1.2⟩

theorem has_readPage (d : Disk) (file pn f p : Nat) :
    (d.readPage file pn).2.has f p ↔ d.has f p := Iff.rfl

theorem has_allocatePage (d : Disk) (file f p : Nat) (h : d.has f p) :
    (d.allocatePage file).2.has f p := by
  obtain ⟨e, he, h1, h2⟩ := h
  exact ⟨e, List.mem_cons_of_mem _ he, h1, h2⟩

theorem has_allocatePage_new (d : Disk) (file : Nat) :
    (d.allocatePage file).2.has file (d.allocatePage file).1.pageNo :=
  ⟨(file, (d.allocatePage file).1), List.mem_cons_self _ _, rfl, rfl⟩

theorem le_foldr_max (l : List Nat) (x : Nat) (h : x ∈ l) : x ≤ l.foldr max 0 := by
  induction l with
  | nil => cases h
  | cons a l ih =>
    simp only [List.foldr_cons]
    rcases List.mem_cons.1 h with e | e
    · subst e; exact Nat.le_max_left _ _
    · exact Nat.le_trans (ih e) (Nat.le_max_right _ _)

/-- The page number `allocatePage` hands out is not allocated in the file. -/
theorem not_has_freshPageNo (d : Disk) (file : Nat) : ¬ d.has file (d.freshPageNo file) := by
  rintro ⟨e, he, h1, h2⟩
  have : e.2.pageNo ≤
      ((d.pages.filter (fun e => e.1 = file)).map (fun e => e.2.pageNo)).foldr max 0 := by
    apply le_foldr_max
    exact List.mem_map.2 ⟨e, List.mem_filter.2 ⟨he, by simpa using h1⟩, rfl⟩
  unfold Disk.freshPageNo at h2
  omega

/-! ## Effect of an eviction -/

theorem evicted_fields (u : BufMgr) :
    (evicted u).numBufs = u.numBufs ∧ (evicted u).clockHand = u.clockHand ∧
    (evicted u).bufDescTable = u.bufDescTable ∧ (evicted u).bufPool = u.bufPool ∧
    (∀ f1 p1, (evicted u).hashTable.lookup f1 p1 =
      if (u.desc u.clockHand).file = some f1 ∧ (u.desc u.clockHand).pageNo = p1 then none
      else u.hashTable.lookup f1 p1) ∧
    (∀ f1 p1, u.disk.has f1 p1 → (evicted u).disk.has f1 p1) ∧
    (evicted u).disk.log = u.disk.log ++
      (match (u.desc u.clockHand).file with
       | some fl =>
         if (u.desc u.clockHand).dirty then [FileOp.write fl (u.page u.clockHand)] else []
       | none => []) := by
  cases hf : (u.desc u.clockHand).file with
  | none =>
    have e : evicted u = u := by simp only [evicted, hf]
    rw [e]; simp
  | some fl =>
    have e : evicted u = { u with
        disk := if (u.desc u.clockHand).dirty then u.disk.writePage fl (u.page u.clockHand)
          else u.disk
        hashTable := u.hashTable.remove fl (u.desc u.clockHand).pageNo } := by
      simp only [evicted, hf]
    rw [e]
    refine ⟨rfl, rfl, rfl, rfl, fun f1 p1 => ?_, fun f1 p1 h => ?_, ?_⟩
    · simp only [lookup_remove, Prod.mk.injEq, Option.some.injEq]
      by_cases hk : f1 = fl ∧ p1 = (u.desc u.clockHand).pageNo
      · rw [if_pos hk, if_pos ⟨hk.1.symm, hk.2.symm⟩]
      · rw [if_neg hk, if_neg (fun h => hk ⟨h.1.symm, h.2.symm⟩)]
    · simp only
      split
      · exact has_writePage _ _ _ _ _ h
      · exact h
    · simp only
      split <;> simp [Disk.writePage]

theorem desc_evicted (u : BufMgr) (i : Nat) : (evicted u).desc i = u.desc i := by
  unfold BufMgr.desc; rw [(evicted_fields u).2.2.1]

/-- Under the invariant a successful `allocBuf` returns the hand position, and the state is
the eviction of the frame there (which changes nothing when that frame is invalid). -/
theorem allocBuf_ok_of_inv {s s1 : BufMgr} {f : Nat} (hI : PoolInv s)
    (h : allocBuf s = some (Outcome.ok f, s1)) :
    ∃ u, RefCleared s u ∧ PoolInv u ∧ f = u.clockHand ∧ f < s.numBufs ∧ s1 = evicted u ∧
      ((u.desc f).valid = false ∨
        ((u.desc f).valid = true ∧ (u.desc f).refbit = false ∧ (u.desc f).pinCnt = 0)) := by
  rcases allocBuf_effect s s1 _ h with ⟨a, _, _⟩ | ⟨u, a, b, c, d⟩
  · cases a
  · have hu := hI.refCleared a
    have hf : f = u.clockHand := by
      have := Outcome.ok.inj c
      rw [this]; exact hu.2.2.1 _ (a.1 ▸ b)
    subst hf
    refine ⟨u, a, hu, rfl, b, ?_, ?_⟩
    · rcases d with ⟨d1, d2⟩ | ⟨_, _, _, d4⟩
      · rw [d2]
        simp only [evicted, hu.2.2.2.2.1 _ d1]
      · exact d4
    · rcases d with ⟨d1, _⟩ | ⟨d1, d2, d3, _⟩
      · exact Or.inl d1
      · exact Or.inr ⟨d1, d2, d3⟩

theorem allocBuf_throw_of {s s1 : BufMgr} {e : Exn}
    (h : allocBuf s = some (Outcome.throw e, s1)) :
    e = Exn.BufferExceededException ∧ RefCleared s s1 ∧
      ∀ i, i < s.numBufs → (s.desc i).valid = true ∧ 0 < (s.desc i).pinCnt := by
  rcases allocBuf_effect s s1 _ h with ⟨a, b, c⟩ | ⟨u, _, _, c, _⟩
  · exact ⟨Outcome.throw.inj a, b, c⟩
  · cases c

/-! ## Installing a page in a frame -/

theorem installPage_fields (s1 : BufMgr) (f file pageNo : Nat) (pg : Page) :
    (installPage s1 f file pageNo pg).numBufs = s1.numBufs ∧
    (installPage s1 f file pageNo pg).clockHand = s1.clockHand ∧
    (installPage s1 f file pageNo pg).disk = s1.disk ∧
    (installPage s1 f file pageNo pg).bufDescTable.length = s1.bufDescTable.length ∧
    (installPage s1 f file pageNo pg).bufPool = s1.bufPool.set f pg ∧
    (installPage s1 f file pageNo pg).hashTable = s1.hashTable.insert file pageNo f ∧
    (f < s1.bufDescTable.length →
      (installPage s1 f file pageNo pg).desc f = (s1.desc f).Set file pageNo) ∧
    (∀ j, j ≠ f → (installPage s1 f file pageNo pg).desc j = s1.desc j) := by
  unfold installPage
  refine ⟨rfl, rfl, rfl, by simp, rfl, rfl, fun hf => ?_, fun j hj => ?_⟩
  · rw [desc_setDesc]; simp [hf]; rfl
  · rw [desc_setDesc_ne _ _ _ _ (Ne.symm hj)]; rfl

theorem readPage_miss_ok (s s1 : BufMgr) (file pageNo f : Nat) (pg : Page)
    (hmiss : s.hashTable.lookup file pageNo = none) (hread : s.disk.find file pageNo = some pg)
    (ha : allocBuf { s with disk := (s.disk.readPage file pageNo).2 } = some (Outcome.ok f, s1)) :
    readPage s file pageNo = some (Outcome.ok f, installPage s1 f file pageNo pg) := by
  simp only [readPage, hmiss, Disk.readPage, hread]
  simp only [Disk.readPage] at ha
  rw [ha]
  rfl

theorem readPage_miss_throw (s s1 : BufMgr) (file pageNo : Nat) (pg : Page) (e : Exn)
    (hmiss : s.hashTable.lookup file pageNo = none) (hread : s.disk.find file pageNo = some pg)
    (ha : allocBuf { s with disk := (s.disk.readPage file pageNo).2 } =
      some (Outcome.throw e, s1)) :
    readPage s file pageNo = some (Outcome.throw e, s1) := by
  simp only [readPage, hmiss, Disk.readPage, hread]
  simp only [Disk.readPage] at ha
  rw [ha]

theorem readPage_miss_invalid (s : BufMgr) (file pageNo : Nat)
    (hmiss : s.hashTable.lookup file pageNo = none) (hread : s.disk.find file pageNo = none) :
    readPage s file pageNo = some (Outcome.throw Exn.InvalidPageException,
      { s with disk := (s.disk.readPage file pageNo).2 }) := by
  simp only [readPage, hmiss, Disk.readPage, hread]

theorem allocPage_ok (s s1 : BufMgr) (file fid : Nat)
    (ha : allocBuf s = some (Outcome.ok fid, s1)) (hf : fid < s1.bufPool.length) :
    allocPage s file = some (Outcome.ok ((s1.disk.allocatePage file).1.pageNo, fid),
      installPage { s1 with disk := (s1.disk.allocatePage file).2 } fid file
        (s1.disk.allocatePage file).1.pageNo (s1.disk.allocatePage file).1) := by
  have hp : ∀ (t : BufMgr) (pg : Page), t.bufPool = s1.bufPool.set fid pg → t.page fid = pg := by
    intro t pg ht
    simp [BufMgr.page, ht, List.getD_eq_getElem?_getD, List.getElem?_set, hf]
  simp only [allocPage, ha]
  rw [hp _ _ rfl]
  rfl

theorem allocPage_throw (s s1 : BufMgr) (file : Nat) (e : Exn)
    (ha : allocBuf s = some (Outcome.throw e, s1)) :
    allocPage s file = some (Outcome.throw e, s1) := by
  simp only [allocPage, ha]

/-! ## Every call keeps the pool invariant -/

theorem PoolInv.installPage {u s1 : BufMgr} (hI : PoolInv u) (file p : Nat) (pg : Page)
    (hh : u.clockHand < u.numBufs) (hmiss : u.hashTable.lookup file p = none)
    (h1 : s1.numBufs = u.numBufs) (h2 : s1.bufDescTable = u.bufDescTable)
    (h3 : s1.bufPool = u.bufPool) (h4 : s1.hashTable = (evicted u).hashTable)
    (hdisk : ∀ f1 p1, u.disk.has f1 p1 → s1.disk.has f1 p1) (hnew : s1.disk.has file p) :
    PoolInv (installPage s1 u.clockHand file p pg) := by
  obtain ⟨b1, _, b3, b4, b5, b6, b7, b8⟩ := installPage_fields s1 u.clockHand file p pg
  have hd : ∀ j, s1.desc j = u.desc j := fun j => by unfold BufMgr.desc; rw [h2]
  have hlen : u.clockHand < s1.bufDescTable.length := by rw [h2, hI.1]; exact hh
  refine hI.install u.clockHand file p hh hmiss (b1.trans h1) (by rw [b4, h2])
    (by rw [b5, List.length_set, h3]) (by rw [b7 hlen, hd]) (fun j hj => by rw [b8 j hj, hd])
    (fun f1 p1 => ?_) (fun f1 p1 h => by rw [b3]; exact hdisk f1 p1 h) (by rw [b3]; exact hnew)
  rw [b6, lookup_insert, h4, (evicted_fields u).2.2.2.2.1]

theorem PoolInv.disk_log {s : BufMgr} (h : PoolInv s) (d : Disk) (hd : d.pages = s.disk.pages) :
    PoolInv { s with disk := d } := by
  obtain ⟨a1, a2, a3, a4, a5, a6⟩ := h
  refine ⟨a1, a2, a3, a4, a5, fun i file hv hf => ?_⟩
  obtain ⟨e, he, h1, h2⟩ := a6 i file hv hf
  exact ⟨e, by rw [hd]; exact he, h1, h2⟩

theorem PoolInv.readPage {s t : BufMgr} {file pageNo : Nat} {r : Outcome Nat}
    (hI : PoolInv s) (h : readPage s file pageNo = some (r, t)) : PoolInv t := by
  cases hl : s.hashTable.lookup file pageNo with
  | some f =>
    simp only [badgerdb.readPage, hl, Option.some.injEq, Prod.mk.injEq] at h
    rw [← h.2]
    exact hI.setDesc_same f _ rfl rfl rfl rfl
  | none =>
    have hI1 : PoolInv { s with disk := (s.disk.readPage file pageNo).2 } := hI.disk_log _ rfl
    cases hr : s.disk.find file pageNo with
    | none =>
      rw [readPage_miss_invalid s file pageNo hl hr] at h
      simp only [Option.some.injEq, Prod.mk.injEq] at h
      rw [← h.2]; exact hI1
    | some pg =>
      obtain ⟨⟨r1, s1⟩, ha⟩ := allocBuf_terminates { s with disk := (s.disk.readPage file pageNo).2 }
      cases r1 with
      | throw e =>
        rw [readPage_miss_throw s s1 file pageNo pg e hl hr ha] at h
        simp only [Option.some.injEq, Prod.mk.injEq] at h
        rw [← h.2]
        exact hI1.refCleared (allocBuf_throw_of ha).2.1
      | ok f =>
        rw [readPage_miss_ok s s1 file pageNo f pg hl hr ha] at h
        simp only [Option.some.injEq, Prod.mk.injEq] at h
        rw [← h.2]
        obtain ⟨u, c1, c2, c3, c4, c5, _⟩ := allocBuf_ok_of_inv hI1 ha
        subst c3 c5
        obtain ⟨e1, _, e3, e4, _, e6, _⟩ := evicted_fields u
        refine c2.installPage file pageNo pg (by rw [c1.1]; exact c4) (by rw [c1.2.1]; exact hl)
          e1 e3 e4 rfl e6 (e6 _ _ ?_)
        rw [c1.2.2.2.1]
        exact has_of_find _ _ _ _ hr

theorem PoolInv.allocPage {s t : BufMgr} {file : Nat} {r : Outcome (Nat × Nat)}
    (hI : PoolInv s) (h : allocPage s file = some (r, t)) : PoolInv t := by
  obtain ⟨⟨r1, s1⟩, ha⟩ := allocBuf_terminates s
  cases r1 with
  | throw e =>
    rw [allocPage_throw s s1 file e ha] at h
    simp only [Option.some.injEq, Prod.mk.injEq] at h
    rw [← h.2]
    exact hI.refCleared (allocBuf_throw_of ha).2.1
  | ok f =>
    obtain ⟨u, c1, c2, c3, c4, c5, _⟩ := allocBuf_ok_of_inv hI ha
    subst c3 c5
    obtain ⟨e1, _, e3, e4, e5, e6, _⟩ := evicted_fields u
    rw [allocPage_ok s (evicted u) file u.clockHand ha (by rw [e4, c2.2.1, c1.1]; exact c4)] at h
    simp only [Option.some.injEq, Prod.mk.injEq] at h
    rw [← h.2]
    refine c2.installPage file _ _ (by rw [c1.1]; exact c4) ?_ e1 e3 e4 rfl
      (fun f1 p1 hp => has_allocatePage _ _ _ _ (e6 f1 p1 hp)) (has_allocatePage_new _ _)
    cases hl : u.hashTable.lookup file ((evicted u).disk.allocatePage file).1.pageNo with
    | none => rfl
    | some g =>
      exfalso
      obtain ⟨_, g2, g3, g4⟩ := (c2.2.2.2.1 _ _ g).1 hl
      have := e6 _ _ (c2.2.2.2.2.2 g file g2 g3)
      rw [g4] at this
      exact not_has_freshPageNo _ _ this

theorem PoolInv.unPinPage {s : BufMgr} (hI : PoolInv s) (file pageNo : Nat) (dirty : Bool) :
    PoolInv (unPinPage s file pageNo dirty).2 := by
  cases hl : s.hashTable.lookup file pageNo with
  | none => simpa [badgerdb.unPinPage, hl] using hI
  | some f =>
    rcases Nat.eq_zero_or_pos (s.desc f).pinCnt with hp | hp
    · simpa [badgerdb.unPinPage, hl, hp] using hI
    · have h1 := hI.setDesc_same f { s.desc f with pinCnt := (s.desc f).pinCnt - 1 }
        rfl rfl rfl rfl
      cases dirty
      · simpa [badgerdb.unPinPage, hl, hp] using h1
      · have hlt := desc_pinCnt_pos_lt s f hp
        have h2 := h1.setDesc_same f
          { (s.setDesc f { s.desc f with pinCnt := (s.desc f).pinCnt - 1 }).desc f with
            dirty := true } rfl rfl rfl rfl
        simpa [badgerdb.unPinPage, hl, hp] using h2

theorem PoolInv.flushStep {s : BufMgr} (hI : PoolInv s) (file i : Nat)
    (hf : (s.desc i).file = some file) (hv : (s.desc i).valid = true) :
    PoolInv (flushStep file i s) := by
  have hi := desc_valid_lt s i hv
  obtain ⟨b1, _, b3, b4, b5, b6, b7, b8⟩ := flushStep_fields file i s hi
  refine hI.release i file hv hf b1 b4 (by rw [b3]) b7 b8 (fun f1 p1 => ?_) (fun f1 p1 h => ?_)
  · rw [b5, lookup_remove]
  · rw [b6]
    split
    · exact has_writePage _ _ _ _ _ h
    · exact h

theorem PoolInv.flushFileLoop (file k : Nat) : ∀ (i : Nat) (s : BufMgr), PoolInv s →
    PoolInv (flushFileLoop file k i s).2 := by
  induction k with
  | zero => intro i s h; exact h
  | succ k ih =>
    intro i s h
    by_cases hf : (s.desc i).file = some file
    · cases hv : (s.desc i).valid
      · rw [flushFileLoop_badBuffer file k i s hf hv]; exact h
      · rcases Nat.eq_zero_or_pos (s.desc i).pinCnt with hp | hp
        · rw [flushFileLoop_flush file k i s hf hv hp]
          exact ih (i + 1) _ (h.flushStep file i hf hv)
        · rw [flushFileLoop_pinned file k i s hf hv hp]; exact h
    · rw [flushFileLoop_skip file k i s hf]
      exact ih (i + 1) s h

theorem PoolInv.disposePage {s : BufMgr} (hI : PoolInv s) (file pageNo : Nat) :
    PoolInv (disposePage s file pageNo).2 := by
  have key : ∀ t : BufMgr, PoolInv t → t.hashTable.lookup file pageNo = none →
      PoolInv { t with disk := t.disk.deletePage file pageNo } := by
    intro t ⟨a1, a2, a3, a4, a5, a6⟩ hl
    refine ⟨a1, a2, a3, a4, a5, fun i fl hv hf => ?_⟩
    refine has_deletePage _ _ _ _ _ (a6 i fl hv hf) ?_
    rintro ⟨rfl, hp⟩
    have := (a4 fl pageNo i).2 ⟨a1 ▸ desc_valid_lt t i hv, hv, hf, hp⟩
    rw [hl] at this
    cases this
  cases hl : s.hashTable.lookup file pageNo with
  | none =>
    have := key s hI hl
    simpa [badgerdb.disposePage, hl] using this
  | some f =>
    obtain ⟨g1, g2, g3, g4⟩ := (hI.2.2.2.1 file pageNo f).1 hl
    have hlt := desc_valid_lt s f g2
    have h1 : PoolInv { s.setDesc f (s.desc f).clear with
        hashTable := (s.setDesc f (s.desc f).clear).hashTable.remove file pageNo } := by
      refine hI.release f file g2 g3 rfl (by simp) rfl ?_ ?_ (fun f1 p1 => ?_) (fun _ _ h => h)
      · exact desc_setDesc_self s f _ hlt
      · intro j hj
        exact desc_setDesc_ne s f j _ (Ne.symm hj)
      · show (BufHashTbl.remove s.hashTable file pageNo).lookup f1 p1 = _
        rw [lookup_remove, g4]
    have h2 := key _ h1 (by
      show (BufHashTbl.remove s.hashTable file pageNo).lookup file pageNo = none
      rw [lookup_remove]; simp)
    simpa [badgerdb.disposePage, hl] using h2

theorem PoolInv.new (bufs : Nat) (disk : Disk) : PoolInv (BufMgr.new bufs disk) := by
  have hd : ∀ i, (BufMgr.new bufs disk).desc i = BufDesc.unused (if i < bufs then i else 0) := by
    intro i
    simp only [BufMgr.new, BufMgr.desc, List.getD_eq_getElem?_getD, List.getElem?_map]
    by_cases h : i < bufs
    · simp [h, List.getElem?_range]
    · rw [List.getElem?_eq_none (by simpa using Nat.le_of_not_lt h)]
      simp [default, h]
  refine ⟨by simp [BufMgr.new], by simp [BufMgr.new], fun i hi => ?_, fun file p f => ?_,
    fun i _ => ?_, fun i file hv _ => ?_⟩
  · have hi : i < bufs := hi
    rw [hd]; simp [hi, BufDesc.unused]
  · rw [hd]; simp [BufMgr.new, BufHashTbl.lookup, BufDesc.unused]
  · rw [hd]; rfl
  · rw [hd] at hv; simp [BufDesc.unused] at hv

/-- Every reachable state satisfies the pool invariant. -/
theorem reachable_poolInv (s : BufMgr) (h : Reachable s) : PoolInv s := by
  induction h with
  | fresh bufs disk => exact PoolInv.new bufs disk
  | step c s s1 _ hrun ih =>
    cases c with
    | readPage file pageNo =>
      simp only [Call.run, Option.map_eq_some'] at hrun
      obtain ⟨⟨r, t⟩, h1, h2⟩ := hrun
      subst h2
      exact ih.readPage h1
    | unPinPage file pageNo dirty =>
      simp only [Call.run, Option.some.injEq] at hrun
      rw [← hrun]; exact ih.unPinPage file pageNo dirty
    | allocPage file =>
      simp only [Call.run, Option.map_eq_some'] at hrun
      obtain ⟨⟨r, t⟩, h1, h2⟩ := hrun
      subst h2
      exact ih.allocPage h1
    | flushFile file =>
      simp only [Call.run, Option.some.injEq] at hrun
      rw [← hrun]; exact PoolInv.flushFileLoop file _ 0 s ih
    | disposePage file pageNo =>
      simp only [Call.run, Option.some.injEq] at hrun
      rw [← hrun]; exact ih.disposePage file pageNo

theorem reachable_runCalls (cs : List Call) : ∀ (s t : BufMgr), Reachable s →
    runCalls cs s = some t → Reachable t := by
  induction cs with
  | nil => intro s t h e; simp only [runCalls, Option.some.injEq] at e; exact e ▸ h
  | cons c cs ih =>
    intro s t h e
    simp only [runCalls] at e
    cases hc : c.run s with
    | none => rw [hc] at e; cases e
    | some s1 => rw [hc] at e; exact ih s1 t (Reachable.step c s s1 h hc) e

/-- Every call ends: on every state each call leaves a state behind. -/
theorem run_total (c : Call) (s : BufMgr) : ∃ t, c.run s = some t := by
  cases c with
  | readPage file pageNo =>
    simp only [Call.run, Option.map_eq_some']
    cases hl : s.hashTable.lookup file pageNo with
    | some f => exact ⟨_, ⟨_, _⟩, by simp only [readPage, hl]; rfl, rfl⟩
    | none =>
      cases hr : s.disk.find file pageNo with
      | none => exact ⟨_, _, readPage_miss_invalid s file pageNo hl hr, rfl⟩
      | some pg =>
        obtain ⟨⟨r1, s1⟩, ha⟩ :=
          allocBuf_terminates { s with disk := (s.disk.readPage file pageNo).2 }
        cases r1 with
        | throw e => exact ⟨_, _, readPage_miss_throw s s1 file pageNo pg e hl hr ha, rfl⟩
        | ok f => exact ⟨_, _, readPage_miss_ok s s1 file pageNo f pg hl hr ha, rfl⟩
  | unPinPage file pageNo dirty => exact ⟨_, rfl⟩
  | allocPage file =>
    simp only [Call.run, Option.map_eq_some']
    obtain ⟨⟨r1, s1⟩, ha⟩ := allocBuf_terminates s
    cases r1 with
    | throw e => exact ⟨_, _, allocPage_throw s s1 file e ha, rfl⟩
    | ok f => exact ⟨_, ⟨_, _⟩, by simp only [allocPage, ha]; rfl, rfl⟩
  | flushFile file => exact ⟨_, rfl⟩
  | disposePage file pageNo => exact ⟨_, rfl⟩

/-! ## C6: the locator holds exactly the valid frames -/

/-- C6: in every state reachable from a fresh `BufMgr` by `readPage`, `unPinPage`,
`allocPage`, `flushFile` and `disposePage` calls (a call that throws leaves a state too, and
by `run_total` every call does leave one), the locator maps `(file, pageNo)` to `f` if and
only if `f` is a frame whose descriptor is valid and holds that file and page number; hence
no two valid frames hold the same `(file, pageNo)`, and no invalid frame is in the locator. -/
theorem reachable_locator_iff_valid (s : BufMgr) (h : Reachable s) :
    (∀ file pageNo f, s.hashTable.lookup file pageNo = some f ↔
      f < s.numBufs ∧ (s.desc f).valid = true ∧ (s.desc f).file = some file ∧
        (s.desc f).pageNo = pageNo) ∧
    (∀ f g file, (s.desc f).valid = true → (s.desc g).valid = true →
      (s.desc f).file = some file → (s.desc g).file = some file →
      (s.desc f).pageNo = (s.desc g).pageNo → f = g) ∧
    (∀ file pageNo f, s.hashTable.lookup file pageNo = some f → (s.desc f).valid = true) := by
  have hI := reachable_poolInv s h
  exact ⟨hI.2.2.2.1, fun f g file h1 h2 h3 h4 h5 => hI.unique f g file h1 h2 h3 h4 h5,
    fun file pageNo f hl => ((hI.2.2.2.1 file pageNo f).1 hl).2.1⟩

theorem reachable_locator_iff_valid_witness :
    (∀ file pageNo f, exFlush.hashTable.lookup file pageNo = some f ↔
      f < exFlush.numBufs ∧ (exFlush.desc f).valid = true ∧ (exFlush.desc f).file = some file ∧
        (exFlush.desc f).pageNo = pageNo) ∧
    (∀ f g file, (exFlush.desc f).valid = true → (exFlush.desc g).valid = true →
      (exFlush.desc f).file = some file → (exFlush.desc g).file = some file →
      (exFlush.desc f).pageNo = (exFlush.desc g).pageNo → f = g) ∧
    (∀ file pageNo f, exFlush.hashTable.lookup file pageNo = some f →
      (exFlush.desc f).valid = true) :=
  reachable_locator_iff_valid exFlush
    (reachable_runCalls [Call.readPage 7 1, Call.readPage 7 2, Call.unPinPage 7 1 true]
      (BufMgr.new 2 exDisk) exFlush (Reachable.fresh 2 exDisk) (by decide))

/-! ## C7: the cache-miss path of `readPage` -/

/-- C7: when `(file, pageNo)` is not resident and `file.readPage(pageNo)` returns `pg`,
`readPage` runs `allocBuf` (which ends). If `allocBuf` supplies frame `f`, `readPage` returns
`f`, the frame holds `pg`, descriptor `f` is `{file, pageNo, valid = true, refbit = true,
pinCnt = 1, dirty = false}` and the locator maps `(file, pageNo)` to `f`. If `allocBuf`
throws, `readPage` throws `BufferExceededException` and the locator is as before. -/
theorem readPage_miss (s : BufMgr) (file pageNo : Nat) (pg : Page)
    (hlen : s.bufDescTable.length = s.numBufs) (hpool : s.bufPool.length = s.numBufs)
    (hfn : ∀ i, i < s.numBufs → (s.desc i).frameNo = i)
    (hmiss : s.hashTable.lookup file pageNo = none)
    (hread : s.disk.find file pageNo = some pg) :
    ∃ r1 s1 t, allocBuf { s with disk := (s.disk.readPage file pageNo).2 } = some (r1, s1) ∧
      ((∃ f, r1 = Outcome.ok f ∧ readPage s file pageNo = some (Outcome.ok f, t) ∧
          f < s.numBufs ∧ t.page f = pg ∧
          t.desc f = { file := some file, pageNo := pageNo, frameNo := f, pinCnt := 1,
                       dirty := false, valid := true, refbit := true } ∧
          t.hashTable.lookup file pageNo = some f) ∨
       (r1 = Outcome.throw Exn.BufferExceededException ∧
          readPage s file pageNo = some (Outcome.throw Exn.BufferExceededException, t) ∧
          t.hashTable = s.hashTable)) := by
  obtain ⟨⟨r1, s1⟩, ha⟩ := allocBuf_terminates { s with disk := (s.disk.readPage file pageNo).2 }
  cases r1 with
  | throw e =>
    obtain ⟨rfl, hrc, _⟩ := allocBuf_throw_of ha
    exact ⟨_, s1, s1, ha, Or.inr ⟨rfl, readPage_miss_throw s s1 file pageNo pg _ hmiss hread ha,
      hrc.2.1⟩⟩
  | ok f =>
    refine ⟨_, s1, installPage s1 f file pageNo pg, ha, Or.inl ⟨f, rfl,
      readPage_miss_ok s s1 file pageNo f pg hmiss hread ha, ?_⟩⟩
    rcases allocBuf_effect _ s1 _ ha with ⟨a, _, _⟩ | ⟨u, a, b, c, d⟩
    · cases a
    have hb : u.clockHand < s.numBufs := b
    have hf : f = u.clockHand := by
      rw [Outcome.ok.inj c, a.frameNo_eq]; exact hfn _ hb
    have hs1 : s1.bufDescTable = u.bufDescTable ∧ s1.bufPool = u.bufPool := by
      rcases d with ⟨_, d2⟩ | ⟨_, _, _, d4⟩
      · rw [d2]; exact ⟨rfl, rfl⟩
      · rw [d4]; exact ⟨(evicted_fields u).2.2.1, (evicted_fields u).2.2.2.1⟩
    have hd1 : s1.desc f = u.desc f := by unfold BufMgr.desc; rw [hs1.1]
    obtain ⟨_, _, _, _, b5, b6, b7, _⟩ := installPage_fields s1 f file pageNo pg
    have hfl : f < s1.bufDescTable.length := by
      rw [hs1.1, a.2.2.2.2.1]; show f < s.bufDescTable.length; rw [hlen, hf]; exact hb
    have hfp : f < s1.bufPool.length := by
      rw [hs1.2, a.2.2.1]; show f < s.bufPool.length; rw [hpool, hf]; exact hb
    refine ⟨hf ▸ hb, ?_, ?_, ?_⟩
    · simp [BufMgr.page, b5, List.getD_eq_getElem?_getD, List.getElem?_set, hfp]
    · rw [b7 hfl, hd1]
      have : (u.desc f).frameNo = f := by
        rw [a.frameNo_eq]; exact hfn f (hf ▸ hb)
      simp [BufDesc.Set, this]
    · rw [b6, lookup_insert]; simp

theorem readPage_miss_witness :
    ∃ r1 s1 t, allocBuf { exPool with disk := (exPool.disk.readPage 7 4).2 } = some (r1, s1) ∧
      ((∃ f, r1 = Outcome.ok f ∧ readPage exPool 7 4 = some (Outcome.ok f, t) ∧
          f < exPool.numBufs ∧ t.page f = ⟨4, 44⟩ ∧
          t.desc f = { file := some 7, pageNo := 4, frameNo := f, pinCnt := 1,
                       dirty := false, valid := true, refbit := true } ∧
          t.hashTable.lookup 7 4 = some f) ∨
       (r1 = Outcome.throw Exn.BufferExceededException ∧
          readPage exPool 7 4 = some (Outcome.throw Exn.BufferExceededException, t) ∧
          t.hashTable = exPool.hashTable)) :=
  readPage_miss exPool 7 4 ⟨4, 44⟩ (by decide) (by decide) (by decide) (by decide) (by decide)

/-! ## C9: `flushFile` on a file without pinned frames -/

/-- C9: in a reachable state where no frame holding a page of `file` is pinned, `flushFile`
returns normally; the calls it makes on the file are one `writePage` for each dirty frame of
the file (each exactly once, in frame order) and nothing for a clean frame; afterwards no
descriptor and no locator entry refers to `file`, and the descriptors of the other frames,
all frame contents, the clock hand and the locator entries of other files are unchanged. -/
theorem flushFile_unpinned (s : BufMgr) (file : Nat) (hr : Reachable s)
    (hunp : ∀ i, i < s.numBufs → (s.desc i).file = some file → (s.desc i).pinCnt = 0) :
    ∃ t, flushFile s file = (Outcome.ok (), t) ∧
      (∃ idx : List Nat, idx.Nodup ∧
        (∀ j, j ∈ idx ↔ j < s.numBufs ∧ (s.desc j).file = some file ∧ (s.desc j).dirty = true) ∧
        t.disk.log = s.disk.log ++ idx.map (fun j => FileOp.write file (s.page j))) ∧
      (∀ i, (t.desc i).file ≠ some file) ∧
      (∀ p, t.hashTable.lookup file p = none) ∧
      (∀ i, (s.desc i).file ≠ some file → t.desc i = s.desc i) ∧
      t.bufPool = s.bufPool ∧ t.clockHand = s.clockHand ∧
      (∀ f p, f ≠ file → t.hashTable.lookup f p = s.hashTable.lookup f p) := by
  have hI := reachable_poolInv s hr
  have hvalid : ∀ i, (s.desc i).file = some file → (s.desc i).valid = true := by
    intro i hf
    by_contra hc
    have := hI.2.2.2.2.1 i (by simpa using hc)
    rw [this] at hf; cases hf
  obtain ⟨t, ht, a1, a2, a3, a4, a5, a6, a7, a8, a9, _⟩ :=
    flushFileLoop_ok file s.numBufs 0 s (fun j _ h2 h3 =>
      ⟨hvalid j h3, hunp j (by omega) h3⟩)
  refine ⟨t, ht, ⟨(List.range' 0 s.numBufs).filter
      (fun j => decide ((s.desc j).file = some file) && (s.desc j).dirty), ?_, ?_, a7⟩,
    fun i => ?_, fun p => ?_, fun i hi => a6 i (fun h => hi h.2.2), a3, a2,
    fun f p hf => a9 f p (fun h => hf h.1)⟩
  · exact (List.nodup_range' 0 s.numBufs).filter _
  · intro j
    simp only [List.mem_filter, List.mem_range'_1, Bool.and_eq_true, decide_eq_true_eq]
    constructor
    · rintro ⟨⟨_, h2⟩, h3, h4⟩; exact ⟨by omega, h3, h4⟩
    · rintro ⟨h1, h2, h3⟩; exact ⟨⟨Nat.zero_le _, by omega⟩, h2, h3⟩
  · by_cases hf : (s.desc i).file = some file
    · have hi := hI.lt_of_valid i (hvalid i hf)
      rw [a5 i (Nat.zero_le _) (by omega) hf]
      simp [BufDesc.clear, BufDesc.unused]
    · rw [a6 i (fun h => hf h.2.2)]; exact hf
  · by_cases hex : ∃ j, 0 ≤ j ∧ j < 0 + s.numBufs ∧ (s.desc j).file = some file ∧
        (s.desc j).pageNo = p
    · exact a8 p hex
    · rw [a9 file p (fun h => hex h.2)]
      cases hl : s.hashTable.lookup file p with
      | none => rfl
      | some g =>
        exfalso
        obtain ⟨g1, _, g3, g4⟩ := (hI.2.2.2.1 file p g).1 hl
        exact hex ⟨g, Nat.zero_le _, by omega, g3, g4⟩

theorem flushFile_unpinned_witness :
    ∃ t, flushFile exUnpinned 7 = (Outcome.ok (), t) ∧
      (∃ idx : List Nat, idx.Nodup ∧
        (∀ j, j ∈ idx ↔ j < exUnpinned.numBufs ∧ (exUnpinned.desc j).file = some 7 ∧
          (exUnpinned.desc j).dirty = true) ∧
        t.disk.log = exUnpinned.disk.log ++
          idx.map (fun j => FileOp.write 7 (exUnpinned.page j))) ∧
      (∀ i, (t.desc i).file ≠ some 7) ∧
      (∀ p, t.hashTable.lookup 7 p = none) ∧
      (∀ i, (exUnpinned.desc i).file ≠ some 7 → t.desc i = exUnpinned.desc i) ∧
      t.bufPool = exUnpinned.bufPool ∧ t.clockHand = exUnpinned.clockHand ∧
      (∀ f p, f ≠ 7 → t.hashTable.lookup f p = exUnpinned.hashTable.lookup f p) :=
  flushFile_unpinned exUnpinned 7
    (reachable_runCalls
      [Call.readPage 7 1, Call.readPage 7 2, Call.unPinPage 7 1 true, Call.unPinPage 7 2 false]
      (BufMgr.new 2 exDisk) exUnpinned (Reachable.fresh 2 exDisk) (by decide))
    (by decide)

/-! ## C10: `disposePage` -/

/-- C10: `disposePage` never throws and never tests a pin count. Its only call on the file
is `deletePage(pageNo)`, made whether or not the page is resident, so nothing is written
back. If the locator maps the page to frame `f`, descriptor `f` is cleared (whatever its
`pinCnt`) and the locator entry removed; all other descriptors, the other locator entries
and the frame contents are unchanged. If the page is not resident, descriptors and locator
are unchanged. -/
theorem disposePage_effect (s : BufMgr) (file pageNo : Nat) :
    (disposePage s file pageNo).1 = Outcome.ok () ∧
    (disposePage s file pageNo).2.disk.log = s.disk.log ++ [FileOp.delete file pageNo] ∧
    (disposePage s file pageNo).2.bufPool = s.bufPool ∧
    (disposePage s file pageNo).2.clockHand = s.clockHand ∧
    (disposePage s file pageNo).2.hashTable.lookup file pageNo = none ∧
    (∀ f1 p1, (f1, p1) ≠ (file, pageNo) →
      (disposePage s file pageNo).2.hashTable.lookup f1 p1 = s.hashTable.lookup f1 p1) ∧
    (∀ f, s.hashTable.lookup file pageNo = some f → f < s.bufDescTable.length →
      (disposePage s file pageNo).2.desc f = (s.desc f).clear ∧
      ∀ j, j ≠ f → (disposePage s file pageNo).2.desc j = s.desc j) ∧
    (s.hashTable.lookup file pageNo = none →
      (disposePage s file pageNo).2.bufDescTable = s.bufDescTable ∧
      (disposePage s file pageNo).2.hashTable = s.hashTable) := by
  cases hl : s.hashTable.lookup file pageNo with
  | none =>
    have e : disposePage s file pageNo =
        (Outcome.ok (), { s with disk := s.disk.deletePage file pageNo }) := by
      simp only [disposePage, hl]
    rw [e]
    exact ⟨rfl, rfl, rfl, rfl, hl, fun _ _ _ => rfl, fun f h => (by cases h), fun _ => ⟨rfl, rfl⟩⟩
  | some f =>
    have e : disposePage s file pageNo =
        (Outcome.ok (), { s.setDesc f (s.desc f).clear with
          hashTable := BufHashTbl.remove s.hashTable file pageNo
          disk := s.disk.deletePage file pageNo }) := by
      simp only [disposePage, hl]
      rfl
    rw [e]
    refine ⟨rfl, rfl, rfl, rfl, ?_, fun f1 p1 hne => ?_, fun g hg hlt => ?_,
      fun h => (by cases h)⟩
    · show (BufHashTbl.remove s.hashTable file pageNo).lookup file pageNo = none
      rw [lookup_remove]; simp
    · show (BufHashTbl.remove s.hashTable file pageNo).lookup f1 p1 = _
      rw [lookup_remove, if_neg hne]
    · have e := Option.some.inj hg
      subst e
      exact ⟨desc_setDesc_self s f _ hlt, fun j hj => desc_setDesc_ne s f j _ (Ne.symm hj)⟩

/-! ## C5: insertion into the index and the range scan -/

theorem runCalls_snoc (cs : List Call) (c : Call) : ∀ (s t u : BufMgr),
    runCalls cs s = some t → c.run t = some u → runCalls (cs ++ [c]) s = some u := by
  induction cs with
  | nil =>
    intro s t u h1 h2
    simp only [runCalls, Option.some.injEq] at h1
    subst h1
    simp [runCalls, h2]
  | cons a cs ih =>
    intro s t u h1 h2
    simp only [runCalls, List.cons_append] at h1 ⊢
    cases ha : a.run s with
    | none => rw [ha] at h1; cases h1
    | some s1 => rw [ha] at h1; exact ih s1 t u h1 h2

theorem runCalls_append (cs ds : List Call) : ∀ (s t u : BufMgr),
    runCalls cs s = some t → runCalls ds t = some u → runCalls (cs ++ ds) s = some u := by
  induction cs with
  | nil =>
    intro s t u h1 h2
    simp only [runCalls, Option.some.injEq] at h1
    subst h1
    simpa using h2
  | cons a cs ih =>
    intro s t u h1 h2
    simp only [runCalls, List.cons_append] at h1 ⊢
    cases ha : a.run s with
    | none => rw [ha] at h1; cases h1
    | some s1 => rw [ha] at h1; exact ih s1 t u h1 h2

/-- Started with a null `child_data`, `search` changes nothing of the index but the buffer
manager, on which it only makes `readPage` calls and `unPinPage` calls with `dirty = false`;
`child_data` is still null when it returns. No page is modified and none is marked dirty:
the pair to insert is not stored. -/
theorem search_readOnly (codec : NodeCodec) (childBranch : ChildBranch) (fuel : Nat) :
    ∀ (idx : BTreeIndex) (frame pageNo : Nat) (is_leaf : Bool) (entry : RIDKeyPair)
      (r : Outcome (Option PageKeyPair)) (t : BTreeIndex),
    search codec childBranch fuel idx frame pageNo is_leaf entry none = some (r, t) →
    (r = Outcome.ok none ∨ ∃ e, r = Outcome.throw e) ∧ t = { idx with bufMgr := t.bufMgr } ∧
    ∃ cs, (∀ c, c ∈ cs → c.readOnly) ∧ runCalls cs idx.bufMgr = some t.bufMgr := by
  induction fuel with
  | zero => intro idx frame pageNo is_leaf entry r t h; simp [search] at h
  | succ fuel ih =>
    intro idx frame pageNo is_leaf entry r t h
    cases is_leaf with
    | true =>
      simp only [search, if_true, Option.some.injEq, Prod.mk.injEq] at h
      obtain ⟨rfl, rfl⟩ := h
      exact ⟨Or.inl rfl, rfl, [], fun c hc => (by cases hc), rfl⟩
    | false =>
      simp only [search, Bool.false_eq_true, if_false] at h
      cases hn : NextNonLeafNode idx.nodeOccupancy (codec.asNonLeaf (idx.bufMgr.page frame))
          entry.key with
      | throw e =>
        rw [hn] at h
        simp only [Option.some.injEq, Prod.mk.injEq] at h
        obtain ⟨rfl, rfl⟩ := h
        exact ⟨Or.inr ⟨e, rfl⟩, rfl, [], fun c hc => (by cases hc), rfl⟩
      | ok next =>
        rw [hn] at h
        simp only at h
        cases hr : readPage idx.bufMgr idx.file next with
        | none => rw [hr] at h; cases h
        | some rb =>
          obtain ⟨r1, b⟩ := rb
          have hrun : (Call.readPage idx.file next).run idx.bufMgr = some b := by
            simp [Call.run, hr]
          rw [hr] at h
          cases r1 with
          | throw e =>
            simp only [Option.some.injEq, Prod.mk.injEq] at h
            obtain ⟨rfl, rfl⟩ := h
            refine ⟨Or.inr ⟨e, rfl⟩, rfl, [Call.readPage idx.file next], ?_, ?_⟩
            · intro c hc
              simp only [List.mem_singleton] at hc
              subst hc; trivial
            · simp [runCalls, hrun]
          | ok page_next =>
            simp only at h
            cases hs : search codec childBranch fuel { idx with bufMgr := b } page_next next
                (decide ((codec.asNonLeaf (idx.bufMgr.page frame)).level = 1)) entry none with
            | none => rw [hs] at h; cases h
            | some rt =>
              obtain ⟨r2, idx1⟩ := rt
              obtain ⟨h1, h2, cs, h3, h4⟩ := ih _ _ _ _ _ _ _ hs
              rw [hs] at h
              have hcs : runCalls (Call.readPage idx.file next :: cs) idx.bufMgr =
                  some idx1.bufMgr := by
                simp only [runCalls, hrun]; exact h4
              have hro : ∀ c, c ∈ Call.readPage idx.file next :: cs → c.readOnly := by
                intro c hc
                rcases List.mem_cons.1 hc with e | e
                · subst e; trivial
                · exact h3 c e
              rcases h1 with rfl | ⟨e, rfl⟩
              · simp only at h
                have hfile : idx1.file = idx.file := by rw [h2]
                cases hu : unPinPage idx1.bufMgr idx1.file pageNo false with
                | mk r3 b2 =>
                  have hrun2 : (Call.unPinPage idx.file pageNo false).run idx1.bufMgr =
                      some b2 := by
                    simp [Call.run, ← hfile, hu]
                  rw [hu] at h
                  have hcs2 := runCalls_snoc _ _ _ _ _ hcs hrun2
                  have hro2 : ∀ c, c ∈ (Call.readPage idx.file next :: cs) ++
                      [Call.unPinPage idx.file pageNo false] → c.readOnly := by
                    intro c hc
                    rcases List.mem_append.1 hc with e | e
                    · exact hro c e
                    · simp only [List.mem_singleton] at e
                      subst e; rfl
                  cases r3 with
                  | throw e =>
                    simp only [Option.some.injEq, Prod.mk.injEq] at h
                    obtain ⟨rfl, rfl⟩ := h
                    exact ⟨Or.inr ⟨e, rfl⟩, by rw [h2], _, hro2, hcs2⟩
                  | ok u =>
                    simp only [Option.some.injEq, Prod.mk.injEq] at h
                    obtain ⟨rfl, rfl⟩ := h
                    exact ⟨Or.inl rfl, by rw [h2], _, hro2, hcs2⟩
              · simp only [Option.some.injEq, Prod.mk.injEq] at h
                obtain ⟨rfl, rfl⟩ := h
                exact ⟨Or.inr ⟨e, rfl⟩, by rw [h2], _, hro, hcs⟩

/-- Whatever `insertEntry` returns, it has only pinned and unpinned pages: the calls it made
on the buffer manager are `readPage` calls and `unPinPage` calls with `dirty = false`. -/
theorem insertEntry_readOnly (codec : NodeCodec) (childBranch : ChildBranch) (fuel : Nat)
    (idx : BTreeIndex) (key : Int) (rid : RecordId) (r : Outcome Unit) (t : BTreeIndex)
    (h : insertEntry codec childBranch fuel idx key rid = some (r, t)) :
    t = { idx with bufMgr := t.bufMgr } ∧
    ∃ cs, (∀ c, c ∈ cs → c.readOnly) ∧ runCalls cs idx.bufMgr = some t.bufMgr := by
  unfold insertEntry at h
  cases hr : readPage idx.bufMgr idx.file idx.rootPageNum with
  | none => rw [hr] at h; cases h
  | some rb =>
    obtain ⟨r1, b⟩ := rb
    have hrun : (Call.readPage idx.file idx.rootPageNum).run idx.bufMgr = some b := by
      simp [Call.run, hr]
    have hro1 : ∀ c, c ∈ [Call.readPage idx.file idx.rootPageNum] → c.readOnly := by
      intro c hc
      simp only [List.mem_singleton] at hc
      subst hc; trivial
    rw [hr] at h
    cases r1 with
    | throw e =>
      simp only [Option.some.injEq, Prod.mk.injEq] at h
      obtain ⟨_, rfl⟩ := h
      exact ⟨rfl, _, hro1, by simp [runCalls, hrun]⟩
    | ok rootPage =>
      simp only at h
      cases hs : search codec childBranch fuel { idx with bufMgr := b } rootPage idx.rootPageNum
          (decide (idx.initialRootPageNum = idx.rootPageNum)) { rid := rid, key := key }
          none with
      | none => rw [hs] at h; cases h
      | some rt =>
        obtain ⟨r2, idx1⟩ := rt
        obtain ⟨_, h2, cs, h3, h4⟩ := search_readOnly _ _ _ _ _ _ _ _ _ _ hs
        rw [hs] at h
        have ht : t = idx1 := by
          cases r2 <;> simp only [Option.some.injEq, Prod.mk.injEq] at h <;> exact h.2.symm
        subst ht
        refine ⟨by rw [h2], Call.readPage idx.file idx.rootPageNum :: cs, ?_, ?_⟩
        · intro c hc
          rcases List.mem_cons.1 hc with e | e
          · subst e; trivial
          · exact h3 c e
        · simp only [runCalls, hrun]; exact h4

/-- The loop of `startScan` and `startScan` itself never return normally. -/
theorem startScan_not_ok (codec : NodeCodec) (fuel : Nat) (idx : BTreeIndex)
    (lowValParm : IntPtr) (lowOpParm : Operator) (highValParm : IntPtr)
    (highOpParm : Operator) :
    startScan codec fuel idx lowValParm lowOpParm highValParm highOpParm = none ∨
    ∃ e t, startScan codec fuel idx lowValParm lowOpParm highValParm highOpParm =
      some (Outcome.throw e, t) := by
  unfold startScan
  split
  · exact Or.inr ⟨_, _, rfl⟩
  split
  · exact Or.inr ⟨_, _, rfl⟩
  split
  · exact Or.inr ⟨_, _, rfl⟩
  simp only
  split
  · exact Or.inl rfl
  · exact Or.inr ⟨_, _, rfl⟩
  · split
    · exact Or.inl rfl
    · exact Or.inr ⟨_, _, rfl⟩

/-- C5 (the code's behaviour): `insertEntry` stores nothing, for it only makes `readPage`
calls and `unPinPage` calls with `dirty = false` on the buffer manager (`search` has no code
for a leaf); `startScan` never returns normally, for its `while (1)` loop has no exit but an
exception, so no scan can be driven by `scanNext`. On the freshly created index `exIndex`,
after `insertEntry(5, rid)` returns, `startScan(5, GTE, 5, LTE)` throws the file's
`InvalidPageException` (it reads page 0, the empty child slot of the root). With an
`initialRootPageNum` other than the root page, `insertEntry` on that index ends in
`NextNonLeafNode` reading `pageNoArray[-1]`. -/
theorem insertEntry_startScan_behaviour :
    (∀ codec childBranch fuel idx key rid r t,
      insertEntry codec childBranch fuel idx key rid = some (r, t) →
      ∃ cs, (∀ c, c ∈ cs → c.readOnly) ∧ runCalls cs idx.bufMgr = some t.bufMgr) ∧
    (∀ codec fuel idx lowValParm lowOpParm highValParm highOpParm,
      startScan codec fuel idx lowValParm lowOpParm highValParm highOpParm = none ∨
      ∃ e t, startScan codec fuel idx lowValParm lowOpParm highValParm highOpParm =
        some (Outcome.throw e, t)) ∧
    (∃ t u, insertEntry exCodec (fun _ _ _ _ => none) 2 exIndex 5 ⟨3, 1⟩ =
        some (Outcome.ok (), t) ∧
      t.bufMgr.disk = exIndex.bufMgr.disk ∧ t.bufMgr.bufPool = exIndex.bufMgr.bufPool ∧
      startScan exCodec 2 t ⟨0, 5⟩ Operator.GTE ⟨0, 5⟩ Operator.LTE =
        some (Outcome.throw Exn.InvalidPageException, u)) ∧
    (∃ t, insertEntry exCodec (fun _ _ _ _ => none) 2
        { exIndex with initialRootPageNum := 0 } 5 ⟨3, 1⟩ =
      some (Outcome.throw Exn.ArrayIndexOutOfBounds, t)) := by
  refine ⟨fun codec childBranch fuel idx key rid r t h =>
      (insertEntry_readOnly codec childBranch fuel idx key rid r t h).2,
    fun codec fuel idx a b c d => startScan_not_ok codec fuel idx a b c d, ?_, ?_⟩
  · exact ⟨_, _, rfl, rfl, rfl, rfl⟩
  · exact ⟨_, rfl⟩

/-! ## C11: the clock trace on a pool of two frames -/

theorem lookup_pair_ne {fA pA fB pB : Nat} (h : (fB, pB) ≠ (fA, pA)) (x : Nat)
    (rest : BufHashTbl) :
    BufHashTbl.lookup (((fA, pA), x) :: rest) fB pB = BufHashTbl.lookup rest fB pB := by
  simp only [BufHashTbl.lookup]
  rw [if_neg (Ne.symm h)]

theorem lookup_pair_eq (fA pA x : Nat) (rest : BufHashTbl) :
    BufHashTbl.lookup (((fA, pA), x) :: rest) fA pA = some x := by
  simp [BufHashTbl.lookup]

theorem read_two_pages (disk : Disk) (fA pA fB pB : Nat) (pgA pgB : Page)
    (hA : disk.find fA pA = some pgA) (hB : disk.find fB pB = some pgB)
    (hAB : (fB, pB) ≠ (fA, pA)) :
    runCalls [Call.readPage fA pA, Call.readPage fB pB] (BufMgr.new 2 disk) =
      some (twoFrames
        { pages := disk.pages, log := disk.log ++ [FileOp.read fA pA] ++ [FileOp.read fB pB] }
        fA pA fB pB pgA pgB 1 1 false false) := by
  let s1 : BufMgr :=
    { numBufs := 2
      clockHand := 0
      hashTable := [((fA, pA), 0)]
      bufDescTable :=
        [ { file := some fA, pageNo := pA, frameNo := 0, pinCnt := 1, dirty := false,
            valid := true, refbit := true }, BufDesc.unused 1 ]
      bufPool := [pgA, default]
      disk := { pages := disk.pages, log := disk.log ++ [FileOp.read fA pA] } }
  have h1 : readPage (BufMgr.new 2 disk) fA pA = some (Outcome.ok 0, s1) :=
    readPage_miss_ok (BufMgr.new 2 disk) _ fA pA 0 pgA rfl hA rfl
  have h2 : readPage s1 fB pB = some (Outcome.ok 1, twoFrames
      { pages := disk.pages, log := disk.log ++ [FileOp.read fA pA] ++ [FileOp.read fB pB] }
      fA pA fB pB pgA pgB 1 1 false false) := by
    have hm : s1.hashTable.lookup fB pB = none := by
      show BufHashTbl.lookup [((fA, pA), 0)] fB pB = none
      rw [lookup_pair_ne hAB]; rfl
    have := readPage_miss_ok s1 _ fB pB 1 pgB hm hB rfl
    rw [this]
    simp only [installPage, BufHashTbl.insert, BufHashTbl.remove, twoFrames, s1, advanceClock,
      Disk.readPage, BufMgr.setDesc, BufMgr.desc, BufDesc.Set, BufDesc.unused]
    simp [hAB.symm]
  simp only [runCalls, Call.run, h1, h2, Option.map]

theorem unPin_first (disk : Disk) (fA pA fB pB : Nat) (pgA pgB : Page) (pinA pinB : Nat)
    (dirtyA dirtyB d : Bool) (hAB : (fB, pB) ≠ (fA, pA)) :
    unPinPage (twoFrames disk fA pA fB pB pgA pgB (pinA + 1) pinB dirtyA dirtyB) fA pA d =
      (Outcome.ok (), twoFrames disk fA pA fB pB pgA pgB pinA pinB (dirtyA || d) dirtyB) := by
  have hl : (twoFrames disk fA pA fB pB pgA pgB (pinA + 1) pinB dirtyA dirtyB).hashTable.lookup
      fA pA = some 0 := by
    show BufHashTbl.lookup [((fB, pB), 1), ((fA, pA), 0)] fA pA = some 0
    rw [lookup_pair_ne hAB.symm, lookup_pair_eq]
  simp only [unPinPage, hl]
  rw [if_pos (show ((twoFrames disk fA pA fB pB pgA pgB (pinA + 1) pinB dirtyA dirtyB).desc
    0).pinCnt > 0 from Nat.succ_pos pinA)]
  cases d <;> cases dirtyA <;> rfl

theorem unPin_second (disk : Disk) (fA pA fB pB : Nat) (pgA pgB : Page) (pinA pinB : Nat)
    (dirtyA dirtyB d : Bool) :
    unPinPage (twoFrames disk fA pA fB pB pgA pgB pinA (pinB + 1) dirtyA dirtyB) fB pB d =
      (Outcome.ok (), twoFrames disk fA pA fB pB pgA pgB pinA pinB dirtyA (dirtyB || d)) := by
  have hl : (twoFrames disk fA pA fB pB pgA pgB pinA (pinB + 1) dirtyA dirtyB).hashTable.lookup
      fB pB = some 1 := by
    show BufHashTbl.lookup [((fB, pB), 1), ((fA, pA), 0)] fB pB = some 1
    rw [lookup_pair_eq]
  simp only [unPinPage, hl]
  rw [if_pos (show ((twoFrames disk fA pA fB pB pgA pgB pinA (pinB + 1) dirtyA dirtyB).desc
    1).pinCnt > 0 from Nat.succ_pos pinB)]
  cases d <;> cases dirtyB <;> rfl

/-- With page A unpinned, reading a third page evicts A from frame 0, whatever the pin
count of B. -/
theorem read_third_evicts_first (disk : Disk) (fA pA fB pB fC pC : Nat) (pgA pgB pgC : Page)
    (pinB : Nat) (dirtyA dirtyB : Bool) (hC : disk.find fC pC = some pgC)
    (hAB : (fB, pB) ≠ (fA, pA)) (hCA : (fC, pC) ≠ (fA, pA)) (hCB : (fC, pC) ≠ (fB, pB)) :
    ∃ t, readPage (twoFrames disk fA pA fB pB pgA pgB 0 pinB dirtyA dirtyB) fC pC =
        some (Outcome.ok 0, t) ∧
      t.hashTable.lookup fA pA = none ∧ t.hashTable.lookup fB pB = some 1 ∧
      t.hashTable.lookup fC pC = some 0 ∧ t.page 0 = pgC ∧ t.page 1 = pgB ∧
      t.desc 0 = { file := some fC, pageNo := pC, frameNo := 0, pinCnt := 1, dirty := false,
                   valid := true, refbit := true } ∧
      t.desc 1 = { file := some fB, pageNo := pB, frameNo := 1, pinCnt := pinB,
                   dirty := dirtyB, valid := true, refbit := false } := by
  have hm : (twoFrames disk fA pA fB pB pgA pgB 0 pinB dirtyA dirtyB).hashTable.lookup
      fC pC = none := by
    show BufHashTbl.lookup [((fB, pB), 1), ((fA, pA), 0)] fC pC = none
    rw [lookup_pair_ne hCB, lookup_pair_ne hCA]; rfl
  obtain ⟨s1, hs1, hh, hp, hd⟩ : ∃ s1, allocBuf { twoFrames disk fA pA fB pB pgA pgB 0 pinB
        dirtyA dirtyB with disk := (disk.readPage fC pC).2 } = some (Outcome.ok 0, s1) ∧
      s1.hashTable = BufHashTbl.remove [((fB, pB), 1), ((fA, pA), 0)] fA pA ∧
      s1.bufPool = [pgA, pgB] ∧
      s1.bufDescTable =
        [ { file := some fA, pageNo := pA, frameNo := 0, pinCnt := 0, dirty := dirtyA,
            valid := true, refbit := false },
          { file := some fB, pageNo := pB, frameNo := 1, pinCnt := pinB, dirty := dirtyB,
            valid := true, refbit := false } ] := by
    cases dirtyA <;>
      simp [allocBuf, allocBufFuel, allocBufLoop, advanceClock, twoFrames, BufMgr.desc,
        BufMgr.setDesc, BufMgr.page, Disk.readPage]
  refine ⟨_, readPage_miss_ok _ s1 fC pC 0 pgC hm hC hs1, ?_⟩
  obtain ⟨_, _, _, _, b5, b6, b7, b8⟩ := installPage_fields s1 0 fC pC pgC
  have hlen : 0 < s1.bufDescTable.length := by rw [hd]; simp
  refine ⟨?_, ?_, ?_, ?_, ?_, ?_, ?_⟩
  · rw [b6, lookup_insert, if_neg hCA.symm, hh, lookup_remove]; simp
  · rw [b6, lookup_insert, if_neg hCB.symm, hh, lookup_remove, if_neg hAB, lookup_pair_eq]
  · rw [b6, lookup_insert]; simp
  · simp [BufMgr.page, b5, hp]
  · simp [BufMgr.page, b5, hp]
  · rw [b7 hlen]; simp [BufMgr.desc, hd, BufDesc.Set]
  · rw [b8 1 (by decide)]; simp [BufMgr.desc, hd]

/-- With page A pinned and page B unpinned, reading a third page evicts B from frame 1. -/
theorem read_third_evicts_second (disk : Disk) (fA pA fB pB fC pC : Nat)
    (pgA pgB pgC : Page) (pinA : Nat) (dirtyA dirtyB : Bool)
    (hC : disk.find fC pC = some pgC)
    (hAB : (fB, pB) ≠ (fA, pA)) (hCA : (fC, pC) ≠ (fA, pA)) (hCB : (fC, pC) ≠ (fB, pB)) :
    ∃ t, readPage (twoFrames disk fA pA fB pB pgA pgB (pinA + 1) 0 dirtyA dirtyB) fC pC =
        some (Outcome.ok 1, t) ∧
      t.hashTable.lookup fB pB = none ∧ t.hashTable.lookup fA pA = some 0 ∧
      t.hashTable.lookup fC pC = some 1 ∧ t.page 1 = pgC ∧ t.page 0 = pgA ∧
      t.desc 1 = { file := some fC, pageNo := pC, frameNo := 1, pinCnt := 1, dirty := false,
                   valid := true, refbit := true } ∧
      t.desc 0 = { file := some fA, pageNo := pA, frameNo := 0, pinCnt := pinA + 1,
                   dirty := dirtyA, valid := true, refbit := false } := by
  have hm : (twoFrames disk fA pA fB pB pgA pgB (pinA + 1) 0 dirtyA dirtyB).hashTable.lookup
      fC pC = none := by
    show BufHashTbl.lookup [((fB, pB), 1), ((fA, pA), 0)] fC pC = none
    rw [lookup_pair_ne hCB, lookup_pair_ne hCA]; rfl
  obtain ⟨s1, hs1, hh, hp, hd⟩ : ∃ s1, allocBuf { twoFrames disk fA pA fB pB pgA pgB (pinA + 1)
        0 dirtyA dirtyB with disk := (disk.readPage fC pC).2 } = some (Outcome.ok 1, s1) ∧
      s1.hashTable = BufHashTbl.remove [((fB, pB), 1), ((fA, pA), 0)] fB pB ∧
      s1.bufPool = [pgA, pgB] ∧
      s1.bufDescTable =
        [ { file := some fA, pageNo := pA, frameNo := 0, pinCnt := pinA + 1, dirty := dirtyA,
            valid := true, refbit := false },
          { file := some fB, pageNo := pB, frameNo := 1, pinCnt := 0, dirty := dirtyB,
            valid := true, refbit := false } ] := by
    cases dirtyB <;>
      simp [allocBuf, allocBufFuel, allocBufLoop, advanceClock, twoFrames, BufMgr.desc,
        BufMgr.setDesc, BufMgr.page, Disk.readPage]
  refine ⟨_, readPage_miss_ok _ s1 fC pC 1 pgC hm hC hs1, ?_⟩
  obtain ⟨_, _, _, _, b5, b6, b7, b8⟩ := installPage_fields s1 1 fC pC pgC
  have hlen : 1 < s1.bufDescTable.length := by rw [hd]; simp
  refine ⟨?_, ?_, ?_, ?_, ?_, ?_, ?_⟩
  · rw [b6, lookup_insert, if_neg hCB.symm, hh, lookup_remove]; simp
  · rw [b6, lookup_insert, if_neg hCA.symm, hh, lookup_remove, if_neg hAB.symm,
      lookup_pair_ne hAB.symm, lookup_pair_eq]
  · rw [b6, lookup_insert]; simp
  · simp [BufMgr.page, b5, hp]
  · simp [BufMgr.page, b5, hp]
  · rw [b7 hlen]; simp [BufMgr.desc, hd, BufDesc.Set]
  · rw [b8 0 (by decide)]; simp [BufMgr.desc, hd]

/-- C11: in a fresh pool of two frames, `readPage` of A and then of B puts A in frame 0 and
B in frame 1. If A is then unpinned (alone, or together with B, in either order, dirty or
not), `readPage` of a third page C returns frame 0: A is evicted, C is in frame 0 and B stays
resident in frame 1. If only B is unpinned, `readPage` of C returns frame 1: B is evicted, C
is in frame 1 and A stays resident in frame 0. -/
theorem two_frame_pool_evicts_unpinned (disk : Disk) (fA pA fB pB fC pC : Nat)
    (pgA pgB pgC : Page) (dA dB : Bool)
    (hA : disk.find fA pA = some pgA) (hB : disk.find fB pB = some pgB)
    (hC : disk.find fC pC = some pgC)
    (hAB : (fB, pB) ≠ (fA, pA)) (hCA : (fC, pC) ≠ (fA, pA)) (hCB : (fC, pC) ≠ (fB, pB)) :
    ∃ s2, runCalls [Call.readPage fA pA, Call.readPage fB pB] (BufMgr.new 2 disk) = some s2 ∧
      s2.hashTable.lookup fA pA = some 0 ∧ s2.hashTable.lookup fB pB = some 1 ∧
      (∀ s3, (s3 = (unPinPage s2 fA pA dA).2 ∨
            s3 = (unPinPage (unPinPage s2 fA pA dA).2 fB pB dB).2 ∨
            s3 = (unPinPage (unPinPage s2 fB pB dB).2 fA pA dA).2) →
        ∃ t, readPage s3 fC pC = some (Outcome.ok 0, t) ∧
          t.hashTable.lookup fA pA = none ∧ t.hashTable.lookup fB pB = some 1 ∧
          t.hashTable.lookup fC pC = some 0 ∧ t.page 0 = pgC ∧ t.page 1 = pgB) ∧
      (∃ t, readPage (unPinPage s2 fB pB dB).2 fC pC = some (Outcome.ok 1, t) ∧
          t.hashTable.lookup fB pB = none ∧ t.hashTable.lookup fA pA = some 0 ∧
          t.hashTable.lookup fC pC = some 1 ∧ t.page 1 = pgC ∧ t.page 0 = pgA) := by
  refine ⟨_, read_two_pages disk fA pA fB pB pgA pgB hA hB hAB, ?_, ?_, ?_, ?_⟩
  · show BufHashTbl.lookup [((fB, pB), 1), ((fA, pA), 0)] fA pA = some 0
    rw [lookup_pair_ne hAB.symm, lookup_pair_eq]
  · show BufHashTbl.lookup [((fB, pB), 1), ((fA, pA), 0)] fB pB = some 1
    rw [lookup_pair_eq]
  · intro s3 h3
    have key : ∃ pinB dirtyA dirtyB, s3 = twoFrames
        { pages := disk.pages, log := disk.log ++ [FileOp.read fA pA] ++ [FileOp.read fB pB] }
        fA pA fB pB pgA pgB 0 pinB dirtyA dirtyB := by
      rcases h3 with h | h | h
      · rw [h, unPin_first _ fA pA fB pB pgA pgB 0 1 false false dA hAB]
        exact ⟨_, _, _, rfl⟩
      · rw [h, unPin_first _ fA pA fB pB pgA pgB 0 1 false false dA hAB,
          unPin_second _ fA pA fB pB pgA pgB 0 0 _ false dB]
        exact ⟨_, _, _, rfl⟩
      · rw [h, unPin_second _ fA pA fB pB pgA pgB 1 0 false false dB,
          unPin_first _ fA pA fB pB pgA pgB 0 0 false _ dA hAB]
        exact ⟨_, _, _, rfl⟩
    obtain ⟨pinB, dirtyA, dirtyB, rfl⟩ := key
    obtain ⟨t, h1, h2, h3, h4, h5, h6, _⟩ := read_third_evicts_first
      { pages := disk.pages, log := disk.log ++ [FileOp.read fA pA] ++ [FileOp.read fB pB] }
      fA pA fB pB fC pC pgA pgB pgC pinB dirtyA dirtyB hC hAB hCA hCB
    exact ⟨t, h1, h2, h3, h4, h5, h6⟩
  · rw [unPin_second _ fA pA fB pB pgA pgB 1 0 false false dB]
    obtain ⟨t, h1, h2, h3, h4, h5, h6, _⟩ := read_third_evicts_second
      { pages := disk.pages, log := disk.log ++ [FileOp.read fA pA] ++ [FileOp.read fB pB] }
      fA pA fB pB fC pC pgA pgB pgC 0 false (false || dB) hC hAB hCA hCB
    exact ⟨t, h1, h2, h3, h4, h5, h6⟩

theorem two_frame_pool_evicts_unpinned_witness :
    ∃ s2, runCalls [Call.readPage 7 1, Call.readPage 7 2] (BufMgr.new 2 exDisk) = some s2 ∧
      s2.hashTable.lookup 7 1 = some 0 ∧ s2.hashTable.lookup 7 2 = some 1 ∧
      (∀ s3, (s3 = (unPinPage s2 7 1 true).2 ∨
            s3 = (unPinPage (unPinPage s2 7 1 true).2 7 2 false).2 ∨
            s3 = (unPinPage (unPinPage s2 7 2 false).2 7 1 true).2) →
        ∃ t, readPage s3 7 3 = some (Outcome.ok 0, t) ∧
          t.hashTable.lookup 7 1 = none ∧ t.hashTable.lookup 7 2 = some 1 ∧
          t.hashTable.lookup 7 3 = some 0 ∧ t.page 0 = ⟨3, 33⟩ ∧ t.page 1 = ⟨2, 22⟩) ∧
      (∃ t, readPage (unPinPage s2 7 2 false).2 7 3 = some (Outcome.ok 1, t) ∧
          t.hashTable.lookup 7 2 = none ∧ t.hashTable.lookup 7 1 = some 0 ∧
          t.hashTable.lookup 7 3 = some 1 ∧ t.page 1 = ⟨3, 33⟩ ∧ t.page 0 = ⟨1, 11⟩) :=
  two_frame_pool_evicts_unpinned exDisk 7 1 7 2 7 3 ⟨1, 11⟩ ⟨2, 22⟩ ⟨3, 33⟩ true false
    (by decide) (by decide) (by decide) (by decide) (by decide) (by decide)

/-! ## C12: the range test of `startScan` -/

/-- C12 (the code's behaviour): the range test of `startScan` compares the two pointers, not
the keys they point to. Whenever the address of the low value is above that of the high
value, `startScan` throws `BadScanrangeException` and leaves the index as it was, whatever
the keys. On `exIndex`, with `lowVal = 10 > highVal = 5` stored at ascending addresses the
test passes: a scan is marked as executing and the root is read before another exception
ends the call; with `lowVal = 1 ≤ highVal = 5` stored at descending addresses
`BadScanrangeException` is thrown. -/
theorem startScan_range_test_on_addresses :
    (∀ codec fuel idx (lowValParm highValParm : IntPtr) lowOpParm highOpParm,
      lowValParm.addr > highValParm.addr →
      startScan codec fuel idx lowValParm lowOpParm highValParm highOpParm =
        some (Outcome.throw Exn.BadScanrangeException, idx)) ∧
    (∃ t, startScan exCodec 2 exIndex ⟨0, 10⟩ Operator.GT ⟨1, 5⟩ Operator.LT =
        some (Outcome.throw Exn.InvalidPageException, t) ∧
      t.scanExecuting = true ∧
      t.bufMgr.disk.log = exIndex.bufMgr.disk.log ++ [FileOp.read 9 0]) ∧
    startScan exCodec 2 exIndex ⟨1, 1⟩ Operator.GT ⟨0, 5⟩ Operator.LT =
      some (Outcome.throw Exn.BadScanrangeException, exIndex) := by
  refine ⟨fun codec fuel idx lo hi lop hop h => ?_, ⟨_, rfl, rfl, rfl⟩, rfl⟩
  simp only [startScan, h, if_true]

/-! ## C14: `scanNext` without an active scan -/

/-- C14 (amended): `scanNext` tests `nextEntry < 0` first. For every `nextEntry < 0` it throws
`IndexScanCompletedException`, whether or not a scan is active; when `nextEntry ≥ 0` and no
scan is active it throws `ScanNotInitializedException`. In both cases the index is left as it
was. -/
theorem scanNext_checks (codec : NodeCodec) (fuel : Nat) (idx : BTreeIndex) :
    (idx.nextEntry < 0 →
      scanNext codec fuel idx = some (Outcome.throw Exn.IndexScanCompletedException, idx)) ∧
    (0 ≤ idx.nextEntry → idx.scanExecuting = false →
      scanNext codec fuel idx = some (Outcome.throw Exn.ScanNotInitializedException, idx)) := by
  constructor
  · intro h
    cases fuel <;> simp [scanNext, h]
  · intro h1 h2
    have h3 : ¬ idx.nextEntry < 0 := by omega
    cases fuel <;> simp [scanNext, h3, h2]

theorem scanNext_checks_witness :
    ((exIndex.nextEntry < 0 →
      scanNext exCodec 1 exIndex =
        some (Outcome.throw Exn.IndexScanCompletedException, exIndex)) ∧
    (0 ≤ exIndex.nextEntry → exIndex.scanExecuting = false →
      scanNext exCodec 1 exIndex =
        some (Outcome.throw Exn.ScanNotInitializedException, exIndex))) ∧
    scanNext exCodec 1 exIndex =
      some (Outcome.throw Exn.ScanNotInitializedException, exIndex) :=
  ⟨scanNext_checks exCodec 1 exIndex,
    (scanNext_checks exCodec 1 exIndex).2 (by decide) (by decide)⟩

/-- C14 (as stated) fails: with no scan active and `nextEntry = -1`, `scanNext` throws
`IndexScanCompletedException`, not `ScanNotInitializedException`. -/
theorem scanNext_inactive_counterexample :
    ({ exIndex with nextEntry := -1 } : BTreeIndex).scanExecuting = false ∧
    scanNext exCodec 1 { exIndex with nextEntry := -1 } =
      some (Outcome.throw Exn.IndexScanCompletedException, { exIndex with nextEntry := -1 }) := by
  exact ⟨rfl, rfl⟩

theorem unPinPage_throws_only (s : BufMgr) (file pageNo : Nat) (dirty : Bool) (e : Exn)
    (h : (unPinPage s file pageNo dirty).1 = Outcome.throw e) :
    e = Exn.PageNotPinnedException := by
  cases hl : s.hashTable.lookup file pageNo with
  | none => simp [unPinPage, hl] at h
  | some fid =>
    rcases Nat.eq_zero_or_pos (s.desc fid).pinCnt with hp | hp
    · simp only [unPinPage, hl, hp, gt_iff_lt, Nat.lt_irrefl, if_false] at h
      exact (Outcome.throw.inj h).symm
    · cases dirty <;> simp [unPinPage, hl, hp] at h

/-! ## C16: the key the constructor inserts -/

/-- C16 (the code's behaviour): the constructor does not read the record at `attrByteOffset`;
it adds `attrByteOffset` to the `int` at the start of the record. For a record with 7 at
offset 0 and 42 at offset 4 and `attrByteOffset = 4` the key passed to `insertEntry` is 11,
not 42; the record id passed with it is the record's. -/
theorem constructor_key_adds_offset :
    (∀ intAt attrByteOffset, constructorKey intAt attrByteOffset = attrByteOffset + intAt 0) ∧
    constructorKey exRecord 4 = 11 ∧ exRecord 4 = 42 ∧
    constructorEntries [(⟨1, 1⟩, exRecord)] 4 = [(11, ⟨1, 1⟩)] := by
  refine ⟨fun _ _ => rfl, by decide, by decide, by decide⟩

/-! ## C17: how many frames `allocBuf` inspects -/

theorem allocBufInspected_isSome (fuel : Nat) : ∀ (s : BufMgr) (pinned : List Bool) (np : Nat),
    (allocBufInspected fuel s pinned np).isSome = (allocBufLoop fuel s pinned np).isSome := by
  induction fuel with
  | zero => intro s pinned np; rfl
  | succ fuel ih =>
    intro s pinned np
    simp only [allocBufInspected, allocBufLoop]
    split
    · rfl
    split
    · split
      · simp only [Option.isSome_map']; exact ih _ _ _
      · split
        · split
          · simp only [Option.isSome_map']; exact ih _ _ _
          · simp only [Option.isSome_map']; exact ih _ _ _
        · rfl
    · rfl

theorem allocBufInspected_throw (fuel : Nat) (s : BufMgr) (pinned : List Bool) (np : Nat)
    (h : s.numBufs ≤ np) : allocBufInspected (fuel + 1) s pinned np = some [] := by
  simp [allocBufInspected, h]

/-- One iteration of the loop either ends it, having inspected at most one frame, or
continues after inspecting the frame under the hand. -/
theorem allocBufInspected_step (s : BufMgr) (pinned : List Bool) (np : Nat)
    (hc : s.clockHand < s.numBufs) (hI : MarkInv s pinned np) :
    (∃ tr, tr.length ≤ 1 ∧ ∀ fuel, allocBufInspected (fuel + 1) s pinned np = some tr) ∨
    (∃ t pinned1 np1, MarkInv t pinned1 np1 ∧ t.clockHand = (advanceClock s).clockHand ∧
      RefCleared s t ∧
      (∀ i, pinned.getD i false = true → pinned1.getD i false = true) ∧
      (t.desc s.clockHand).refbit = false ∧
      ((s.desc s.clockHand).refbit = false → pinned1.getD s.clockHand false = true) ∧
      ∀ fuel, allocBufInspected (fuel + 1) s pinned np =
        (allocBufInspected fuel t pinned1 np1).map (fun tr => s.clockHand :: tr)) := by
  by_cases hn : s.numBufs ≤ np
  · exact Or.inl ⟨[], by simp, fun fuel => allocBufInspected_throw fuel s pinned np hn⟩
  cases hv : (s.desc s.clockHand).valid
  · exact Or.inl ⟨[s.clockHand], by simp, fun fuel => by simp [allocBufInspected, hn, hv]⟩
  cases hr : (s.desc s.clockHand).refbit
  · rcases Nat.eq_zero_or_pos (s.desc s.clockHand).pinCnt with hp | hp
    · exact Or.inl ⟨[s.clockHand], by simp,
        fun fuel => by simp [allocBufInspected, hn, hv, hr, hp]⟩
    · cases hm : pinned.getD s.clockHand false
      · refine Or.inr ⟨advanceClock s, pinned.set s.clockHand true, np + 1,
          hI.mark hc hv hp hm, rfl, (RefCleared.refl s).advance, ?_, ?_, ?_, ?_⟩
        · intro i hi
          exact (getD_set_true pinned _ i).2 (Or.inr hi)
        · rw [desc_advanceClock]; exact hr
        · intro _
          exact (getD_set_true pinned _ _).2 (Or.inl ⟨rfl, hI.1 ▸ hc⟩)
        · intro fuel
          rw [List.getD_eq_getElem?_getD] at hm
          simp [allocBufInspected, hn, hv, hr, hp, hm]
      · refine Or.inr ⟨advanceClock s, pinned, np,
          hI.of_refCleared (RefCleared.refl s).advance, rfl, (RefCleared.refl s).advance,
          fun i hi => hi, ?_, fun _ => hm, ?_⟩
        · rw [desc_advanceClock]; exact hr
        · intro fuel
          rw [List.getD_eq_getElem?_getD] at hm
          simp [allocBufInspected, hn, hv, hr, hp, hm]
  · have hlt := desc_valid_lt s _ hv
    refine Or.inr ⟨advanceClock (s.setDesc s.clockHand (s.desc s.clockHand).clearRef), pinned, np,
      hI.of_refCleared (RefCleared.clear s _).advance, clockHand_setDesc _ _ _,
      (RefCleared.clear s _).advance, fun i hi => hi, ?_, ?_, ?_⟩
    · rw [desc_advanceClock, desc_setDesc]
      simp [hlt, BufDesc.clearRef]
    · intro h; cases h
    · intro fuel
      simp [allocBufInspected, hn, hv, hr, BufDesc.clearRef]

/-- The next `k` iterations, none of them past the end of the lap: either the loop ends
having inspected at most `k` frames, or it inspects exactly `k` frames, after which each
of them has its reference bit clear and is marked if its bit was clear before. -/
theorem allocBufInspected_segment (k : Nat) : ∀ (s : BufMgr) (pinned : List Bool) (np : Nat),
    s.clockHand + k ≤ s.numBufs → s.clockHand < s.numBufs → MarkInv s pinned np →
    (∃ tr, tr.length ≤ k ∧ ∀ fuel, k ≤ fuel → allocBufInspected fuel s pinned np = some tr) ∨
    (∃ t pinned1 np1 pre, pre.length = k ∧ MarkInv t pinned1 np1 ∧
      t.clockHand = (if s.clockHand + k = s.numBufs then 0 else s.clockHand + k) ∧
      RefCleared s t ∧
      (∀ i, pinned.getD i false = true → pinned1.getD i false = true) ∧
      (∀ i, s.clockHand ≤ i → i < s.clockHand + k → (t.desc i).refbit = false ∧
        ((s.desc i).refbit = false → pinned1.getD i false = true)) ∧
      ∀ fuel, allocBufInspected (fuel + k) s pinned np =
        (allocBufInspected fuel t pinned1 np1).map (fun tr => pre ++ tr)) := by
  induction k with
  | zero =>
    intro s pinned np _ hc hI
    right
    refine ⟨s, pinned, np, [], rfl, hI, ?_, RefCleared.refl s, fun i hi => hi, ?_, ?_⟩
    · rw [if_neg (by omega)]; rfl
    · intro i h1 h2; omega
    · intro fuel
      simp
  | succ k ih =>
    intro s pinned np hk hc hI
    rcases allocBufInspected_step s pinned np hc hI with
      ⟨tr, hl, hr⟩ | ⟨t, p1, n1, a, b, c, d, e, f, g⟩
    · left
      refine ⟨tr, by omega, fun fuel hf => ?_⟩
      obtain ⟨m, rfl⟩ : ∃ m, fuel = m + 1 := ⟨fuel - 1, by omega⟩
      exact hr m
    · rw [clockHand_advanceClock] at b
      have hbk : t.clockHand + k ≤ t.numBufs ∧ t.clockHand < t.numBufs ∧
          (if t.clockHand + k = t.numBufs then 0 else t.clockHand + k) =
          (if s.clockHand + (k + 1) = s.numBufs then 0 else s.clockHand + (k + 1)) ∧
          (∀ i, s.clockHand < i → i < s.clockHand + (k + 1) →
            t.clockHand ≤ i ∧ i < t.clockHand + k) := by
        rw [b, c.1]
        split
        · have : k = 0 := by omega
          subst this
          refine ⟨by omega, by omega, ?_, fun i h1 h2 => by omega⟩
          rw [if_pos (show s.clockHand + (0 + 1) = s.numBufs by omega)]
          simp
        · refine ⟨by omega, by omega, ?_, fun i h1 h2 => by omega⟩
          rw [Nat.add_assoc, Nat.add_comm 1 k]
      obtain ⟨hb1, hb2, hb3, hb4⟩ := hbk
      rcases ih t p1 n1 hb1 hb2 a with
        ⟨tr, hl, hr⟩ | ⟨u, p2, n2, pre, hpre, a2, b2, c2, d2, e2, g2⟩
      · left
        refine ⟨s.clockHand :: tr, by simp; omega, fun fuel hf => ?_⟩
        obtain ⟨m, rfl⟩ : ∃ m, fuel = m + 1 := ⟨fuel - 1, by omega⟩
        rw [g m, hr m (by omega)]
        rfl
      · right
        refine ⟨u, p2, n2, s.clockHand :: pre, by simp [hpre], a2, b2.trans hb3, c.trans c2,
          fun i hi => d2 i (d i hi), ?_, ?_⟩
        · intro i h1 h2
          rcases Nat.eq_or_lt_of_le h1 with h | h
          · subst h
            exact ⟨c2.refbit_false _ e, fun h => d2 _ (f h)⟩
          · obtain ⟨x, y⟩ := e2 i (hb4 i h h2).1 (hb4 i h h2).2
            exact ⟨x, fun h => y (c.refbit_false i h)⟩
        · intro fuel
          rw [← Nat.add_assoc, g (fuel + k), g2 fuel, Option.map_map]
          rfl

/-- The loop of `allocBuf` inspects at most two laps of frames: at the latest after two
laps every frame has been seen once with its reference bit clear, so each is either taken
or marked pinned. -/
theorem allocBufInspected_bound (s : BufMgr) (pinned : List Bool) (np : Nat)
    (hc : s.clockHand < s.numBufs) (hI : MarkInv s pinned np) :
    ∃ tr, tr.length ≤ 2 * s.numBufs ∧
      ∀ fuel, 2 * s.numBufs + 1 ≤ fuel → allocBufInspected fuel s pinned np = some tr := by
  obtain ⟨k, hk⟩ : ∃ k, s.clockHand + k = s.numBufs := ⟨s.numBufs - s.clockHand, by omega⟩
  rcases allocBufInspected_segment k s pinned np (by omega) hc hI with
    ⟨tr, hl, hr⟩ | ⟨t1, p1, n1, pre1, hp1, a1, b1, c1, _, e1, g1⟩
  · exact ⟨tr, by omega, fun fuel hf => hr fuel (by omega)⟩
  rw [if_pos hk] at b1
  have hn1 : t1.numBufs = s.numBufs := c1.1
  rcases allocBufInspected_segment s.numBufs t1 p1 n1 (by rw [b1, hn1]; omega)
      (by rw [b1, hn1]; omega) a1 with
    ⟨tr, hl, hr⟩ | ⟨t2, p2, n2, pre2, hp2, a2, b2, c2, d2, e2, g2⟩
  · refine ⟨pre1 ++ tr, by simp [hp1]; omega, fun fuel hf => ?_⟩
    obtain ⟨m, rfl⟩ : ∃ m, fuel = m + k := ⟨fuel - k, by omega⟩
    rw [g1 m, hr m (by omega)]
    rfl
  rw [b1, if_pos (by rw [hn1]; omega)] at b2
  have hn2 : t2.numBufs = s.numBufs := c2.1.trans hn1
  rcases allocBufInspected_segment s.clockHand t2 p2 n2 (by rw [b2, hn2]; omega)
      (by rw [b2, hn2]; omega) a2 with
    ⟨tr, hl, hr⟩ | ⟨t3, p3, n3, pre3, hp3, a3, _, c3, d3, e3, g3⟩
  · refine ⟨pre1 ++ (pre2 ++ tr), by simp [hp1, hp2]; omega, fun fuel hf => ?_⟩
    obtain ⟨m, rfl⟩ : ∃ m, fuel = m + s.numBufs + k := ⟨fuel - s.numBufs - k, by omega⟩
    rw [g1, g2, hr m (by omega)]
    rfl
  · have hall : ∀ i, i < t3.numBufs → p3.getD i false = true := by
      intro i hi
      rw [c3.1, hn2] at hi
      by_cases hlt : i < s.clockHand
      · have h2 := (e2 i (by omega) (by rw [b1]; omega)).1
        exact (e3 i (by omega) (by rw [b2]; omega)).2 h2
      · have h1 := (e1 i (by omega) (by omega)).1
        exact d3 i ((e2 i (by omega) (by rw [b1]; omega)).2 h1)
    have hle := a3.all_marked hall
    refine ⟨pre1 ++ (pre2 ++ (pre3 ++ [])), by simp [hp1, hp2, hp3]; omega, fun fuel hf => ?_⟩
    obtain ⟨m, rfl⟩ : ∃ m, fuel = m + 1 + s.clockHand + s.numBufs + k :=
      ⟨fuel - 1 - s.clockHand - s.numBufs - k, by omega⟩
    rw [g1, g2, g3, allocBufInspected_throw m t3 p3 n3 hle]
    rfl

/-- C17 (amended): for every pool state `allocBuf` finishes, and the list of
frames it inspected before it returned a frame or failed with pool exhausted has at most
`2 * numBufs` entries, two laps of the clock hand. -/
theorem allocBuf_inspects_at_most_two_laps (s : BufMgr) :
    (∃ r, allocBuf s = some r) ∧
      ∃ tr, allocBufFrames s = some tr ∧ tr.length ≤ 2 * s.numBufs := by
  refine ⟨allocBuf_terminates s, ?_⟩
  unfold allocBufFrames allocBufFuel
  rcases Nat.eq_zero_or_pos s.numBufs with h0 | h0
  · exact ⟨[], allocBufInspected_throw _ _ _ _ (by rw [numBufs_advanceClock]; omega), by simp⟩
  · obtain ⟨tr, hl, hr⟩ := allocBufInspected_bound (advanceClock s)
      (List.replicate s.numBufs false) 0
      (by rw [numBufs_advanceClock]; exact clockHand_advanceClock_lt s h0)
      (by have := MarkInv.init (advanceClock s); rwa [numBufs_advanceClock] at this)
    rw [numBufs_advanceClock] at hl hr
    exact ⟨tr, hr _ (by omega), hl⟩

/-- C17 (as stated) fails: on a fresh pool of two frames, after
`readPage(7, 1)`, `readPage(7, 2)` and `unPinPage(7, 1, true)` (the state `exFlush`), `allocBuf`
inspects frame 0, frame 1 and frame 0 again, three inspections in a pool of two frames, and
returns frame 0: the first lap only clears the two reference bits. -/
theorem allocBuf_inspects_more_than_numBufs :
    runCalls [Call.readPage 7 1, Call.readPage 7 2, Call.unPinPage 7 1 true]
        (BufMgr.new 2 exDisk) = some exFlush ∧
      allocBufFrames exFlush = some [0, 1, 0] ∧ exFlush.numBufs = 2 ∧
      ¬ ([0, 1, 0] : List Nat).length ≤ exFlush.numBufs ∧
      (allocBuf exFlush).map (fun r => r.1) = some (Outcome.ok 0) := by
  decide

/-! ## C18: what `allocBuf` does to the frame it selects -/

/-- C18: when `allocBuf`, run in a consistent pool, selects a valid frame `f` (holding
a page of file `fl`), that frame was unpinned, its locator entry is removed and every other
locator entry is kept, and the disk is the old one after one `writePage` of the frame's
contents to `fl` if the frame was dirty and the old one untouched otherwise, so no other frame
is written; the contents of all frames and the pin count, valid and dirty flags, file and
page number of every descriptor are unchanged. -/
theorem allocBuf_evicts_selected_frame (s t : BufMgr) (f fl : Nat) (hI : PoolInv s)
    (h : allocBuf s = some (Outcome.ok f, t)) (hv : (s.desc f).valid = true)
    (hfl : (s.desc f).file = some fl) :
    f < s.numBufs ∧ (s.desc f).pinCnt = 0 ∧
      t.hashTable.lookup fl (s.desc f).pageNo = none ∧
      (∀ f1 p1, ¬ (f1 = fl ∧ p1 = (s.desc f).pageNo) →
        t.hashTable.lookup f1 p1 = s.hashTable.lookup f1 p1) ∧
      t.disk = (if (s.desc f).dirty then s.disk.writePage fl (s.page f) else s.disk) ∧
      t.disk.log = s.disk.log ++
        (if (s.desc f).dirty then [FileOp.write fl (s.page f)] else []) ∧
      t.bufPool = s.bufPool ∧ t.numBufs = s.numBufs ∧
      ∀ i, (t.desc i).pinCnt = (s.desc i).pinCnt ∧ (t.desc i).valid = (s.desc i).valid ∧
        (t.desc i).dirty = (s.desc i).dirty ∧ (t.desc i).file = (s.desc i).file ∧
        (t.desc i).pageNo = (s.desc i).pageNo ∧ (t.desc i).frameNo = (s.desc i).frameNo := by
  obtain ⟨u, hu, _, hf, hlt, rfl, hcase⟩ := allocBuf_ok_of_inv hI h
  have hvu : (u.desc f).valid = true := by rw [hu.valid_eq]; exact hv
  have hpin : (s.desc f).pinCnt = 0 := by
    rcases hcase with hc | ⟨_, _, hc⟩
    · rw [hvu] at hc; cases hc
    · rw [← hu.pinCnt_eq]; exact hc
  have hfu : (u.desc u.clockHand).file = some fl := by rw [← hf, hu.file_eq]; exact hfl
  have hpu : (u.desc u.clockHand).pageNo = (s.desc f).pageNo := by rw [← hf, hu.pageNo_eq]
  have hdu : (u.desc u.clockHand).dirty = (s.desc f).dirty := by rw [← hf, hu.dirty_eq]
  have hpg : u.page u.clockHand = s.page f := by
    rw [← hf]; unfold BufMgr.page; rw [hu.2.2.1]
  obtain ⟨e1, _, _, e4, e5, _, _⟩ := evicted_fields u
  have hdisk : (evicted u).disk =
      (if (s.desc f).dirty then s.disk.writePage fl (s.page f) else s.disk) := by
    simp only [evicted, hfu, hdu, hpg, hu.2.2.2.1]
  refine ⟨hlt, hpin, ?_, ?_, hdisk, ?_, e4.trans hu.2.2.1, e1.trans hu.1, fun i => ?_⟩
  · rw [e5, if_pos ⟨hfu, hpu⟩]
  · intro f1 p1 hne
    rw [e5, if_neg, hu.2.1]
    rintro ⟨a, b⟩
    rw [hfu] at a
    exact hne ⟨(Option.some.inj a).symm, b.symm.trans hpu⟩
  · rw [hdisk]
    cases (s.desc f).dirty <;> simp [Disk.writePage]
  · rw [desc_evicted]
    exact ⟨hu.pinCnt_eq i, hu.valid_eq i, hu.dirty_eq i, hu.file_eq i, hu.pageNo_eq i,
      hu.frameNo_eq i⟩

theorem allocBuf_evicts_selected_frame_witness :
    PoolInv exFlush ∧ allocBuf exFlush = some (Outcome.ok 0, exEvicted) ∧
    (exFlush.desc 0).valid = true ∧ (exFlush.desc 0).file = some 7 ∧
    (0 < exFlush.numBufs ∧ (exFlush.desc 0).pinCnt = 0 ∧
      exEvicted.hashTable.lookup 7 (exFlush.desc 0).pageNo = none ∧
      (∀ f1 p1, ¬ (f1 = 7 ∧ p1 = (exFlush.desc 0).pageNo) →
        exEvicted.hashTable.lookup f1 p1 = exFlush.hashTable.lookup f1 p1) ∧
      exEvicted.disk =
        (if (exFlush.desc 0).dirty then exFlush.disk.writePage 7 (exFlush.page 0)
          else exFlush.disk) ∧
      exEvicted.disk.log = exFlush.disk.log ++
        (if (exFlush.desc 0).dirty then [FileOp.write 7 (exFlush.page 0)] else []) ∧
      exEvicted.bufPool = exFlush.bufPool ∧ exEvicted.numBufs = exFlush.numBufs ∧
      ∀ i, (exEvicted.desc i).pinCnt = (exFlush.desc i).pinCnt ∧
        (exEvicted.desc i).valid = (exFlush.desc i).valid ∧
        (exEvicted.desc i).dirty = (exFlush.desc i).dirty ∧
        (exEvicted.desc i).file = (exFlush.desc i).file ∧
        (exEvicted.desc i).pageNo = (exFlush.desc i).pageNo ∧
        (exEvicted.desc i).frameNo = (exFlush.desc i).frameNo) :=
  ⟨reachable_poolInv exFlush
      (reachable_runCalls [Call.readPage 7 1, Call.readPage 7 2, Call.unPinPage 7 1 true]
        (BufMgr.new 2 exDisk) exFlush (Reachable.fresh 2 exDisk) (by decide)),
    by decide, by decide, by decide,
    allocBuf_evicts_selected_frame exFlush exEvicted 0 7
      (reachable_poolInv exFlush
        (reachable_runCalls [Call.readPage 7 1, Call.readPage 7 2, Call.unPinPage 7 1 true]
          (BufMgr.new 2 exDisk) exFlush (Reachable.fresh 2 exDisk) (by decide)))
      (by decide) (by decide) (by decide)⟩

/-! ## C19: the two descents through a non-leaf node -/

theorem skipEmptySlots_stops (node : NonLeafNodeInt) (i p : Nat)
    (hp : node.pageNoArray[i]? = some p) (hp0 : p ≠ 0) : ∀ j, i ≤ j →
    (∀ x, i < x → x ≤ j → node.pageNoArray[x]? = some 0) →
    skipEmptySlots node j = Outcome.ok (some i) := by
  intro j
  induction j with
  | zero =>
    intro hij _
    have : i = 0 := by omega
    subst this
    simp [skipEmptySlots, hp, hp0]
  | succ j ih =>
    intro hij hz
    rcases Nat.eq_or_lt_of_le hij with h | h
    · subst h
      simp [skipEmptySlots, hp, hp0]
    · have hz1 := hz (j + 1) h (Nat.le_refl _)
      simp only [skipEmptySlots, hz1, if_true]
      exact ih (by omega) (fun x h1 h2 => hz x h1 (by omega))

/-- In a node with an unused key slot the insertion descent stops at once for every positive
search key: the first key it compares is the zero of the unused slot next to the last
occupied child `i`, so that child is selected whatever the occupied keys are. -/
theorem NextNonLeafNode_last_child (N : Nat) (node : NonLeafNodeInt) (key : Int) (i p : Nat)
    (hi : 0 < i) (hiN : i ≤ N) (hp : node.pageNoArray[i]? = some p) (hp0 : p ≠ 0)
    (hz : ∀ x, i < x → x ≤ N → node.pageNoArray[x]? = some 0)
    (hk : node.keyArray[i]? = some 0) (hkey : 0 < key) :
    NextNonLeafNode N node key = Outcome.ok p := by
  obtain ⟨k, rfl⟩ : ∃ k, i = k + 1 := ⟨i - 1, by omega⟩
  have h1 := skipEmptySlots_stops node (k + 1) p hp hp0 N hiN hz
  have h2 : skipGreaterKeys node key (k + 1) = Outcome.ok (k + 1) := by
    simp only [skipGreaterKeys, hk]
    rw [if_neg (by omega)]
  simp only [NextNonLeafNode, h1, h2, hp]

/-- In a full node the insertion descent reads `keyArray[nodeOccupancy]`, one past the end
of the key array, for every search key. -/
theorem NextNonLeafNode_full (N : Nat) (node : NonLeafNodeInt) (key : Int) (p : Nat)
    (hN : 0 < N) (hlen : node.keyArray.length = N)
    (hp : node.pageNoArray[N]? = some p) (hp0 : p ≠ 0) :
    NextNonLeafNode N node key = Outcome.throw Exn.ArrayIndexOutOfBounds := by
  obtain ⟨k, rfl⟩ : ∃ k, N = k + 1 := ⟨N - 1, by omega⟩
  have h1 := skipEmptySlots_stops node (k + 1) p hp hp0 (k + 1) (Nat.le_refl _)
    (fun x h1 h2 => by omega)
  have hk : node.keyArray[k + 1]? = none := by
    rw [List.getElem?_eq_none_iff]; omega
  simp only [NextNonLeafNode, h1, skipGreaterKeys, hk]

theorem findLeastPageIdLoop_none_greater (node : NonLeafNodeInt) (key : Int)
    (h : ∀ k ∈ node.keyArray, k ≤ key) : ∀ n i, i + n = node.keyArray.length →
    findLeastPageIdLoop node key n i = node.pageNoArray.getD node.keyArray.length 0 := by
  intro n
  induction n with
  | zero =>
    intro i hi
    simp only [findLeastPageIdLoop]
    rw [show i = node.keyArray.length by omega]
  | succ n ih =>
    intro i hi
    have hlt : i < node.keyArray.length := by omega
    have hle : node.keyArray.getD i 0 ≤ key := by
      rw [List.getD_eq_getElem?_getD, List.getElem?_eq_getElem hlt]
      exact h _ (List.getElem_mem hlt)
    simp only [findLeastPageIdLoop]
    rw [if_neg (by omega)]
    exact ih (i + 1) (by omega)

/-- When no slot of the key array, used or unused, holds a key greater than the search key,
the scan descent returns the last slot of the child array, which is the empty sentinel 0 in
every node that is not full. -/
theorem findLeastPageId_none_greater (node : NonLeafNodeInt) (key : Int) (op : Operator)
    (h : ∀ k ∈ node.keyArray, k ≤ key) :
    findLeastPageId node.keyArray.length node key op =
      node.pageNoArray.getD node.keyArray.length 0 :=
  findLeastPageIdLoop_none_greater node key h _ 0 (by omega)

/-- C19 (the code's behaviour): `exNode` (capacity 4, keys 10, 20, children
2, 3, 4) and `exFullNode` (keys 10 to 40, children 2 to 6) are nodes of the claimed shape.
For the search key 15 the rule selects child 3 and so does the scan descent, but the
insertion descent selects child 4; for the search key 25 the rule selects child 4 and so does
the insertion descent, but the scan descent returns the empty sentinel 0; in the full node
the insertion descent indexes `keyArray` out of bounds. -/
theorem descents_disagree :
    NodeShape 4 exNode ∧ NodeShape 4 exFullNode ∧
      specChild exNode 15 = 3 ∧ findLeastPageId 4 exNode 15 Operator.GT = 3 ∧
      NextNonLeafNode 4 exNode 15 = Outcome.ok 4 ∧
      specChild exNode 25 = 4 ∧ NextNonLeafNode 4 exNode 25 = Outcome.ok 4 ∧
      findLeastPageId 4 exNode 25 Operator.GT = 0 ∧
      specChild exFullNode 35 = 5 ∧ findLeastPageId 4 exFullNode 35 Operator.GT = 5 ∧
      NextNonLeafNode 4 exFullNode 35 = Outcome.throw Exn.ArrayIndexOutOfBounds := by
  decide

/-! ## C21: `scanNext` at the end of a partly filled leaf -/

/-- Below the capacity of the leaf `scanNext` never looks at the right sibling: the slot at
`nextEntry` is tested against the high bound and, if it passes, its record id is returned;
the buffer manager is not called. -/
theorem scanNext_below_capacity (codec : NodeCodec) (fuel : Nat) (idx : BTreeIndex)
    (key : Int) (hs : idx.scanExecuting = true) (h0 : 0 ≤ idx.nextEntry)
    (hlt : idx.nextEntry < idx.leafOccupancy)
    (hk : (codec.asLeaf (idx.bufMgr.page idx.currentPageData)).keyArray[idx.nextEntry.toNat]? =
      some key) :
    (∀ rid, highBoundHolds idx.highOp key idx.highValInt = Outcome.ok true →
      (codec.asLeaf (idx.bufMgr.page idx.currentPageData)).ridArray[idx.nextEntry.toNat]? =
        some rid →
      scanNext codec fuel idx =
        some (Outcome.ok rid, { idx with nextEntry := idx.nextEntry + 1 })) ∧
    (highBoundHolds idx.highOp key idx.highValInt = Outcome.ok false →
      scanNext codec fuel idx = some (Outcome.throw Exn.IndexScanCompletedException, idx)) := by
  have h1 : ¬ idx.nextEntry < 0 := by omega
  have h2 : ¬ idx.nextEntry ≥ (idx.leafOccupancy : Int) := by omega
  constructor
  · intro rid hb hr
    cases fuel <;> simp [scanNext, h1, hs, h2, hk, hb, hr]
  · intro hb
    cases fuel <;> simp [scanNext, h1, hs, h2, hk, hb]

/-- C21 (the code's behaviour): `scanNext` moves to the right sibling only when `nextEntry`
has reached the capacity of the leaf (`leafRidLength` is the size of `ridArray`), not its
number of entries. For every `nextEntry` below the capacity whose slot passes the high-bound
test it returns the record id of that slot and calls the buffer manager not at all. In
`exScan` the current leaf (page 2, capacity 4) holds the two keys -7, -5, its right sibling
is page 3 and `nextEntry = 2`: with the bound `≤ 20` `scanNext` returns the record id (0, 0)
of the unused slot 2; with the bound `≤ -1` it signals scan completed, although the sibling
holds the keys -4, -2. Only at `nextEntry = 4` does it unpin page 2 and return entry 0 of
page 3. -/
theorem scanNext_reads_unused_slots :
    (∀ (codec : NodeCodec) (fuel : Nat) (idx : BTreeIndex) (key : Int) (rid : RecordId),
      idx.scanExecuting = true → 0 ≤ idx.nextEntry → idx.nextEntry < idx.leafOccupancy →
      (codec.asLeaf (idx.bufMgr.page idx.currentPageData)).keyArray[idx.nextEntry.toNat]? =
        some key →
      highBoundHolds idx.highOp key idx.highValInt = Outcome.ok true →
      (codec.asLeaf (idx.bufMgr.page idx.currentPageData)).ridArray[idx.nextEntry.toNat]? =
        some rid →
      scanNext codec fuel idx =
        some (Outcome.ok rid, { idx with nextEntry := idx.nextEntry + 1 })) ∧
    runCalls [Call.readPage 9 1, Call.readPage 9 2] (BufMgr.new 3 exTreeDisk) =
      some exTreePool ∧
    exTreeCodec.asLeaf (exScan.bufMgr.page exScan.currentPageData) =
      { keyArray := [-7, -5, 0, 0], ridArray := [⟨1, 1⟩, ⟨1, 2⟩, ⟨0, 0⟩, ⟨0, 0⟩],
        rightSibPageNo := 3 } ∧
    scanNext exTreeCodec 1 exScan =
      some (Outcome.ok ⟨0, 0⟩, { exScan with nextEntry := 3 }) ∧
    scanNext exTreeCodec 1 { exScan with highValInt := -1 } =
      some (Outcome.throw Exn.IndexScanCompletedException, { exScan with highValInt := -1 }) ∧
    (∃ t, scanNext exTreeCodec 1 { exScan with nextEntry := 4 } =
        some (Outcome.ok ⟨1, 3⟩, t) ∧
      t.currentPageNum = 3 ∧ t.nextEntry = 1 ∧
      pinOf t.bufMgr 9 2 = 0 ∧ pinOf t.bufMgr 9 3 = 1 ∧
      t.bufMgr.disk.log = exScan.bufMgr.disk.log ++ [FileOp.read 9 3]) := by
  refine ⟨fun codec fuel idx key rid hs h0 hlt hk hb hr =>
      (scanNext_below_capacity codec fuel idx key hs h0 hlt hk).1 rid hb hr,
    by decide, by decide, by decide, by decide, ⟨_, rfl, ?_⟩⟩
  decide

/-! ## C22: the pins `insertEntry` leaves behind -/

/-- Replacing the descriptor of the frame that holds page `(file, pageNo)` changes the pin
count of that page only. -/
theorem pinOf_setDesc {s : BufMgr} (hI : PoolInv s) (file pageNo f : Nat) (d : BufDesc)
    (hl : s.hashTable.lookup file pageNo = some f) (f1 p1 : Nat) :
    pinOf (s.setDesc f d) f1 p1 =
      if (f1, p1) = (file, pageNo) then d.pinCnt else pinOf s f1 p1 := by
  have hf := (hI.2.2.2.1 file pageNo f).1 hl
  have hlen : f < s.bufDescTable.length := by rw [hI.1]; exact hf.1
  unfold pinOf
  rw [setDesc_hashTable]
  by_cases hk : (f1, p1) = (file, pageNo)
  · rw [if_pos hk]
    simp only [Prod.mk.injEq] at hk
    rw [hk.1, hk.2, hl]
    simp only
    rw [desc_setDesc_self s f d hlen]
  · rw [if_neg hk]
    cases hg : s.hashTable.lookup f1 p1 with
    | none => rfl
    | some g =>
      simp only
      have hgf : f ≠ g := by
        intro e
        subst e
        have h2 := (hI.2.2.2.1 f1 p1 f).1 hg
        apply hk
        have e1 : some f1 = some file := h2.2.2.1.symm.trans hf.2.2.1
        rw [Option.some.inj e1, ← h2.2.2.2, hf.2.2.2]
      rw [desc_setDesc_ne s f g d hgf]

/-- A successful `unPinPage` lowers the pin count of its page by one (it leaves it 0 when the
page is not resident) and changes no other. -/
theorem pinOf_unPinPage {s t : BufMgr} (hI : PoolInv s) (file pageNo : Nat) (dirty : Bool)
    (u : Unit) (h : unPinPage s file pageNo dirty = (Outcome.ok u, t)) (f1 p1 : Nat) :
    pinOf t f1 p1 = pinOf s f1 p1 - (if (f1, p1) = (file, pageNo) then 1 else 0) := by
  cases hl : s.hashTable.lookup file pageNo with
  | none =>
    simp only [unPinPage, hl, Prod.mk.injEq, true_and] at h
    subst h
    by_cases hk : (f1, p1) = (file, pageNo)
    · rw [if_pos hk]
      simp only [Prod.mk.injEq] at hk
      rw [hk.1, hk.2]
      simp [pinOf, hl]
    · rw [if_neg hk]; rfl
  | some f =>
    have hp : pinOf s file pageNo = (s.desc f).pinCnt := by simp [pinOf, hl]
    rcases Nat.eq_zero_or_pos (s.desc f).pinCnt with h0 | h0
    · simp [unPinPage, hl, h0] at h
    · have hlen := desc_pinCnt_pos_lt s f h0
      have ht : ∃ d : BufDesc, d.pinCnt = (s.desc f).pinCnt - 1 ∧ t = s.setDesc f d := by
        cases dirty
        · simp only [unPinPage, hl, h0, gt_iff_lt, if_true, Bool.false_eq_true, if_false,
            Prod.mk.injEq, true_and] at h
          exact ⟨_, rfl, h.symm⟩
        · simp only [unPinPage, hl, h0, gt_iff_lt, if_true, Prod.mk.injEq, true_and,
            setDesc_setDesc, desc_setDesc_self s f _ hlen] at h
          exact ⟨_, rfl, h.symm⟩
      obtain ⟨d, hd, rfl⟩ := ht
      rw [pinOf_setDesc hI file pageNo f d hl, hd]
      by_cases hk : (f1, p1) = (file, pageNo)
      · rw [if_pos hk, if_pos hk]
        simp only [Prod.mk.injEq] at hk
        rw [hk.1, hk.2, hp]
      · rw [if_neg hk, if_neg hk]; rfl

/-- A successful `readPage` raises the pin count of its page by one and changes no other: a
page it evicts had pin count 0 and is non-resident afterwards. -/
theorem pinOf_readPage {s t : BufMgr} (hI : PoolInv s) (file pageNo fr : Nat)
    (h : readPage s file pageNo = some (Outcome.ok fr, t)) (f1 p1 : Nat) :
    pinOf t f1 p1 = pinOf s f1 p1 + (if (f1, p1) = (file, pageNo) then 1 else 0) := by
  cases hl : s.hashTable.lookup file pageNo with
  | some f =>
    have hp : pinOf s file pageNo = (s.desc f).pinCnt := by simp [pinOf, hl]
    simp only [badgerdb.readPage, hl, Option.some.injEq, Prod.mk.injEq] at h
    rw [← h.2, pinOf_setDesc hI file pageNo f _ hl]
    by_cases hk : (f1, p1) = (file, pageNo)
    · rw [if_pos hk, if_pos hk]
      simp only [Prod.mk.injEq] at hk
      rw [hk.1, hk.2, hp]
    · rw [if_neg hk, if_neg hk]; rfl
  | none =>
    have hp : pinOf s file pageNo = 0 := by simp [pinOf, hl]
    have hI1 : PoolInv { s with disk := (s.disk.readPage file pageNo).2 } := hI.disk_log _ rfl
    cases hr : s.disk.find file pageNo with
    | none =>
      rw [readPage_miss_invalid s file pageNo hl hr] at h
      simp at h
    | some pg =>
      obtain ⟨⟨r1, s1⟩, ha⟩ :=
        allocBuf_terminates { s with disk := (s.disk.readPage file pageNo).2 }
      cases r1 with
      | throw e =>
        rw [readPage_miss_throw s s1 file pageNo pg e hl hr ha] at h
        simp at h
      | ok f =>
        rw [readPage_miss_ok s s1 file pageNo f pg hl hr ha] at h
        simp only [Option.some.injEq, Prod.mk.injEq] at h
        rw [← h.2]
        obtain ⟨u, c1, c2, c3, c4, c5, c6⟩ := allocBuf_ok_of_inv hI1 ha
        subst c5
        have hsd : ∀ j, (u.desc j).pinCnt = (s.desc j).pinCnt := fun j => c1.pinCnt_eq j
        have hsl : u.hashTable = s.hashTable := c1.2.1
        have hlen : f < (evicted u).bufDescTable.length := by
          rw [(evicted_fields u).2.2.1, c2.1, c1.1]; exact c4
        obtain ⟨_, _, _, _, _, b6, b7, b8⟩ := installPage_fields (evicted u) f file pageNo pg
        unfold pinOf
        rw [b6, lookup_insert]
        by_cases hk : (f1, p1) = (file, pageNo)
        · rw [if_pos hk, if_pos hk]
          simp only [Prod.mk.injEq] at hk
          rw [hk.1, hk.2, hl]
          simp only
          rw [b7 hlen]
          simp [BufDesc.Set]
        · rw [if_neg hk, if_neg hk, (evicted_fields u).2.2.2.2.1, ← c3, hsl]
          by_cases hm : (u.desc f).file = some f1 ∧ (u.desc f).pageNo = p1
          · rw [if_pos hm]
            cases hg : s.hashTable.lookup f1 p1 with
            | none => rfl
            | some g =>
              simp only
              have hg2 := (c2.2.2.2.1 f1 p1 g).1 (hsl ▸ hg)
              have hv : (u.desc f).valid = true := by
                cases hv : (u.desc f).valid with
                | true => rfl
                | false =>
                  have := c2.2.2.2.2.1 f hv
                  rw [hm.1] at this
                  cases this
              have hfg : f = g := c2.unique f g f1 hv hg2.2.1 hm.1 hg2.2.2.1
                (hm.2.trans hg2.2.2.2.symm)
              rcases c6 with hc | ⟨_, _, hc⟩
              · rw [hv] at hc; cases hc
              · rw [← hfg, ← hsd, hc]
          · rw [if_neg hm]
            cases hg : s.hashTable.lookup f1 p1 with
            | none => rfl
            | some g =>
              simp only
              have hg2 := (c2.2.2.2.1 f1 p1 g).1 (hsl ▸ hg)
              have hgf : g ≠ f := by
                intro e
                subst e
                exact hm ⟨hg2.2.2.1, hg2.2.2.2⟩
              rw [b8 g hgf, desc_evicted, hsd]
              rfl

/-- Entered on a pinned page with a null `child_data`, a `search` that returns normally has
released the pin of that page and left one pin on a page `q` (the page the descent ended on):
counting the pin it gave up, every other pin count is as before. -/
theorem search_pins (codec : NodeCodec) (childBranch : ChildBranch) (fuel : Nat) :
    ∀ (idx : BTreeIndex) (frame pageNo : Nat) (is_leaf : Bool) (entry : RIDKeyPair)
      (r : Option PageKeyPair) (t : BTreeIndex),
    PoolInv idx.bufMgr → 1 ≤ pinOf idx.bufMgr idx.file pageNo →
    search codec childBranch fuel idx frame pageNo is_leaf entry none =
      some (Outcome.ok r, t) →
    PoolInv t.bufMgr ∧ ∃ q, ∀ f1 p1,
      pinOf t.bufMgr f1 p1 + (if (f1, p1) = (idx.file, pageNo) then 1 else 0) =
        pinOf idx.bufMgr f1 p1 + (if (f1, p1) = (idx.file, q) then 1 else 0) := by
  induction fuel with
  | zero => intro idx frame pageNo is_leaf entry r t _ _ h; simp [search] at h
  | succ fuel ih =>
    intro idx frame pageNo is_leaf entry r t hI hpin h
    cases is_leaf with
    | true =>
      simp only [search, if_true, Option.some.injEq, Prod.mk.injEq] at h
      obtain ⟨_, rfl⟩ := h
      exact ⟨hI, pageNo, fun f1 p1 => rfl⟩
    | false =>
      simp only [search, Bool.false_eq_true, if_false] at h
      cases hn : NextNonLeafNode idx.nodeOccupancy (codec.asNonLeaf (idx.bufMgr.page frame))
          entry.key with
      | throw e => rw [hn] at h; simp at h
      | ok next =>
        rw [hn] at h
        simp only at h
        cases hr : readPage idx.bufMgr idx.file next with
        | none => rw [hr] at h; cases h
        | some rb =>
          obtain ⟨r1, b⟩ := rb
          rw [hr] at h
          cases r1 with
          | throw e => simp at h
          | ok page_next =>
            simp only at h
            have hIb : PoolInv b := hI.readPage hr
            have hb := pinOf_readPage hI idx.file next page_next hr
            cases hs : search codec childBranch fuel { idx with bufMgr := b } page_next next
                (decide ((codec.asNonLeaf (idx.bufMgr.page frame)).level = 1)) entry none with
            | none => rw [hs] at h; cases h
            | some rt =>
              obtain ⟨r2, idx1⟩ := rt
              obtain ⟨h1, h2, _⟩ := search_readOnly _ _ _ _ _ _ _ _ _ _ hs
              rw [hs] at h
              rcases h1 with rfl | ⟨e, rfl⟩
              · simp only at h
                have hfile : idx1.file = idx.file := by rw [h2]
                obtain ⟨hI1, q, hq⟩ := ih { idx with bufMgr := b } page_next next _ entry none
                  idx1 hIb (by have := hb idx.file next; simp at this; simp; omega) hs
                simp only at hq
                cases hu : unPinPage idx1.bufMgr idx1.file pageNo false with
                | mk r3 b2 =>
                  rw [hu] at h
                  cases r3 with
                  | throw e => simp at h
                  | ok u =>
                    simp only [Option.some.injEq, Prod.mk.injEq] at h
                    obtain ⟨_, rfl⟩ := h
                    have hI2 : PoolInv b2 := by
                      have := hI1.unPinPage idx1.file pageNo false
                      rwa [hu] at this
                    have hb2 := pinOf_unPinPage hI1 idx1.file pageNo false u hu
                    rw [hfile] at hb2
                    refine ⟨hI2, q, fun f1 p1 => ?_⟩
                    have e1 := hb f1 p1
                    have e2 := hq f1 p1
                    have e3 := hb2 f1 p1
                    simp only
                    by_cases hP : (f1, p1) = (idx.file, pageNo)
                    · have hpin2 : 1 ≤ pinOf idx.bufMgr f1 p1 := by
                        simp only [Prod.mk.injEq] at hP
                        rw [hP.1, hP.2]; exact hpin
                      rw [if_pos hP] at e3 ⊢
                      split_ifs at e1 e2 ⊢ <;> omega
                    · rw [if_neg hP] at e3 ⊢
                      split_ifs at e1 e2 ⊢ <;> omega
              · simp at h

/-- Whenever `insertEntry` returns normally from a consistent pool, exactly one page of the
index file is pinned once more than before the call, and every other pin count is as it
was. -/
theorem insertEntry_pins (codec : NodeCodec) (childBranch : ChildBranch) (fuel : Nat)
    (idx : BTreeIndex) (key : Int) (rid : RecordId) (t : BTreeIndex)
    (hI : PoolInv idx.bufMgr)
    (h : insertEntry codec childBranch fuel idx key rid = some (Outcome.ok (), t)) :
    ∃ q, ∀ f1 p1, pinOf t.bufMgr f1 p1 =
      pinOf idx.bufMgr f1 p1 + (if (f1, p1) = (idx.file, q) then 1 else 0) := by
  unfold insertEntry at h
  cases hr : readPage idx.bufMgr idx.file idx.rootPageNum with
  | none => rw [hr] at h; cases h
  | some rb =>
    obtain ⟨r1, b⟩ := rb
    rw [hr] at h
    cases r1 with
    | throw e => simp at h
    | ok rootPage =>
      simp only at h
      have hIb : PoolInv b := hI.readPage hr
      have hb := pinOf_readPage hI idx.file idx.rootPageNum rootPage hr
      cases hs : search codec childBranch fuel { idx with bufMgr := b } rootPage idx.rootPageNum
          (decide (idx.initialRootPageNum = idx.rootPageNum)) { rid := rid, key := key }
          none with
      | none => rw [hs] at h; cases h
      | some rt =>
        obtain ⟨r2, idx1⟩ := rt
        rw [hs] at h
        cases r2 with
        | throw e => simp at h
        | ok r3 =>
          simp only [Option.some.injEq, Prod.mk.injEq, true_and] at h
          subst h
          obtain ⟨_, q, hq⟩ := search_pins codec childBranch fuel { idx with bufMgr := b }
            rootPage idx.rootPageNum _ _ r3 idx1 hIb
            (by have := hb idx.file idx.rootPageNum; simp at this; simp; omega) hs
          simp only at hq
          refine ⟨q, fun f1 p1 => ?_⟩
          have e1 := hb f1 p1
          have e2 := hq f1 p1
          split_ifs at e1 e2 ⊢ <;> omega

/-- C22 (the code's behaviour): `insertEntry` does not release every pin it took. Whenever it
returns normally from a consistent pool, some page `q` of the index file ends with one pin
more than before the call, all other pin counts being unchanged: `search` has no code for a
leaf, so the page the descent ends on is never unpinned. On the freshly created index
`exIndex` that page is the root, pinned twice after the call, so that after the one
`unPinPage` of the destructor `flushFile` throws `PagePinnedException`. On the tree of
`exScan` the root is back at one pin and the leaf on page 4, not pinned before, is left
pinned. -/
theorem insertEntry_leaves_a_pin :
    (∀ (codec : NodeCodec) (childBranch : ChildBranch) (fuel : Nat) (idx : BTreeIndex)
        (key : Int) (rid : RecordId) (t : BTreeIndex),
      PoolInv idx.bufMgr →
      insertEntry codec childBranch fuel idx key rid = some (Outcome.ok (), t) →
      ∃ q, (∀ f1 p1, pinOf t.bufMgr f1 p1 =
          pinOf idx.bufMgr f1 p1 + (if (f1, p1) = (idx.file, q) then 1 else 0)) ∧
        pinOf idx.bufMgr idx.file q < pinOf t.bufMgr idx.file q) ∧
    runCalls [Call.allocPage 9] (BufMgr.new 3 { pages := [], log := [] }) =
      some exIndex.bufMgr ∧
    (∃ t, insertEntry exCodec (fun _ _ _ _ => none) 2 exIndex 5 ⟨3, 1⟩ =
        some (Outcome.ok (), t) ∧
      pinOf exIndex.bufMgr 9 1 = 1 ∧ pinOf t.bufMgr 9 1 = 2 ∧
      (flushFile (unPinPage t.bufMgr 9 1 false).2 9).1 =
        Outcome.throw Exn.PagePinnedException) ∧
    runCalls [Call.readPage 9 1, Call.readPage 9 2] (BufMgr.new 3 exTreeDisk) =
      some exScan.bufMgr ∧
    (∃ t, insertEntry exTreeCodec (fun _ _ _ _ => none) 2 exScan 5 ⟨3, 1⟩ =
        some (Outcome.ok (), t) ∧
      pinOf exScan.bufMgr 9 1 = 1 ∧ pinOf t.bufMgr 9 1 = 1 ∧
      pinOf exScan.bufMgr 9 4 = 0 ∧ pinOf t.bufMgr 9 4 = 1) := by
  refine ⟨fun codec childBranch fuel idx key rid t hI h => ?_, by decide,
    ⟨_, rfl, by decide⟩, by decide, ⟨_, rfl, by decide⟩⟩
  obtain ⟨q, hq⟩ := insertEntry_pins codec childBranch fuel idx key rid t hI h
  refine ⟨q, hq, ?_⟩
  have := hq idx.file q
  simp at this
  omega

/-! ## C13: `startScan` once it has reached its leaf -/

/-- A page that `readPage` returned is resident in the frame returned. -/
theorem readPage_ok_resident (s t : BufMgr) (file pageNo f : Nat)
    (h : readPage s file pageNo = some (Outcome.ok f, t)) :
    t.hashTable.lookup file pageNo = some f := by
  cases hl : s.hashTable.lookup file pageNo with
  | some g =>
    simp only [badgerdb.readPage, hl, Option.some.injEq, Prod.mk.injEq, Outcome.ok.injEq] at h
    rw [← h.2, setDesc_hashTable, hl, h.1]
  | none =>
    cases hr : s.disk.find file pageNo with
    | none =>
      rw [readPage_miss_invalid s file pageNo hl hr] at h
      simp at h
    | some pg =>
      obtain ⟨⟨r1, s1⟩, ha⟩ :=
        allocBuf_terminates { s with disk := (s.disk.readPage file pageNo).2 }
      cases r1 with
      | throw e =>
        rw [readPage_miss_throw s s1 file pageNo pg e hl hr ha] at h
        simp at h
      | ok g =>
        rw [readPage_miss_ok s s1 file pageNo g pg hl hr ha] at h
        simp only [Option.some.injEq, Prod.mk.injEq, Outcome.ok.injEq] at h
        rw [← h.2, (installPage_fields s1 g file pageNo pg).2.2.2.2.2.1, lookup_insert,
          if_pos rfl, h.1]

/-- Reading a resident page succeeds. -/
theorem readPage_resident_ok (s : BufMgr) (file pageNo f : Nat)
    (h : s.hashTable.lookup file pageNo = some f) :
    ∃ t, readPage s file pageNo = some (Outcome.ok f, t) := by
  simp only [badgerdb.readPage, h]
  exact ⟨_, rfl⟩

/-- The loop of `startScan` never assigns `nextEntry`. -/
theorem startScanLoop_nextEntry (codec : NodeCodec) (lowOpParm : Operator) (fuel : Nat) :
    ∀ (idx : BTreeIndex) (nextNode : NonLeafNodeInt) (traversalPageId : Nat) (e : Exn)
      (t : BTreeIndex),
    startScanLoop codec lowOpParm fuel idx nextNode traversalPageId = some (e, t) →
    t.nextEntry = idx.nextEntry := by
  induction fuel with
  | zero => intro idx nextNode tid e t h; simp [startScanLoop] at h
  | succ fuel ih =>
    intro idx nextNode tid e t h
    simp only [startScanLoop] at h
    split at h
    · split at h
      · cases h
      · simp only [Option.some.injEq, Prod.mk.injEq] at h
        rw [← h.2]
      · split at h
        · split at h
          · simp only [Option.some.injEq, Prod.mk.injEq] at h
            rw [← h.2]
          · have := ih _ _ _ _ _ h
            exact this
        · have := ih _ _ _ _ _ h
          exact this
    · split at h
      · simp only [Option.some.injEq, Prod.mk.injEq] at h
        rw [← h.2]
      · split at h
        · cases h
        · rename_i hg
          simp only [Option.some.injEq, Prod.mk.injEq] at h
          rw [← h.2]
          simp only [getNonLeafNodeFromPage] at hg
          split at hg
          · cases hg
          · simp only [Option.some.injEq, Prod.mk.injEq] at hg
            rw [← hg.2]
          · simp at hg
        · rename_i hg
          rw [ih _ _ _ _ _ h]
          simp only [getNonLeafNodeFromPage] at hg
          split at hg
          · cases hg
          · simp at hg
          · simp only [Option.some.injEq, Prod.mk.injEq] at hg
            rw [← hg.2]

/-- Whatever `startScan` ends with, `nextEntry` is what it was before the call. -/
theorem startScan_nextEntry (codec : NodeCodec) (fuel : Nat) (idx : BTreeIndex)
    (lowValParm : IntPtr) (lowOpParm : Operator) (highValParm : IntPtr)
    (highOpParm : Operator) (r : Outcome Unit) (t : BTreeIndex)
    (h : startScan codec fuel idx lowValParm lowOpParm highValParm highOpParm = some (r, t)) :
    t.nextEntry = idx.nextEntry := by
  unfold startScan at h
  split at h
  · simp only [Option.some.injEq, Prod.mk.injEq] at h; rw [← h.2]
  split at h
  · simp only [Option.some.injEq, Prod.mk.injEq] at h; rw [← h.2]
  split at h
  · simp only [Option.some.injEq, Prod.mk.injEq] at h; rw [← h.2]
  simp only at h
  split at h
  · cases h
  · rename_i hg
    simp only [Option.some.injEq, Prod.mk.injEq] at h
    rw [← h.2]
    simp only [getRootNode, getNonLeafNodeFromPage] at hg
    split at hg
    · cases hg
    · simp only [Option.some.injEq, Prod.mk.injEq] at hg
      rw [← hg.2]
    · simp at hg
  · rename_i hg
    split at h
    · cases h
    · rename_i hl
      simp only [Option.some.injEq, Prod.mk.injEq] at h
      rw [← h.2, startScanLoop_nextEntry _ _ _ _ _ _ _ _ hl]
      simp only [getRootNode, getNonLeafNodeFromPage] at hg
      split at hg
      · cases hg
      · simp at hg
      · simp only [Option.some.injEq, Prod.mk.injEq] at hg
        rw [← hg.2]

/-- Below a node of level 1 reached from the root, the loop of `startScan` goes on for ever
once the leaf it selects is resident: every iteration reads that leaf again. -/
theorem startScanLoop_resident (codec : NodeCodec) (lowOpParm : Operator)
    (nextNode : NonLeafNodeInt) (hlevel : nextNode.level ≠ 0) (fuel : Nat) :
    ∀ (idx : BTreeIndex) (f : Nat),
    idx.bufMgr.hashTable.lookup idx.file
      (findLeastPageId idx.nodeOccupancy nextNode idx.lowValInt lowOpParm) = some f →
    startScanLoop codec lowOpParm fuel idx nextNode idx.rootPageNum = none := by
  induction fuel with
  | zero => intro idx f _; rfl
  | succ fuel ih =>
    intro idx f hl
    obtain ⟨b, hb⟩ := readPage_resident_ok _ _ _ _ hl
    have hres := readPage_ok_resident _ _ _ _ _ hb
    simp only [startScanLoop, ne_eq, hlevel, not_false_eq_true, if_true, hb, not_true_eq_false,
      if_false]
    exact ih { idx with bufMgr := b, currentPageNum := _, currentPageData := f } f hres

/-- Once the loop of `startScan`, at a node of level 1 reached from the root, has read its
leaf, it never ends. -/
theorem startScanLoop_never_ends (codec : NodeCodec) (lowOpParm : Operator)
    (nextNode : NonLeafNodeInt) (hlevel : nextNode.level ≠ 0) (fuel : Nat)
    (idx : BTreeIndex) (p : Nat) (b : BufMgr)
    (h : readPage idx.bufMgr idx.file
      (findLeastPageId idx.nodeOccupancy nextNode idx.lowValInt lowOpParm) =
        some (Outcome.ok p, b)) :
    startScanLoop codec lowOpParm fuel idx nextNode idx.rootPageNum = none := by
  cases fuel with
  | zero => rfl
  | succ fuel =>
    have hres := readPage_ok_resident _ _ _ _ _ h
    simp only [startScanLoop, ne_eq, hlevel, not_false_eq_true, if_true, h, not_true_eq_false,
      if_false]
    exact startScanLoop_resident codec lowOpParm nextNode hlevel fuel
      { idx with bufMgr := b, currentPageNum := _, currentPageData := p } p hres

/-- When the root is a node of level 1 and the read of the leaf selected below it succeeds,
`startScan` does not return: no bound on the number of iterations suffices. -/
theorem startScan_never_returns (codec : NodeCodec) (fuel : Nat) (idx : BTreeIndex)
    (lowValParm : IntPtr) (lowOpParm : Operator) (highValParm : IntPtr)
    (highOpParm : Operator) (node : NonLeafNodeInt) (idx2 : BTreeIndex) (p : Nat) (b : BufMgr)
    (h1 : ¬ lowValParm.addr > highValParm.addr)
    (h2 : lowOpParm = Operator.GT ∨ lowOpParm = Operator.GTE)
    (h3 : highOpParm = Operator.LT ∨ highOpParm = Operator.LTE)
    (hg : getRootNode codec
      { idx with scanExecuting := true, lowValInt := lowValParm.val,
                 highValInt := highValParm.val, lowOp := lowOpParm, highOp := highOpParm } =
        some (Outcome.ok node, idx2))
    (hlevel : node.level ≠ 0)
    (hread : readPage idx2.bufMgr idx2.file
      (findLeastPageId idx2.nodeOccupancy node idx2.lowValInt lowOpParm) =
        some (Outcome.ok p, b)) :
    startScan codec fuel idx lowValParm lowOpParm highValParm highOpParm = none := by
  have h2n : ¬ (lowOpParm ≠ Operator.GT ∧ lowOpParm ≠ Operator.GTE) := by
    rcases h2 with h | h <;> simp [h]
  have h3n : ¬ (highOpParm ≠ Operator.LT ∧ highOpParm ≠ Operator.LTE) := by
    rcases h3 with h | h <;> simp [h]
  unfold startScan
  rw [if_neg h1, if_neg h2n, if_neg h3n]
  simp only [hg, startScanLoop_never_ends codec lowOpParm node hlevel fuel idx2 p b hread]

/-- C13 (the code's behaviour): `startScan` never leaves `nextEntry` positioned on its leaf.
Its descent is a `while (1)` without exit, so it ends only by an exception, and then
`nextEntry` is what it was before the call; and once it has read the leaf below a root of
level 1 it does not end at all, reading that leaf again in every iteration, so the statements
after the loop that assign `nextEntry` never run. On the tree of `exTree`,
`startScan(-8, GT, 20, LTE)` selects the leaf on page 2 (keys -7, -5, whose entry 0 satisfies
the low bound) and then never returns. -/
theorem startScan_never_positions :
    (∀ (codec : NodeCodec) (fuel : Nat) (idx : BTreeIndex) (lowValParm : IntPtr)
        (lowOpParm : Operator) (highValParm : IntPtr) (highOpParm : Operator)
        (r : Outcome Unit) (t : BTreeIndex),
      startScan codec fuel idx lowValParm lowOpParm highValParm highOpParm = some (r, t) →
      (∃ e, r = Outcome.throw e) ∧ t.nextEntry = idx.nextEntry) ∧
    (∀ (codec : NodeCodec) (fuel : Nat) (idx : BTreeIndex) (lowValParm : IntPtr)
        (lowOpParm : Operator) (highValParm : IntPtr) (highOpParm : Operator)
        (node : NonLeafNodeInt) (idx2 : BTreeIndex) (p : Nat) (b : BufMgr),
      ¬ lowValParm.addr > highValParm.addr →
      lowOpParm = Operator.GT ∨ lowOpParm = Operator.GTE →
      highOpParm = Operator.LT ∨ highOpParm = Operator.LTE →
      getRootNode codec
        { idx with scanExecuting := true, lowValInt := lowValParm.val,
                   highValInt := highValParm.val, lowOp := lowOpParm, highOp := highOpParm } =
          some (Outcome.ok node, idx2) →
      node.level ≠ 0 →
      readPage idx2.bufMgr idx2.file
        (findLeastPageId idx2.nodeOccupancy node idx2.lowValInt lowOpParm) =
          some (Outcome.ok p, b) →
      startScan codec fuel idx lowValParm lowOpParm highValParm highOpParm = none) ∧
    (∀ fuel, startScan exTreeCodec fuel exTree ⟨0, -8⟩ Operator.GT ⟨1, 20⟩ Operator.LTE =
      none) ∧
    findLeastPageId 4 exRoot (-8) Operator.GT = 2 ∧
    exTreeCodec.asLeaf ⟨2, 0⟩ =
      { keyArray := [-7, -5, 0, 0], ridArray := [⟨1, 1⟩, ⟨1, 2⟩, ⟨0, 0⟩, ⟨0, 0⟩],
        rightSibPageNo := 3 } := by
  refine ⟨fun codec fuel idx lo lop hi hop r t h => ⟨?_, startScan_nextEntry _ _ _ _ _ _ _ _ _ h⟩,
    fun codec fuel idx lo lop hi hop node idx2 p b h1 h2 h3 hg hl hr =>
      startScan_never_returns codec fuel idx lo lop hi hop node idx2 p b h1 h2 h3 hg hl hr,
    fun fuel => ?_, by decide, by decide⟩
  · rcases startScan_not_ok codec fuel idx lo lop hi hop with hn | ⟨e, u, hu⟩
    · rw [hn] at h; cases h
    · rw [hu] at h
      simp only [Option.some.injEq, Prod.mk.injEq] at h
      exact ⟨e, h.1.symm⟩
  · exact startScan_never_returns exTreeCodec fuel exTree ⟨0, -8⟩ Operator.GT ⟨1, 20⟩
      Operator.LTE exRoot _ 1 _ (by decide) (Or.inl rfl) (Or.inr rfl) rfl (by decide) rfl

/-! ## C15: `endScan` -/

/-- C15: `endScan` throws `ScanNotInitializedException` exactly when no scan is active (it
then leaves the index as it was). With a scan active it returns normally exactly when the
`unPinPage` of the current page does, in particular whenever that page is resident and
pinned; it has then released that pin, and no scan is active afterwards, so a second
`endScan` right after it throws `ScanNotInitializedException` and changes nothing. -/
theorem endScan_not_initialized_iff (idx : BTreeIndex) :
    ((endScan idx).1 = Outcome.throw Exn.ScanNotInitializedException ↔
      idx.scanExecuting = false) ∧
    (idx.scanExecuting = false → (endScan idx).2 = idx) ∧
    ((endScan idx).1 = Outcome.ok () ↔
      idx.scanExecuting = true ∧
        (unPinPage idx.bufMgr idx.file idx.currentPageNum false).1 = Outcome.ok ()) ∧
    (idx.scanExecuting = true → 1 ≤ pinOf idx.bufMgr idx.file idx.currentPageNum →
      (endScan idx).1 = Outcome.ok ()) ∧
    ((endScan idx).1 = Outcome.ok () →
      (endScan idx).2 =
        { idx with bufMgr := (unPinPage idx.bufMgr idx.file idx.currentPageNum false).2,
                   scanExecuting := false } ∧
      (endScan idx).2.scanExecuting = false ∧
      endScan (endScan idx).2 =
        (Outcome.throw Exn.ScanNotInitializedException, (endScan idx).2)) := by
  cases hs : idx.scanExecuting with
  | false => simp [endScan, hs]
  | true =>
    have hu := unPinPage_throws_only idx.bufMgr idx.file idx.currentPageNum false
    have hpin : 1 ≤ pinOf idx.bufMgr idx.file idx.currentPageNum →
        (unPinPage idx.bufMgr idx.file idx.currentPageNum false).1 = Outcome.ok () := by
      intro h
      unfold pinOf at h
      cases hl : idx.bufMgr.hashTable.lookup idx.file idx.currentPageNum with
      | none => rw [hl] at h; simp at h
      | some f =>
        rw [hl] at h
        simp only at h
        simp [unPinPage, hl, show 0 < (idx.bufMgr.desc f).pinCnt from h]
    cases hr : unPinPage idx.bufMgr idx.file idx.currentPageNum false with
    | mk r b =>
      rw [hr] at hu hpin
      cases r with
      | throw e =>
        have := hu e rfl
        subst this
        refine ⟨?_, ?_, ?_, ?_, ?_⟩
        · simp [endScan, hs, hr]
        · intro h; cases h
        · simp [endScan, hs, hr]
        · intro _ h; have := hpin h; simp at this
        · simp [endScan, hs, hr]
      | ok u => simp [endScan, hs, hr]

/-- On `exScan` (scan active, current leaf page 2 pinned once) `endScan` returns normally,
releases the pin of page 2 and ends the scan; the second `endScan` throws
`ScanNotInitializedException`. -/
theorem endScan_not_initialized_iff_witness :
    exScan.scanExecuting = true ∧ pinOf exScan.bufMgr 9 2 = 1 ∧
    (endScan exScan).1 = Outcome.ok () ∧
    (endScan exScan).2.scanExecuting = false ∧
    pinOf (endScan exScan).2.bufMgr 9 2 = 0 ∧
    endScan (endScan exScan).2 =
      (Outcome.throw Exn.ScanNotInitializedException, (endScan exScan).2) ∧
    ((endScan { exScan with scanExecuting := false }).1 =
      Outcome.throw Exn.ScanNotInitializedException) :=
  ⟨by decide, by decide,
    (endScan_not_initialized_iff exScan).2.2.2.1 (by decide) (by decide),
    ((endScan_not_initialized_iff exScan).2.2.2.2
      ((endScan_not_initialized_iff exScan).2.2.2.1 (by decide) (by decide))).2.1,
    by decide,
    ((endScan_not_initialized_iff exScan).2.2.2.2
      ((endScan_not_initialized_iff exScan).2.2.2.1 (by decide) (by decide))).2.2,
    (endScan_not_initialized_iff { exScan with scanExecuting := false }).1.2 (by decide)⟩

/-! ## C20: the split of a non-leaf node -/

/-- Started with a null `child_data`, `search` never enters the branch that calls
`insert_into_nonleaf` and `splitter`: its result does not depend on what that branch does. -/
theorem search_childBranch_unused (codec : NodeCodec) (cb1 cb2 : ChildBranch) (fuel : Nat) :
    ∀ (idx : BTreeIndex) (frame pageNo : Nat) (is_leaf : Bool) (entry : RIDKeyPair),
    search codec cb1 fuel idx frame pageNo is_leaf entry none =
      search codec cb2 fuel idx frame pageNo is_leaf entry none := by
  induction fuel with
  | zero => intro idx frame pageNo is_leaf entry; rfl
  | succ fuel ih =>
    intro idx frame pageNo is_leaf entry
    cases is_leaf with
    | true => simp only [search, if_true]
    | false =>
      simp only [search, Bool.false_eq_true, if_false]
      cases hn : NextNonLeafNode idx.nodeOccupancy (codec.asNonLeaf (idx.bufMgr.page frame))
          entry.key with
      | throw e => rfl
      | ok next =>
        simp only
        cases hr : readPage idx.bufMgr idx.file next with
        | none => rfl
        | some rb =>
          obtain ⟨r1, b⟩ := rb
          cases r1 with
          | throw e => rfl
          | ok page_next =>
            simp only
            rw [ih]
            cases hs : search codec cb2 fuel { idx with bufMgr := b } page_next next
                (decide ((codec.asNonLeaf (idx.bufMgr.page frame)).level = 1)) entry none with
            | none => rfl
            | some rt =>
              obtain ⟨r2, idx1⟩ := rt
              obtain ⟨h1, _, _⟩ := search_readOnly _ _ _ _ _ _ _ _ _ _ hs
              rcases h1 with rfl | ⟨e, rfl⟩ <;> rfl

theorem insertEntry_childBranch_unused (codec : NodeCodec) (cb1 cb2 : ChildBranch)
    (fuel : Nat) (idx : BTreeIndex) (key : Int) (rid : RecordId) :
    insertEntry codec cb1 fuel idx key rid = insertEntry codec cb2 fuel idx key rid := by
  unfold insertEntry
  cases hr : readPage idx.bufMgr idx.file idx.rootPageNum with
  | none => rfl
  | some rb =>
    obtain ⟨r1, b⟩ := rb
    cases r1 with
    | throw e => rfl
    | ok rootPage =>
      simp only
      rw [search_childBranch_unused codec cb1 cb2]

/-- C20 (the code's behaviour): the program never splits a node. `splitter` is called only
from the branch of `search` taken for a non-null `child_data`, and `child_data` stays null:
the result of `insertEntry` is the same whatever that branch does, and the only calls
`insertEntry` makes on the buffer manager are `readPage` and `unPinPage` with
`dirty = false`, so no sibling page is allocated and no node is changed. With the full node
`exFullNode` as root: if the root is not the initial root, the descent reads
`keyArray[nodeOccupancy]` and nothing else happens; if it is, `insertEntry` returns at once.
In both cases the file and the frame contents are as before: no sibling, no promoted pair. -/
theorem insertEntry_never_splits :
    (∀ (codec : NodeCodec) (cb1 cb2 : ChildBranch) (fuel : Nat) (idx : BTreeIndex) (key : Int)
        (rid : RecordId),
      insertEntry codec cb1 fuel idx key rid = insertEntry codec cb2 fuel idx key rid) ∧
    (∀ (codec : NodeCodec) (childBranch : ChildBranch) (fuel : Nat) (idx : BTreeIndex)
        (key : Int) (rid : RecordId) (r : Outcome Unit) (t : BTreeIndex),
      insertEntry codec childBranch fuel idx key rid = some (r, t) →
      t = { idx with bufMgr := t.bufMgr } ∧
      ∃ cs, (∀ c, c ∈ cs → c.readOnly) ∧ runCalls cs idx.bufMgr = some t.bufMgr) ∧
    exFullNode.keyArray.length = 4 ∧ exFullNode.pageNoArray[4]? = some 6 ∧
    (∀ childBranch : ChildBranch, ∃ t,
      insertEntry exFullCodec childBranch 2 exTree 35 ⟨3, 1⟩ =
        some (Outcome.throw Exn.ArrayIndexOutOfBounds, t) ∧
      t.bufMgr.disk = exTree.bufMgr.disk ∧ t.bufMgr.bufPool = exTree.bufMgr.bufPool ∧
      t.bufMgr.hashTable = exTree.bufMgr.hashTable) ∧
    (∀ childBranch : ChildBranch, ∃ t,
      insertEntry exFullCodec childBranch 2 exIndex 35 ⟨3, 1⟩ = some (Outcome.ok (), t) ∧
      t.bufMgr.disk = exIndex.bufMgr.disk ∧ t.bufMgr.bufPool = exIndex.bufMgr.bufPool ∧
      t.bufMgr.hashTable = exIndex.bufMgr.hashTable) := by
  refine ⟨insertEntry_childBranch_unused, fun codec cb fuel idx key rid r t h =>
      insertEntry_readOnly codec cb fuel idx key rid r t h, by decide, by decide,
    fun cb => ?_, fun cb => ?_⟩
  · rw [insertEntry_childBranch_unused exFullCodec cb (fun _ _ _ _ => none)]
    exact ⟨_, rfl, rfl, rfl, rfl⟩
  · rw [insertEntry_childBranch_unused exFullCodec cb (fun _ _ _ _ => none)]
    exact ⟨_, rfl, rfl, rfl, rfl⟩

end badgerdb
